import Mathlib

/-!
# httpapi: routing, middleware, dispatch, the JSON codec and the decoding of requests

A shallow embedding of `src/router.cpp`, `src/middleware.cpp`, `src/response.cpp`,
`src/request.cpp`, `src/utils.cpp`, `src/json_handler.cpp` and of
`HttpServer::processRequest` and `HttpServer::handleClient` of `src/http_server.cpp`,
followed by the properties proved about them.

A `std::string` is a `List Char` (one `Char` per `char`), an
`std::unordered_map<std::string, std::string>` is an association list with unique keys.
-/

namespace HttpApi

/-- A `std::string`. -/
abbrev Str := List Char

/-! ## `std::unordered_map<std::string, std::string>` -/

/-- The lookup `m.find(k)`: the value bound to `k`, when there is one. -/
def mapFind : List (Str × Str) → Str → Option Str
  | [], _ => none
  | (k', v') :: rest, k => if k' = k then some v' else mapFind rest k

/-- The assignment `m[k] = v`: replaces the value of an existing key, adds the key otherwise. -/
def mapSet : List (Str × Str) → Str → Str → List (Str × Str)
  | [], k, v => [(k, v)]
  | (k', v') :: rest, k, v => if k' = k then (k, v) :: rest else (k', v') :: mapSet rest k v

/-! ## `std::regex`, for the patterns `Route::pathToRegex` writes

`Route::pathToRegex` writes `^`, `$`, the group `([^/]+)`, ordinary characters and
backslash-escaped syntax characters. The model covers the part of the ECMAScript grammar
made of anchors, identity escapes, ordinary characters, bracket expressions listing plain
characters, unnested capture groups and the greedy quantifier `+` on a one-character atom.
Every other construct makes `regexCompile` answer `none`.
-/

/-- A one-character atom: a literal character or a bracket expression. -/
inductive CharClass where
  | lit (c : Char)
  | anyOf (cs : List Char)
  | noneOf (cs : List Char)
  deriving DecidableEq, Repr

/-- Whether the atom accepts the character. -/
def CharClass.test : CharClass → Char → Bool
  | .lit a, c => c == a
  | .anyOf cs, c => cs.contains c
  | .noneOf cs, c => !cs.contains c

/-- One element of a compiled pattern, which is a sequence of these. -/
inductive Node where
  | bol
  | eol
  | one (k : CharClass)
  | plus (k : CharClass)
  | openGroup
  | closeGroup
  deriving DecidableEq, Repr

/-- What the pattern reader is in the middle of. -/
inductive ReMode where
  | normal
  | escape
  | classStart
  | classBody (negated : Bool) (cs : List Char)
  deriving DecidableEq, Repr

/-- State of the pattern reader: the nodes read so far, whether a group is open, the mode. -/
structure ReParse where
  nodes : List Node
  inGroup : Bool
  mode : ReMode
  deriving DecidableEq, Repr

/-- The fourteen syntax characters of the ECMAScript pattern grammar. -/
def isSyntaxChar (c : Char) : Bool :=
  c == '^' || c == '$' || c == '\\' || c == '.' || c == '*' || c == '+' || c == '?' ||
  c == '(' || c == ')' || c == '[' || c == ']' || c == '{' || c == '}' || c == '|'

/-- Appends a node. -/
def ReParse.push (st : ReParse) (n : Node) : ReParse :=
  { st with nodes := st.nodes ++ [n], mode := .normal }

/-- Reads one pattern character; `none` is a `std::regex_error` or a construct outside the
modelled grammar. -/
def reStep (st : ReParse) (c : Char) : Option ReParse :=
  match st.mode with
  | .escape => if isSyntaxChar c then some (st.push (.one (.lit c))) else none
  | .classStart =>
    if c == '^' then some { st with mode := .classBody true [] }
    else if c == ']' then some (st.push (.one (.anyOf [])))
    else if c == '\\' || c == '-' || c == '[' then none
    else some { st with mode := .classBody false [c] }
  | .classBody neg cs =>
    if c == ']' then some (st.push (.one (if neg then .noneOf cs else .anyOf cs)))
    else if c == '\\' || c == '-' || c == '[' then none
    else some { st with mode := .classBody neg (cs ++ [c]) }
  | .normal =>
    if c == '\\' then some { st with mode := .escape }
    else if c == '[' then some { st with mode := .classStart }
    else if c == '(' then
      if st.inGroup then none else some { st.push .openGroup with inGroup := true }
    else if c == ')' then
      if st.inGroup then some { st.push .closeGroup with inGroup := false } else none
    else if c == '^' then some (st.push .bol)
    else if c == '$' then some (st.push .eol)
    else if c == '+' then
      match st.nodes.getLast? with
      | some (.one k) => some { st with nodes := st.nodes.dropLast ++ [.plus k] }
      | _ => none
    else if isSyntaxChar c then none
    else some (st.push (.one (.lit c)))

/-- Reads the pattern from left to right. -/
def reLoop : List Char → ReParse → Option ReParse
  | [], st => some st
  | c :: cs, st =>
    match reStep st c with
    | some st' => reLoop cs st'
    | none => none

/-- The constructor `std::regex(pattern)`: the compiled node sequence, or `none` when the
constructor throws. -/
def regexCompile (pattern : Str) : Option (List Node) :=
  match reLoop pattern { nodes := [], inGroup := false, mode := .normal } with
  | some st => if st.mode = .normal ∧ st.inGroup = false then some st.nodes else none
  | none => none

/-- State of the backtracking matcher. -/
structure MatchState where
  /-- the input not consumed yet -/
  rest : Str
  /-- the number of characters consumed -/
  consumed : Nat
  /-- the text of the group being captured, when one is open -/
  cur : Option Str
  /-- the finished sub-matches, leftmost group first -/
  caps : List Str
  deriving DecidableEq, Repr

/-- Consumes the character `c`, the input after it being `cs`. -/
def MatchState.eat (st : MatchState) (c : Char) (cs : Str) : MatchState :=
  { st with rest := cs, consumed := st.consumed + 1, cur := st.cur.map (· ++ [c]) }

/-- The greedy `+`: consumes one accepted character, then prefers to consume more, and
falls back to the rest of the pattern `k` when the longer attempt fails. -/
def plusLoop (p : Char → Bool) (k : MatchState → Option MatchState) :
    Str → MatchState → Option MatchState
  | [], _ => none
  | c :: cs, st =>
    if p c then
      match plusLoop p k cs (st.eat c cs) with
      | some r => some r
      | none => k (st.eat c cs)
    else none

/-- Matches the node sequence against the rest of the input; succeeds only when the whole
input is consumed, as `std::regex_match` requires. -/
def matchNodes : List Node → MatchState → Option MatchState
  | [], st => if st.rest.isEmpty then some st else none
  | .bol :: ns, st => if st.consumed = 0 then matchNodes ns st else none
  | .eol :: ns, st => if st.rest.isEmpty then matchNodes ns st else none
  | .one k :: ns, st =>
    match st.rest with
    | c :: cs => if k.test c then matchNodes ns (st.eat c cs) else none
    | [] => none
  | .plus k :: ns, st => plusLoop k.test (fun st' => matchNodes ns st') st.rest st
  | .openGroup :: ns, st => matchNodes ns { st with cur := some [] }
  | .closeGroup :: ns, st =>
    matchNodes ns { st with cur := none, caps := st.caps ++ [st.cur.getD []] }

/-- The call `std::regex_match(s, match, re)`: `none` when it answers false, otherwise the
sub-matches `match[1]`, `match[2]`, ... -/
def regexMatch (re : List Node) (s : Str) : Option (List Str) :=
  (matchNodes re { rest := s, consumed := 0, cur := none, caps := [] }).map (·.caps)

/-! ## `Request` and `Response` -/

/-- The class `Request` (its public data members). -/
structure Request where
  method : Str
  url : Str
  path : Str
  queryString : Str
  protocol : Str
  headers : List (Str × Str)
  body : Str
  params : List (Str × Str)
  queryParams : List (Str × Str)
  deriving DecidableEq, Repr

/-- Function `Request::setParam`. -/
def Request.setParam (req : Request) (name value : Str) : Request :=
  { req with params := mapSet req.params name value }

/-- Function `Request::param`. -/
def Request.param (req : Request) (name : Str) : Str :=
  (mapFind req.params name).getD []

/-- Function `Utils::toLowerCase`: `::tolower` on every character. -/
def toLowerCase (s : Str) : Str := s.map Char.toLower

/-- The loop of `Utils::normalizeHeaderName` over the lower-cased name. -/
def normalizeLoop : Bool → Str → Str
  | _, [] => []
  | capitalize, c :: cs =>
    if capitalize && c.isAlpha then c.toUpper :: normalizeLoop false cs
    else if c == '-' then c :: normalizeLoop true cs
    else c :: normalizeLoop capitalize cs

/-- Function `Utils::normalizeHeaderName`. -/
def normalizeHeaderName (name : Str) : Str := normalizeLoop true (toLowerCase name)

/-- The class `Response`, its private flags included. -/
structure Response where
  statusCode : Int
  statusMessage : Str
  headers : List (Str × Str)
  body : Str
  headersSent : Bool
  ended : Bool
  deriving DecidableEq, Repr

/-- Function `Response::getStatusText`. -/
def getStatusText (code : Int) : Str :=
  if code = 200 then "OK".toList
  else if code = 201 then "Created".toList
  else if code = 204 then "No Content".toList
  else if code = 301 then "Moved Permanently".toList
  else if code = 302 then "Found".toList
  else if code = 400 then "Bad Request".toList
  else if code = 401 then "Unauthorized".toList
  else if code = 403 then "Forbidden".toList
  else if code = 404 then "Not Found".toList
  else if code = 500 then "Internal Server Error".toList
  else if code = 501 then "Not Implemented".toList
  else if code = 502 then "Bad Gateway".toList
  else if code = 503 then "Service Unavailable".toList
  else "Unknown".toList

/-- Function `Response::status`. -/
def Response.status (res : Response) (code : Int) : Response :=
  { res with statusCode := code, statusMessage := getStatusText code }

/-- Function `Response::set`. -/
def Response.set (res : Response) (field value : Str) : Response :=
  { res with headers := mapSet res.headers (normalizeHeaderName field) value }

/-- Function `Response::header`. -/
def Response.header (res : Response) (field value : Str) : Response :=
  res.set field value

/-- Function `Response::send`; `std::to_string` of the length is its decimal digits. -/
def Response.send (res : Response) (data : Str) : Response :=
  let res := { res with body := data }
  let res := if !res.headersSent then
      { res.set "Content-Length".toList (Nat.toDigits 10 data.length) with headersSent := true }
    else res
  { res with ended := true }

/-- Function `Response::setDefaultHeaders`. -/
def Response.setDefaultHeaders (res : Response) : Response :=
  let res := if (mapFind res.headers "Content-Type".toList).isNone then
      res.set "Content-Type".toList "text/plain".toList
    else res
  let res := res.set "Server".toList "HttpApi/1.0".toList
  res.set "Connection".toList "close".toList

/-- The constructor `Response::Response`. -/
def Response.new : Response :=
  Response.setDefaultHeaders
    { statusCode := 200, statusMessage := "OK".toList, headers := [], body := [],
      headersSent := false, ended := false }

/-- The constructor `Request::Request`: every member empty. -/
def Request.new : Request :=
  { method := [], url := [], path := [], queryString := [], protocol := [], headers := [],
    body := [], params := [], queryParams := [] }

/-! ## `Route` -/

/-- The local variables of the loop of `Route::pathToRegex`. -/
structure RegexBuild where
  regex : Str
  currentParam : Str
  inParam : Bool
  paramNames : List Str
  deriving DecidableEq, Repr

/-- The characters `Route::pathToRegex` escapes with a backslash. -/
def needsEscape (c : Char) : Bool :=
  c == '.' || c == '+' || c == '*' || c == '?' || c == '^' || c == '$' || c == '[' ||
  c == ']' || c == '(' || c == ')' || c == '{' || c == '}' || c == '|' || c == '\\'

/-- The text of the capture group written for a parameter. -/
def paramGroup : Str := ['(', '[', '^', '/', ']', '+', ')']

/-- The body of the loop of `Route::pathToRegex`, at index `i` of a path of length `len`
whose character there is `c`. -/
def pathToRegexStep (len : Nat) (st : RegexBuild) (i : Nat) (c : Char) : RegexBuild :=
  if c == ':' then
    { st with inParam := true, currentParam := [] }
  else if st.inParam && (c == '/' || i == len - 1) then
    let cur := if i == len - 1 && c != '/' then st.currentParam ++ [c] else st.currentParam
    { regex := st.regex ++ paramGroup, currentParam := cur, inParam := false,
      paramNames := st.paramNames ++ [cur] }
  else if st.inParam then
    { st with currentParam := st.currentParam ++ [c] }
  else
    { st with regex := st.regex ++ (if needsEscape c then ['\\', c] else [c]) }

/-- The loop of `Route::pathToRegex` from index `i` on, `cs` being the characters left. -/
def pathToRegexLoop (len : Nat) : Nat → Str → RegexBuild → RegexBuild
  | _, [], st => st
  | i, c :: cs, st => pathToRegexLoop len (i + 1) cs (pathToRegexStep len st i c)

/-- Function `Route::pathToRegex`: the pattern text, and `paramNames` with the names found added. -/
def pathToRegex (path : Str) (paramNames : List Str) : Str × List Str :=
  let st := pathToRegexLoop path.length 0 path
    { regex := ['^'], currentParam := [], inParam := false, paramNames := paramNames }
  let st := if st.inParam then
      { st with paramNames := st.paramNames ++ [st.currentParam],
                regex := st.regex ++ paramGroup }
    else st
  (st.regex ++ ['$'], st.paramNames)

/-- The references a handler receives: the request and the response of one connection. -/
structure Conn where
  req : Request
  res : Response
  deriving DecidableEq, Repr

/-- A route handler, `std::function<void(Request&, Response&)>`. -/
abbrev RequestHandler := Conn → Conn

/-- The struct `Route`. -/
structure Route where
  method : Str
  path : Str
  pattern : Str
  regex : List Node
  paramNames : List Str
  handler : RequestHandler

/-- The constructor `Route::Route`; `none` when `std::regex(pattern)` throws. -/
def Route.create (method path : Str) (handler : RequestHandler) : Option Route :=
  let r := pathToRegex path []
  match regexCompile r.1 with
  | some re => some { method := method, path := path, pattern := r.1, regex := re,
                      paramNames := r.2, handler := handler }
  | none => none

/-- Function `Route::matches`. -/
def Route.matches (r : Route) (requestMethod requestPath : Str) : Bool :=
  if r.method ≠ requestMethod then false
  else (regexMatch r.regex requestPath).isSome

/-- The loop of `Route::extractParams`: binds `paramNames[i - 1]` to `match[i]` while both
exist. -/
def bindParams : List Str → List Str → Request → Request
  | name :: names, sub :: subs, req => bindParams names subs (req.setParam name sub)
  | _, _, req => req

/-- Function `Route::extractParams`. -/
def Route.extractParams (r : Route) (requestPath : Str) (req : Request) : Request :=
  match regexMatch r.regex requestPath with
  | some subs => bindParams r.paramNames subs req
  | none => req

/-! ## The run of one request

Handlers are C++ closures. A route handler is a function on the pair of references it
receives. What the dispatch code does with the handlers (which one it calls, how often, in
which order) is recorded in a ghost log that no handler can read or write.
-/

/-- An entry of the ghost log. -/
inductive Event where
  /-- `Router::handleRequest` called the handler of the route at this index -/
  | route (i : Nat)
  /-- the middleware function at this index of the chain was called -/
  | invoke (i : Nat)
  /-- the chain entry at this index was passed over because its path did not match -/
  | skip (i : Nat)
  /-- the final continuation was called -/
  | final
  deriving DecidableEq, Repr

/-- Everything that changes while one request is processed: the request and response, the
local `middlewareIndex` of `HttpServer::processRequest` (untouched by the class
`Middleware`), and the ghost log. -/
structure World where
  conn : Conn
  middlewareIndex : Nat
  log : List Event
  deriving DecidableEq, Repr

/-- Why a run has no result. -/
inductive Fault where
  /-- an iterator was incremented past `end()` and used: undefined behaviour -/
  | pastEnd
  /-- the nesting bound given to the model was too small -/
  | outOfFuel
  deriving DecidableEq, Repr

/-! ## `Router` -/

/-- The loop of `Router::handleRequest` over the routes from index `i` on. -/
def handleRequestFrom : List Route → Nat → World → Bool × World
  | [], _, w => (false, w)
  | route :: rest, i, w =>
    if route.matches w.conn.req.method w.conn.req.path then
      let req := route.extractParams w.conn.req.path w.conn.req
      (true, { w with conn := route.handler { w.conn with req := req },
                      log := w.log ++ [.route i] })
    else handleRequestFrom rest (i + 1) w

/-- Function `Router::handleRequest`, on the routes in registration order. -/
def handleRequest (routes : List Route) (w : World) : Bool × World :=
  handleRequestFrom routes 0 w

/-- The registration `routes_.push_back(std::make_unique<Route>(method, path, handler))`
shared by `Router::get`, `post`, `put`, `delete_` and `patch`. -/
def addRoute (routes : List Route) (method path : Str) (handler : RequestHandler) :
    Option (List Route) :=
  (Route.create method path handler).map (fun r => routes ++ [r])

/-! ## `Middleware` -/

/-- What a middleware function does when it is called: it works on the request and the
response and either returns, or calls `next()` and, when that call comes back, goes on from
the state it finds. It may call `next()` any finite number of times. -/
inductive Mw where
  | ret (c : Conn)
  | callNext (c : Conn) (k : Conn → Mw)

/-- A middleware function, `std::function<void(Request&, Response&, std::function<void()>)>`. -/
abbrev MiddlewareFunction := Conn → Mw

/-- The struct `Middleware::MiddlewareEntry`. -/
structure MiddlewareEntry where
  path : Str
  function : MiddlewareFunction

/-- The search of `std::string::find`: the first position, counted from `pos`, at which
`needle` occurs in `hay`. -/
def findFrom (needle : Str) : Str → Nat → Option Nat
  | [], pos => if needle.isEmpty then some pos else none
  | c :: hay, pos =>
    if needle.isPrefixOf (c :: hay) then some pos else findFrom needle hay (pos + 1)

/-- The call `hay.find(needle)`; `none` is `std::string::npos`. -/
def strFind (hay needle : Str) : Option Nat := findFrom needle hay 0

/-- Function `Middleware::pathMatches`. -/
def pathMatches (middlewarePath requestPath : Str) : Bool :=
  if middlewarePath.isEmpty then true
  else strFind requestPath middlewarePath == some 0

/-- Runs a middleware function that was handed the continuation `next`, where
`next calls w` is what calling it does in state `w` when it was called `calls` times
before. -/
def runHandler (next : Nat → World → Except Fault World) :
    Nat → Mw → World → Except Fault World
  | _, .ret c, w => .ok { w with conn := c }
  | calls, .callNext c k, w =>
    match next calls { w with conn := c } with
    | .ok w' => runHandler next (calls + 1) (k w'.conn) w'
    | .error e => .error e

/-- Function `Middleware::executeNext` with the iterator `current` as an index. The lambda `next`
is `mutable` and holds its own copy of `current`, which every call pre-increments: called
`calls` times before, it enters `executeNext` at `current + calls + 1`. `fuel` bounds the
nesting of `executeNext` inside handlers. -/
def executeNext (chain : List MiddlewareEntry) (finalNext : Conn → Conn) :
    Nat → Nat → World → Except Fault World
  | 0, _, _ => .error .outOfFuel
  | fuel + 1, current, w =>
    if current = chain.length then
      .ok { w with conn := finalNext w.conn, log := w.log ++ [.final] }
    else
      match chain[current]? with
      | none => .error .pastEnd
      | some entry =>
        let next := fun (calls : Nat) (w' : World) =>
          executeNext chain finalNext fuel (current + calls + 1) w'
        if pathMatches entry.path w.conn.req.path then
          runHandler next 0 (entry.function w.conn) { w with log := w.log ++ [.invoke current] }
        else
          next 0 { w with log := w.log ++ [.skip current] }

/-- Function `Middleware::execute`. -/
def execute (chain : List MiddlewareEntry) (finalNext : Conn → Conn) (w : World) :
    Except Fault World :=
  if chain.isEmpty then
    .ok { w with conn := finalNext w.conn, log := w.log ++ [.final] }
  else
    executeNext chain finalNext (chain.length + 1) 0 w

/-- Function `Middleware::use(middleware)`. -/
def Middleware.use (chain : List MiddlewareEntry) (middleware : MiddlewareFunction) :
    List MiddlewareEntry :=
  chain ++ [{ path := [], function := middleware }]

/-- Function `Middleware::use(path, middleware)`. -/
def Middleware.usePath (chain : List MiddlewareEntry) (path : Str)
    (middleware : MiddlewareFunction) : List MiddlewareEntry :=
  chain ++ [{ path := path, function := middleware }]

/-! ## `HttpServer` -/

/-- The members of `HttpServer` that `processRequest` reads. The file system is outside
the model: `serveFile urlPath directory requestPath` stands for
`StaticFileHandler::serveFile(requestPath, ...)` after `setStaticPath(urlPath, directory)`,
giving the content, content type and status code when it answers true. -/
structure HttpServer where
  routes : List Route
  globalMiddleware : List MiddlewareFunction
  staticPaths : List (Str × Str)
  serveFile : Str → Str → Str → Option (Str × Str × Int)

/-- Function `HttpServer::use(middleware)`. -/
def HttpServer.use (srv : HttpServer) (middleware : MiddlewareFunction) : HttpServer :=
  { srv with globalMiddleware := srv.globalMiddleware ++ [middleware] }

/-- Function `HttpServer::use(path, middleware)`: the body does not read `path`. -/
def HttpServer.usePath (srv : HttpServer) (_path : Str) (middleware : MiddlewareFunction) :
    HttpServer :=
  { srv with globalMiddleware := srv.globalMiddleware ++ [middleware] }

/-- The loop of `HttpServer::processRequest` over the static paths: the response of the
first entry that serves the file. -/
def staticLoop (serveFile : Str → Str → Str → Option (Str × Str × Int)) (c : Conn) :
    List (Str × Str) → Option Response
  | [] => none
  | staticPath :: rest =>
    if strFind c.req.path staticPath.1 == some 0 then
      match serveFile staticPath.1 staticPath.2 c.req.path with
      | some (content, contentType, statusCode) =>
        some (((c.res.status statusCode).header "Content-Type".toList contentType).send content)
      | none => staticLoop serveFile c rest
    else staticLoop serveFile c rest

/-- The statement `if (!router_->handleRequest(req, res)) res.status(404).send("Not Found")`,
which is the final step of the chain. -/
def routeOrNotFound (srv : HttpServer) (w : World) : World :=
  let r := handleRequest srv.routes { w with log := w.log ++ [.final] }
  if !r.1 then
    { r.2 with conn := { r.2.conn with res := (r.2.conn.res.status 404).send "Not Found".toList } }
  else r.2

/-- The lambda `next` of `HttpServer::processRequest`; `fuel` bounds the nesting of `next`
inside middleware. Every copy of the lambda shares `middlewareIndex`, so the number of
earlier calls plays no part. -/
def serverNext (srv : HttpServer) : Nat → World → Except Fault World
  | 0, _ => .error .outOfFuel
  | fuel + 1, w =>
    match srv.globalMiddleware[w.middlewareIndex]? with
    | some middleware =>
      runHandler (fun _ w' => serverNext srv fuel w') 0 (middleware w.conn)
        { w with middlewareIndex := w.middlewareIndex + 1,
                 log := w.log ++ [.invoke w.middlewareIndex] }
    | none => .ok (routeOrNotFound srv w)

/-- The second half of `HttpServer::processRequest`, from `size_t middlewareIndex = 0;` on:
the global middleware, then the router and the 404 answer. -/
def dispatch (srv : HttpServer) (c : Conn) : Except Fault World :=
  let w : World := { conn := c, middlewareIndex := 0, log := [] }
  if !srv.globalMiddleware.isEmpty then
    serverNext srv (srv.globalMiddleware.length + 1) w
  else
    .ok (routeOrNotFound srv w)

/-- Function `HttpServer::processRequest`. -/
def processRequest (srv : HttpServer) (c : Conn) : Except Fault World :=
  let c := { c with res := c.res.setDefaultHeaders }
  match staticLoop srv.serveFile c srv.staticPaths with
  | some res => .ok { conn := { c with res := res }, middlewareIndex := 0, log := [] }
  | none => dispatch srv c

/-! ## Definitions used to state the properties -/

/-- The state after consuming the characters `lits`, the input left being `t`. -/
def MatchState.eatAll (st : MatchState) (lits t : Str) : MatchState :=
  { st with rest := t, consumed := st.consumed + lits.length, cur := st.cur.map (· ++ lits) }

/-- The node sequence `std::regex` builds from the pattern text of `/users/:id`. -/
def usersIdNodes : List Node :=
  Node.bol :: ("/users/".toList.map (fun c => Node.one (.lit c)) ++
    [Node.openGroup, Node.plus (.noneOf ['/']), Node.closeGroup, Node.eol])

/-- The route `Route::Route` builds for `/users/:id`. -/
def usersIdRoute (m : Str) (h : RequestHandler) : Route :=
  { method := m, path := "/users/:id".toList, pattern := "^/users/([^/]+)$".toList,
    regex := usersIdNodes, paramNames := ["id".toList], handler := h }

/-! ## Concrete requests, handlers and chains used as instances -/

/-- A `GET` request for `path` with a freshly constructed response. -/
def demoConn (path : Str) : Conn :=
  { req := { Request.new with method := "GET".toList, path := path }, res := Response.new }

/-- The state in which the request of `demoConn path` starts to be processed. -/
def demoWorld (path : Str) : World :=
  { conn := demoConn path, middlewareIndex := 0, log := [] }

/-- A route handler that sends `text`. -/
def sendHandler (text : Str) : RequestHandler :=
  fun c => { c with res := c.res.send text }

/-- The route `Route::Route(method, path, handler)` builds when the pattern compiles. -/
def mkRoute (method path : Str) (handler : RequestHandler) : Route :=
  { method := method, path := path, pattern := (pathToRegex path []).1,
    regex := (regexCompile (pathToRegex path []).1).getD [],
    paramNames := (pathToRegex path []).2, handler := handler }

/-- The routes `GET /a`, then `GET /:x`. -/
def demoRoutes : List Route :=
  [mkRoute "GET".toList "/a".toList (sendHandler "first".toList),
   mkRoute "GET".toList "/:x".toList (sendHandler "second".toList)]

/-- The pattern text `Route::pathToRegex` writes for characters outside a parameter. -/
def escapeAll : Str → Str
  | [] => []
  | c :: cs => (if needsEscape c then ['\\', c] else [c]) ++ escapeAll cs

/-! ## Kinds of middleware functions -/

/-- The middleware function returns without calling `next()`. -/
def Mw.Returns : Mw → Prop
  | .ret _ => True
  | .callNext _ _ => False

/-- The middleware function calls `next()` exactly once. -/
def Mw.CallsOnce : Mw → Prop
  | .ret _ => False
  | .callNext _ k => ∀ c, (k c).Returns

/-- The middleware function calls `next()` at most once. -/
def Mw.AtMostOnce : Mw → Prop
  | .ret _ => True
  | .callNext _ k => ∀ c, (k c).Returns

/-- The request and response the middleware function hands on at its first `next()`, or
returns with when it makes no call. -/
def Mw.firstConn : Mw → Conn
  | .ret c => c
  | .callNext c _ => c

/-- The chain entry a log entry is about. -/
def Event.entry : Event → Option Nat
  | .invoke i => some i
  | .skip i => some i
  | _ => none

/-- The walk down a chain whose functions hand the request on at their first `next()`:
entry by entry from index `i`, an entry whose path matches the request as it stands is
called, any other is passed over. -/
def visits : Nat → List MiddlewareEntry → Conn → List Event
  | _, [], _ => []
  | i, e :: rest, c =>
    if pathMatches e.path c.req.path then
      .invoke i :: visits (i + 1) rest (e.function c).firstConn
    else
      .skip i :: visits (i + 1) rest c

/-- A middleware function that calls `next()` and does nothing else. -/
def mwContinue : MiddlewareFunction := fun c => .callNext c .ret

/-- A middleware function that answers the request itself and does not call `next()`. -/
def mwBlock : MiddlewareFunction := fun c => .ret { c with res := c.res.send "blocked".toList }

/-- A middleware function that sets the header `X-B` and calls `next()`. -/
def mwHeader : MiddlewareFunction :=
  fun c => .callNext { c with res := c.res.set "X-B".toList "1".toList } .ret

/-- A middleware function that calls `next()` twice. -/
def mwTwice : MiddlewareFunction := fun c => .callNext c (fun c' => .callNext c' .ret)

/-- A middleware function that calls `next()` and then sets the status to 200. -/
def mwOkAfter : MiddlewareFunction :=
  fun c => .callNext c (fun c' => .ret { c' with res := c'.res.status 200 })

/-- A server without routes, middleware or static paths. -/
def emptyServer : HttpServer :=
  { routes := [], globalMiddleware := [], staticPaths := [], serveFile := fun _ _ _ => none }

/-- The chain: a global entry, an entry for `/admin`, a global entry. -/
def adminChain : List MiddlewareEntry :=
  Middleware.use (Middleware.usePath (Middleware.use [] mwContinue) "/admin".toList mwHeader)
    mwContinue

/-- The server with the global middleware `mwContinue`, then `mwHeader`, and no routes. -/
def twoStepServer : HttpServer :=
  (emptyServer.use mwContinue).use mwHeader

/-- The global chain `mwTwice`, `mwBlock`, `mwHeader`. -/
def twiceChain : List MiddlewareEntry :=
  Middleware.use (Middleware.use (Middleware.use [] mwTwice) mwBlock) mwHeader

/-- The server with the global middleware `mwTwice`, `mwBlock`, `mwHeader`. -/
def twiceServer : HttpServer :=
  ((emptyServer.use mwTwice).use mwBlock).use mwHeader

/-- The global chain `mwBlock`, `mwHeader`: A does not continue, B would set a header. -/
def blockChain : List MiddlewareEntry :=
  Middleware.use (Middleware.use [] mwBlock) mwHeader

/-- The server with the global middleware `mwBlock`, `mwHeader`. -/
def blockServer : HttpServer :=
  (emptyServer.use mwBlock).use mwHeader

/-- The middleware function returns without calling `next()` and with the status code,
reason phrase and body of the response as they are in `c`. -/
def Mw.KeepsAnswer (c : Conn) : Mw → Prop
  | .ret c' => c'.res.statusCode = c.res.statusCode ∧
      c'.res.statusMessage = c.res.statusMessage ∧ c'.res.body = c.res.body
  | .callNext _ _ => False

/-- The middleware function calls `next()` at least once, every time with the request
method `method` and path `path`, and when its last call comes back it returns with the
status code, reason phrase and body of the response as that call left them. -/
def Mw.PassesOn (method path : Str) : Mw → Prop
  | .ret _ => False
  | .callNext c k => c.req.method = method ∧ c.req.path = path ∧
      ∀ c', (k c').PassesOn method path ∨ (k c').KeepsAnswer c'

/-- The response is the 404 answer of `processRequest`. -/
def Response.IsNotFound (res : Response) : Prop :=
  res.statusCode = 404 ∧ res.statusMessage = "Not Found".toList ∧
    res.body = "Not Found".toList

/-- The server whose one global middleware is `mwOkAfter`. -/
def okAfterServer : HttpServer := emptyServer.use mwOkAfter

/-- The server after `use("/admin", mwHeader)`. -/
def adminServer : HttpServer := emptyServer.usePath "/admin".toList mwHeader

/-! ## `JsonHandler`

The cursor `pos` into the text `json` is represented by the text from `pos` on: `pos++`
drops the first character, `pos >= json.length()` is the empty rest, and `json[pos]` at the
end of the text is the terminating `'\0'`, which equals none of the characters compared
with. The conversions `std::stod` and `operator<<(double)` are parameters: `stod` answers
`none` where `std::stod` throws.
-/

/-- The exceptions thrown while parsing, by their message, and the exceptions of
`std::stod`; `outOfFuel` is the nesting bound of the model. -/
inductive JsonError where
  | unexpectedEnd
  | unexpectedChar
  | expectedOpenBrace
  | expectedKeyQuote
  | expectedColon
  | expectedCloseBrace
  | expectedOpenBracket
  | expectedCloseBracket
  | expectedQuote
  | expectedBoolean
  | expectedNull
  | stodFailed
  | outOfFuel
  deriving DecidableEq, Repr

/-- What a `std::any` of the codec holds: nothing, a `bool`, an `int`, a `double`, a
`std::string`, a `const char*`, a `std::vector<std::any>` or a
`std::unordered_map<std::string, std::any>`. The type `N` stands for `double`. -/
inductive Json (N : Type) where
  | null
  | bool (b : Bool)
  | int (n : Int)
  | num (x : N)
  | str (s : Str)
  | cstr (s : Str)
  | arr (items : List (Json N))
  | obj (members : List (Str × Json N))

/-- The assignment `m[k] = v` on a `std::unordered_map<std::string, std::any>`. -/
def anySet {β : Type} : List (Str × β) → Str → β → List (Str × β)
  | [], k, v => [(k, v)]
  | (k', v') :: rest, k, v =>
    if k' = k then (k, v) :: rest else (k', v') :: anySet rest k v

/-- The lookup `m.find(k)` on a `std::unordered_map<std::string, std::any>`. -/
def anyFind {β : Type} : List (Str × β) → Str → Option β
  | [], _ => none
  | (k', v') :: rest, k => if k' = k then some v' else anyFind rest k

/-- The characters `JsonHandler::skipWhitespace` passes over. -/
def isJsonSpace (c : Char) : Bool :=
  c == ' ' || c == '\t' || c == '\n' || c == '\r'

/-- Function `JsonHandler::skipWhitespace`. -/
def skipWhitespace : Str → Str
  | [] => []
  | c :: cs => if isJsonSpace c then skipWhitespace cs else c :: cs

/-- The character written for the escape `\c` in `JsonHandler::parseString`: the seven
known escapes give one character, any other `c` gives the backslash and `c`. -/
def parseEscape (c : Char) : Str :=
  if c == '"' then ['"']
  else if c == '\\' then ['\\']
  else if c == 'b' then [Char.ofNat 8]
  else if c == 'f' then [Char.ofNat 12]
  else if c == 'n' then ['\n']
  else if c == 'r' then ['\r']
  else if c == 't' then ['\t']
  else ['\\', c]

/-- The loop of `JsonHandler::parseString` and the check of the closing quote after it:
the characters read and the text after the closing quote. -/
def parseStringLoop : Str → Except JsonError (Str × Str)
  | [] => .error .expectedQuote
  | c :: cs =>
    if c == '"' then .ok ([], cs)
    else if c == '\\' then
      match cs with
      | [] => .error .expectedQuote
      | d :: ds =>
        match parseStringLoop ds with
        | .ok (s, rest) => .ok (parseEscape d ++ s, rest)
        | .error e => .error e
    else
      match parseStringLoop cs with
      | .ok (s, rest) => .ok (c :: s, rest)
      | .error e => .error e

/-- Function `JsonHandler::parseString`. -/
def parseString : Str → Except JsonError (Str × Str)
  | [] => .error .expectedQuote
  | c :: cs => if c == '"' then parseStringLoop cs else .error .expectedQuote

/-- The loop `while (pos < json.length() && json[pos] >= '0' && json[pos] <= '9') pos++`
of `JsonHandler::parseNumber`: the digits passed and the text after them. -/
def takeDigits : Str → Str × Str
  | [] => ([], [])
  | c :: cs =>
    if c.isDigit then ((takeDigits cs).1.cons c, (takeDigits cs).2) else ([], c :: cs)

/-- The statement `if (json[pos] == '-') pos++;` of `JsonHandler::parseNumber`: the
characters passed and the text after them. -/
def scanSign : Str → Str × Str
  | [] => ([], [])
  | c :: t => if c == '-' then ([c], t) else ([], c :: t)

/-- The fraction in `JsonHandler::parseNumber`: a `.` and the digits after it. -/
def scanFraction : Str → Str × Str
  | [] => ([], [])
  | d :: t => if d == '.' then ((takeDigits t).1.cons d, (takeDigits t).2) else ([], d :: t)

/-- The sign of the exponent in `JsonHandler::parseNumber`. -/
def scanExponentSign : Str → Str × Str
  | [] => ([], [])
  | y :: u => if y == '+' || y == '-' then ([y], u) else ([], y :: u)

/-- The exponent in `JsonHandler::parseNumber`: `e` or `E`, a sign, digits. -/
def scanExponent : Str → Str × Str
  | [] => ([], [])
  | x :: t =>
    if x == 'e' || x == 'E' then
      (x :: ((scanExponentSign t).1 ++ (takeDigits (scanExponentSign t).2).1),
        (takeDigits (scanExponentSign t).2).2)
    else ([], x :: t)

/-- The cursor movement of `JsonHandler::parseNumber`: the text `numStr` and the text
after it. -/
def scanNumber (s : Str) : Str × Str :=
  let a := scanSign s
  let b := takeDigits a.2
  let c := scanFraction b.2
  let d := scanExponent c.2
  (a.1 ++ b.1 ++ c.1 ++ d.1, d.2)

/-- Function `JsonHandler::parseNumber`. -/
def parseNumber {N : Type} (stod : Str → Option N) (s : Str) : Except JsonError (N × Str) :=
  match stod (scanNumber s).1 with
  | some x => .ok (x, (scanNumber s).2)
  | none => .error .stodFailed

/-- Function `JsonHandler::parseBoolean`. -/
def parseBoolean (s : Str) : Except JsonError (Bool × Str) :=
  if "true".toList.isPrefixOf s then .ok (true, s.drop 4)
  else if "false".toList.isPrefixOf s then .ok (false, s.drop 5)
  else .error .expectedBoolean

/-- Function `JsonHandler::parseNull`. -/
def parseNull (s : Str) : Except JsonError (Unit × Str) :=
  if "null".toList.isPrefixOf s then .ok ((), s.drop 4) else .error .expectedNull

/-- The statement `if (pos < json.length() && json[pos] == ',') pos++;`. -/
def skipComma : Str → Str
  | [] => []
  | c :: cs => if c == ',' then cs else c :: cs

/-- The loop of `JsonHandler::parseObject` and the check of the closing brace after it;
`pv` is `parseValue`, `n` bounds the number of rounds. -/
def parseObjectLoop {N : Type} (pv : Str → Except JsonError (Json N × Str)) :
    Nat → Str → List (Str × Json N) → Except JsonError (List (Str × Json N) × Str)
  | 0, _, _ => .error .outOfFuel
  | n + 1, s, result =>
    match s with
    | [] => .error .expectedCloseBrace
    | c :: t =>
      if c == '}' then .ok (result, t)
      else
        match skipWhitespace (c :: t) with
        | [] => .error .expectedKeyQuote
        | q :: t1 =>
          if q != '"' then .error .expectedKeyQuote
          else
            match parseString (q :: t1) with
            | .error e => .error e
            | .ok (key, s2) =>
              match skipWhitespace s2 with
              | [] => .error .expectedColon
              | d :: t3 =>
                if d != ':' then .error .expectedColon
                else
                  match pv (skipWhitespace t3) with
                  | .error e => .error e
                  | .ok (v, s5) =>
                    parseObjectLoop pv n (skipComma (skipWhitespace s5)) (anySet result key v)

/-- Function `JsonHandler::parseObject`, given `parseValue` as `pv`. -/
def parseObjectWith {N : Type} (pv : Str → Except JsonError (Json N × Str)) (n : Nat) :
    Str → Except JsonError (List (Str × Json N) × Str)
  | [] => .error .expectedOpenBrace
  | c :: t =>
    if c == '{' then parseObjectLoop pv n (skipWhitespace t) [] else .error .expectedOpenBrace

/-- The loop of `JsonHandler::parseArray` and the check of the closing bracket after it. -/
def parseArrayLoop {N : Type} (pv : Str → Except JsonError (Json N × Str)) :
    Nat → Str → List (Json N) → Except JsonError (List (Json N) × Str)
  | 0, _, _ => .error .outOfFuel
  | n + 1, s, result =>
    match s with
    | [] => .error .expectedCloseBracket
    | c :: t =>
      if c == ']' then .ok (result, t)
      else
        match pv (c :: t) with
        | .error e => .error e
        | .ok (v, s1) => parseArrayLoop pv n (skipComma (skipWhitespace s1)) (result ++ [v])

/-- Function `JsonHandler::parseArray`, given `parseValue` as `pv`. -/
def parseArrayWith {N : Type} (pv : Str → Except JsonError (Json N × Str)) (n : Nat) :
    Str → Except JsonError (List (Json N) × Str)
  | [] => .error .expectedOpenBracket
  | c :: t =>
    if c == '[' then parseArrayLoop pv n (skipWhitespace t) [] else .error .expectedOpenBracket

/-- Function `JsonHandler::parseValue`; `fuel` bounds the nesting of values and the rounds
of the loops. -/
def parseValue {N : Type} (stod : Str → Option N) :
    Nat → Str → Except JsonError (Json N × Str)
  | 0, _ => .error .outOfFuel
  | fuel + 1, s =>
    match skipWhitespace s with
    | [] => .error .unexpectedEnd
    | c :: t =>
      if c == '{' then
        match parseObjectWith (fun s' => parseValue stod fuel s') fuel (c :: t) with
        | .ok (m, rest) => .ok (.obj m, rest)
        | .error e => .error e
      else if c == '[' then
        match parseArrayWith (fun s' => parseValue stod fuel s') fuel (c :: t) with
        | .ok (xs, rest) => .ok (.arr xs, rest)
        | .error e => .error e
      else if c == '"' then
        match parseString (c :: t) with
        | .ok (str, rest) => .ok (.str str, rest)
        | .error e => .error e
      else if c == 't' || c == 'f' then
        match parseBoolean (c :: t) with
        | .ok (b, rest) => .ok (.bool b, rest)
        | .error e => .error e
      else if c == 'n' then
        match parseNull (c :: t) with
        | .ok (_, rest) => .ok (.null, rest)
        | .error e => .error e
      else if c == '-' || c.isDigit then
        match parseNumber stod (c :: t) with
        | .ok (x, rest) => .ok (.num x, rest)
        | .error e => .error e
      else .error .unexpectedChar

/-- Function `JsonHandler::parseObject`. -/
def parseObject {N : Type} (stod : Str → Option N) (fuel : Nat) (s : Str) :
    Except JsonError (List (Str × Json N) × Str) :=
  parseObjectWith (fun s' => parseValue stod fuel s') fuel s

/-- Function `JsonHandler::parseArray`. -/
def parseArray {N : Type} (stod : Str → Option N) (fuel : Nat) (s : Str) :
    Except JsonError (List (Json N) × Str) :=
  parseArrayWith (fun s' => parseValue stod fuel s') fuel s

/-- Function `JsonHandler::isValid`: the text is as long as the fuel is large. -/
def isValid {N : Type} (stod : Str → Option N) (json : Str) : Bool :=
  match parseValue stod (json.length + 1) (skipWhitespace json) with
  | .ok (_, rest) => (skipWhitespace rest).isEmpty
  | .error _ => false

/-- The loop of `JsonHandler::parse`: where `parseObject` throws, it leaves the loop. -/
def parseLoop {N : Type} (pv : Str → Except JsonError (Json N × Str)) :
    Nat → Str → List (Str × Json N) → Except JsonError (List (Str × Json N))
  | 0, _, _ => .error .outOfFuel
  | n + 1, s, result =>
    match s with
    | [] => .ok result
    | c :: t =>
      if c == '}' then .ok result
      else
        match skipWhitespace (c :: t) with
        | [] => .ok result
        | q :: t1 =>
          if q != '"' then .ok result
          else
            match parseString (q :: t1) with
            | .error e => .error e
            | .ok (key, s2) =>
              match skipWhitespace s2 with
              | [] => .ok result
              | d :: t3 =>
                if d != ':' then .ok result
                else
                  match pv (skipWhitespace t3) with
                  | .error e => .error e
                  | .ok (v, s5) =>
                    parseLoop pv n (skipComma (skipWhitespace s5)) (anySet result key v)

/-- Function `JsonHandler::parse`; an exception leaving it is the `error`. -/
def parse {N : Type} (stod : Str → Option N) (json : Str) :
    Except JsonError (List (Str × Json N)) :=
  match skipWhitespace json with
  | [] => .ok []
  | c :: t =>
    if c != '{' then .ok []
    else parseLoop (fun s' => parseValue stod (json.length + 1) s') (json.length + 1)
      (skipWhitespace t) []

/-- The lower-case hexadecimal digit of a value below 16. -/
def hexDigit (n : Nat) : Char :=
  if n < 10 then Char.ofNat (48 + n) else Char.ofNat (87 + n)

/-- The output of `std::hex << std::setw(4) << std::setfill('0') << n` for `n` below
65536: four hexadecimal digits. -/
def hex4 (n : Nat) : Str :=
  [hexDigit (n / 4096 % 16), hexDigit (n / 256 % 16), hexDigit (n / 16 % 16), hexDigit (n % 16)]

/-- The text `JsonHandler::escapeString` writes for one character. -/
def escapeChar (c : Char) : Str :=
  if c == '"' then ['\\', '"']
  else if c == '\\' then ['\\', '\\']
  else if c == Char.ofNat 8 then ['\\', 'b']
  else if c == Char.ofNat 12 then ['\\', 'f']
  else if c == '\n' then ['\\', 'n']
  else if c == '\r' then ['\\', 'r']
  else if c == '\t' then ['\\', 't']
  else if c.toNat < 32 then '\\' :: 'u' :: hex4 c.toNat
  else [c]

/-- Function `JsonHandler::escapeString`. -/
def escapeString : Str → Str
  | [] => []
  | c :: cs => escapeChar c ++ escapeString cs

/-- The value of a hexadecimal digit. -/
def hexValue (c : Char) : Option Nat :=
  if c.isDigit then some (c.toNat - 48)
  else if 'a'.toNat ≤ c.toNat ∧ c.toNat ≤ 'f'.toNat then some (c.toNat - 87)
  else if 'A'.toNat ≤ c.toNat ∧ c.toNat ≤ 'F'.toNat then some (c.toNat - 55)
  else none

/-- The leading hexadecimal digits of a text as a number, `none` when there is none. -/
def hexPrefix : Str → Option Nat → Option Nat
  | [], acc => acc
  | c :: cs, acc =>
    match hexValue c with
    | some v => hexPrefix cs (some (16 * acc.getD 0 + v))
    | none => acc

/-- The call `std::stoi(hex, nullptr, 16)` on a text of four characters: white space, a
sign and a prefix `0x` are passed over, the leading hexadecimal digits are converted, and
the call throws (`none`) when there is no digit. -/
def stoi16 (s : Str) : Option Int :=
  let s1 := s.dropWhile (fun c => c == ' ' || (9 ≤ c.toNat && c.toNat ≤ 13))
  let sg : Bool × Str :=
    match s1 with
    | c :: t => if c == '-' then (true, t) else if c == '+' then (false, t) else (false, s1)
    | [] => (false, s1)
  let s2 : Str :=
    match sg.2 with
    | z :: x :: h :: t =>
      if z == '0' && (x == 'x' || x == 'X') && (hexValue h).isSome then h :: t else sg.2
    | _ => sg.2
  match hexPrefix s2 none with
  | some v => some (if sg.1 then -(v : Int) else (v : Int))
  | none => none

/-- The conversion `static_cast<char>(unicode)`: the low eight bits. -/
def castChar (v : Int) : Char := Char.ofNat (v % 256).toNat

/-- Function `JsonHandler::unescapeString`. Where the source appends a lone backslash and
goes on at the next character `d`, the next round copies `d`, which is not a backslash
there; the two rounds are written as one. -/
def unescapeString : Str → Str
  | [] => []
  | c :: rest =>
    if c == '\\' then
      match rest with
      | [] => [c]
      | d :: rest1 =>
        if d == '"' then '"' :: unescapeString rest1
        else if d == '\\' then '\\' :: unescapeString rest1
        else if d == 'b' then Char.ofNat 8 :: unescapeString rest1
        else if d == 'f' then Char.ofNat 12 :: unescapeString rest1
        else if d == 'n' then '\n' :: unescapeString rest1
        else if d == 'r' then '\r' :: unescapeString rest1
        else if d == 't' then '\t' :: unescapeString rest1
        else if d == 'u' then
          let plain := '\\' :: d :: unescapeString rest1
          match rest1 with
          | h1 :: h2 :: h3 :: h4 :: rest2 =>
            match stoi16 [h1, h2, h3, h4] with
            | some v => castChar v :: unescapeString rest2
            | none => plain
          | _ => plain
        else '\\' :: d :: unescapeString rest1
    else c :: unescapeString rest

/-- The output of `operator<<(int)`: the decimal digits, after `-` for a negative value. -/
def intText (n : Int) : Str :=
  if n < 0 then '-' :: Nat.toDigits 10 n.natAbs else Nat.toDigits 10 n.natAbs

/-- The text `JsonHandler::stringify` writes for the value of a member; `showDouble` is
`operator<<(double)`. -/
def stringifyValue {N : Type} (showDouble : N → Str) : Json N → Str
  | .str s => '"' :: (escapeString s ++ ['"'])
  | .int n => intText n
  | .num x => showDouble x
  | .bool b => if b then "true".toList else "false".toList
  | _ => "null".toList

/-- The loop of `JsonHandler::stringify` over the members, `first` being its flag. -/
def stringifyLoop {N : Type} (showDouble : N → Str) : Bool → List (Str × Json N) → Str
  | _, [] => []
  | first, pair :: rest =>
    (if first then [] else [',']) ++
      ('"' :: (escapeString pair.1 ++ ['"', ':'])) ++ stringifyValue showDouble pair.2 ++
      stringifyLoop showDouble false rest

/-- Function `JsonHandler::stringify` for a map, its members in iteration order. -/
def stringify {N : Type} (showDouble : N → Str) (data : List (Str × Json N)) : Str :=
  '{' :: (stringifyLoop showDouble true data ++ ['}'])

/-- A decimal number `mantissa * 10 ^ exponent`. -/
structure Dec where
  mantissa : Int
  exponent : Int
  deriving DecidableEq, Repr

/-- The number written by a run of digits. -/
def digitsValue (s : Str) : Nat := s.foldl (fun a c => 10 * a + (c.toNat - 48)) 0

/-- A conversion used in the instances in place of `std::stod`: the exact decimal value of
the text, `none` when the text has no digit before the exponent, as `std::stod` throws
there. Rounding to a `double` and range errors are left out. -/
def stodDec (s : Str) : Option Dec :=
  let a : Bool × Str :=
    match s with
    | c :: t => if c == '-' then (true, t) else (false, s)
    | [] => (false, s)
  let ip := (takeDigits a.2).1
  let s2 := (takeDigits a.2).2
  let f : Str × Str :=
    match s2 with
    | d :: t => if d == '.' then takeDigits t else ([], s2)
    | [] => ([], s2)
  if ip.isEmpty && f.1.isEmpty then none
  else
    let e : Int :=
      match f.2 with
      | x :: t =>
        if x == 'e' || x == 'E' then
          match t with
          | y :: u =>
            if y == '-' then -(digitsValue (takeDigits u).1 : Int)
            else if y == '+' then (digitsValue (takeDigits u).1 : Int)
            else (digitsValue (takeDigits t).1 : Int)
          | [] => 0
        else 0
      | [] => 0
    let m : Int := digitsValue (ip ++ f.1)
    some { mantissa := if a.1 then -m else m, exponent := e - f.1.length }

/-- A rendering used in the instances in place of `operator<<(double)`. -/
def showDec (x : Dec) : Str :=
  intText x.mantissa ++ (if x.exponent = 0 then [] else 'e' :: intText x.exponent)

/-- The global chain `mwTwice`, `mwContinue`. -/
def twiceFirstChain : List MiddlewareEntry :=
  Middleware.use (Middleware.use [] mwTwice) mwContinue

/-- The global chain `mwContinue`, `mwTwice`. -/
def twiceLastChain : List MiddlewareEntry :=
  Middleware.use (Middleware.use [] mwContinue) mwTwice

/-- The server with the global middleware `mwTwice`, `mwContinue`. -/
def twiceFirstServer : HttpServer :=
  (emptyServer.use mwTwice).use mwContinue

/-- The text `e` does not start with a character that could continue a number: a digit,
`.`, `e`, `E`, `+` or `-`. -/
def StopsNumber : Str → Prop
  | [] => True
  | c :: _ => c.isDigit = false ∧ c ≠ '.' ∧ c ≠ 'e' ∧ c ≠ 'E' ∧ c ≠ '+' ∧ c ≠ '-'

/-- The value a member has after `stringify` and `parse`: an `int` comes back as the
`double` `ofInt` of it, a `double`, a `std::string` and a `bool` as they are, and anything
else, written as `null`, as the empty `std::any`. -/
def readBack {N : Type} (ofInt : Int → N) : Json N → Json N
  | .int n => .num (ofInt n)
  | .num x => .num x
  | .str s => .str s
  | .bool b => .bool b
  | _ => .null

/-- The texts without a character that `escapeString` writes as `\u`: every character is
32 or above or one of `\b`, `\f`, `\n`, `\r`, `\t`. -/
def plainText (s : Str) : Prop :=
  ∀ c ∈ s, 32 ≤ c.toNat ∨ c = Char.ofNat 8 ∨ c = Char.ofNat 12 ∨ c = '\n' ∨ c = '\r' ∨ c = '\t'

/-! ## `Response`: `clear`, `toString`, and the status texts of `Utils` -/

/-- Function `Response::clear`. -/
def Response.clear (res : Response) : Response :=
  Response.setDefaultHeaders
    { res with statusCode := 200, statusMessage := "OK".toList, headers := [], body := [],
               headersSent := false, ended := false }

/-- The header lines of `Response::toString`, in the iteration order of the map. -/
def headerLines : List (Str × Str) → Str
  | [] => []
  | (name, value) :: rest => name ++ [':', ' '] ++ value ++ ['\r', '\n'] ++ headerLines rest

/-- Function `Response::toString`; `operator<<(int)` writes the status code. -/
def Response.toString (res : Response) : Str :=
  "HTTP/1.1 ".toList ++ intText res.statusCode ++ [' '] ++ res.statusMessage ++ ['\r', '\n'] ++
    headerLines res.headers ++ ['\r', '\n'] ++ (if !res.body.isEmpty then res.body else [])

/-- Function `Utils::initializeStatusTexts`: the map it assigns to `statusTexts_`. -/
def initializeStatusTexts : List (Int × Str) :=
  [(200, "OK".toList), (201, "Created".toList), (204, "No Content".toList),
   (301, "Moved Permanently".toList), (302, "Found".toList), (400, "Bad Request".toList),
   (401, "Unauthorized".toList), (403, "Forbidden".toList), (404, "Not Found".toList),
   (500, "Internal Server Error".toList), (501, "Not Implemented".toList),
   (502, "Bad Gateway".toList), (503, "Service Unavailable".toList)]

/-- Function `Utils::getHttpStatusText`, given the static map `statusTexts_`: the phrase and
the map after the call. -/
def getHttpStatusText (statusTexts : List (Int × Str)) (statusCode : Int) :
    Str × List (Int × Str) :=
  let statusTexts := if statusTexts.isEmpty then initializeStatusTexts else statusTexts
  (match statusTexts.lookup statusCode with
    | some text => text
    | none => "Unknown".toList,
   statusTexts)

/-! ## `Utils`: texts, and the decoding of a request in `HttpServer::handleClient` -/

/-- Function `Utils::toUpperCase`: `::toupper` on every character. -/
def toUpperCase (s : Str) : Str := s.map Char.toUpper

/-- The characters of the set `" \t\r\n"` of `Utils::trim`. -/
def isTrimChar (c : Char) : Bool :=
  c == ' ' || c == '\t' || c == '\r' || c == '\n'

/-- The text from `str.find_first_not_of(" \t\r\n")` on, empty for `npos`. -/
def trimLeft (str : Str) : Str := str.dropWhile isTrimChar

/-- The text up to `str.find_last_not_of(" \t\r\n")`, empty for `npos`. -/
def trimRight (str : Str) : Str := (str.reverse.dropWhile isTrimChar).reverse

/-- Function `Utils::trim`: the text from the first to the last character that is not in
the set, empty when there is none. -/
def trim (str : Str) : Str := trimRight (trimLeft str)

/-- The call `str.find(c)`: the index of the first `c`, `none` for `npos`. -/
def findChar (c : Char) : Str → Option Nat
  | [] => none
  | x :: xs => if x == c then some 0 else (findChar c xs).map (· + 1)

/-- The call `std::getline(stream, item, delimiter)` on the text left in the stream: the
item read and the text left after it; the delimiter is taken out of the stream and not
stored. The result is `none` when the stream is at its end, where the call fails. -/
def getline (delimiter : Char) : Str → Option (Str × Str)
  | [] => none
  | c :: cs =>
    if c == delimiter then some ([], cs)
    else
      match getline delimiter cs with
      | some (item, rest) => some (c :: item, rest)
      | none => some ([c], [])

/-- The loop `while (std::getline(ss, item, delimiter)) result.push_back(item)` of
`Utils::split`. Every round that goes on takes a character out of the stream, so `n`
rounds are enough for a text of `n` characters. -/
def splitLoop (delimiter : Char) : Nat → Str → List Str
  | 0, _ => []
  | n + 1, s =>
    match getline delimiter s with
    | some (item, rest) => item :: splitLoop delimiter n rest
    | none => []

/-- Function `Utils::split`. -/
def split (str : Str) (delimiter : Char) : List Str :=
  splitLoop delimiter str.length str

/-- The loop of `Utils::join` from the index `i` on. -/
def joinFrom (separator : Str) : Nat → List Str → Str
  | _, [] => []
  | i, part :: parts =>
    (if i > 0 then separator else []) ++ part ++ joinFrom separator (i + 1) parts

/-- Function `Utils::join`. -/
def join (parts : List Str) (separator : Str) : Str := joinFrom separator 0 parts

/-- The extraction `iss >> std::hex >> value` from a text of two characters: white space
and a sign are passed over and the leading hexadecimal digits are converted; when there
is no digit the extraction fails and stores 0. -/
def hexExtract (s : Str) : Int := (stoi16 s).getD 0

/-- Function `Utils::urlDecode`. A `%` with fewer than two characters after it is copied,
as it is not a `+`. -/
def urlDecode : Str → Str
  | [] => []
  | c :: rest =>
    let plain := c :: urlDecode rest
    if c == '%' then
      match rest with
      | h1 :: h2 :: rest2 => castChar (hexExtract [h1, h2]) :: urlDecode rest2
      | _ => plain
    else if c == '+' then ' ' :: urlDecode rest
    else plain

/-- Function `Utils::parseUrl`. -/
def parseUrl (url : Str) : Str × Str :=
  match findChar '?' url with
  | none => (url, [])
  | some queryPos => (url.take queryPos, url.drop (queryPos + 1))

/-- The body of the loop of `Request::parseQueryString` for one piece. -/
def bindPair (queryParams : List (Str × Str)) (pair : Str) : List (Str × Str) :=
  match findChar '=' pair with
  | some equalPos =>
    mapSet queryParams (urlDecode (pair.take equalPos)) (urlDecode (pair.drop (equalPos + 1)))
  | none => queryParams

/-- Function `Request::parseQueryString`. -/
def Request.parseQueryString (req : Request) : Request :=
  if req.queryString.isEmpty then req
  else { req with queryParams := (split req.queryString '&').foldl bindPair req.queryParams }

/-- The header loop of `HttpServer::handleClient`. The stream `requestStream` is given by
the lines that the calls of `std::getline` on it return one after the other; the result
is the header map and the lines left in the stream when the loop ends. -/
def readHeaders : List Str → List (Str × Str) → List (Str × Str) × List Str
  | [], headers => (headers, [])
  | line :: rest, headers =>
    if line = ['\r'] then (headers, rest)
    else if (trim line).isEmpty then (headers, rest)
    else
      match findChar ':' (trim line) with
      | some colonPos =>
        readHeaders rest (mapSet headers (normalizeHeaderName ((trim line).take colonPos))
          (trim ((trim line).drop (colonPos + 1))))
      | none => readHeaders rest headers

/-- The body loop of `HttpServer::handleClient`: `body += line + "\n"` for every line left
in the stream. -/
def readBody : List Str → Str
  | [] => []
  | line :: rest => line ++ ['\n'] ++ readBody rest

/-- The request line of `HttpServer::handleClient`: with three parts or more, the method,
the target, the protocol, and the path and the query string of the target. -/
def readRequestLine (req : Request) (requestLine : Str) : Request :=
  match split (trim requestLine) ' ' with
  | p0 :: p1 :: p2 :: _ =>
    { req with method := toUpperCase p0, url := p1, protocol := p2,
               path := (parseUrl p1).1, queryString := (parseUrl p1).2 }
  | _ => req

/-- The decoding of the request in `HttpServer::handleClient`, from `requestData` to the
`Request` handed to `processRequest`. The lines of the stream are those of
`Utils::split(requestData, '\n')`, whose loop is the same `std::getline`. -/
def decodeRequest (requestData : Str) : Request :=
  let lines := split requestData '\n'
  let req := readRequestLine Request.new (lines.headD [])
  let hr := readHeaders lines.tail req.headers
  Request.parseQueryString { req with headers := hr.1, body := readBody hr.2 }

/-- The text of a piece of a query string: `n=v` for a name with a value, the text itself
for a piece without `=`. -/
def pieceText : Str × Option Str → Str
  | (n, some v) => n ++ '=' :: v
  | (p, none) => p

/-- The decoded name and value of every piece that has a value, in the order of the pieces. -/
def queryBindings (pieces : List (Str × Option Str)) : List (Str × Str) :=
  pieces.filterMap (fun p => p.2.map (fun v => (urlDecode p.1, urlDecode v)))

/-- Function `Request::get`. -/
def Request.get (req : Request) (header : Str) : Str :=
  (mapFind req.headers (normalizeHeaderName header)).getD []

/-- The characters `Utils::urlEncode` copies: `isalnum(c)`, `-`, `_`, `.`, `~`. -/
def isUnreserved (c : Char) : Bool :=
  c.isAlphanum || c == '-' || c == '_' || c == '.' || c == '~'

/-- The output of `std::setw(2)` with `std::hex` and the fill character `0` for a value
below 256: its two hexadecimal digits. -/
def hex2 (n : Nat) : Str := [hexDigit (n / 16 % 16), hexDigit (n % 16)]

/-- Function `Utils::urlEncode`; `int((unsigned char)c)` is the value of the byte. -/
def urlEncode : Str → Str
  | [] => []
  | c :: cs => (if isUnreserved c then [c] else '%' :: hex2 c.toNat) ++ urlEncode cs

/-- The loop of `JsonHandler::stringify` for a vector of strings, from the index `i` on. -/
def stringifyStringsFrom : Nat → List Str → Str
  | _, [] => []
  | i, x :: xs =>
    (if i > 0 then [','] else []) ++ ('"' :: (escapeString x ++ ['"'])) ++
      stringifyStringsFrom (i + 1) xs

/-- Function `JsonHandler::stringify` for a `std::vector<std::string>`. -/
def stringifyStrings (array : List Str) : Str :=
  '[' :: (stringifyStringsFrom 0 array ++ [']'])

/-- Whether the entry of the ghost log is written by `Router::handleRequest`. -/
def Event.isRoute : Event → Bool
  | .route _ => true
  | _ => false

/-- The routing step of `HttpServer::processRequest` as a final continuation on the
request and the response. -/
def routingStep (srv : HttpServer) : Conn → Conn :=
  fun c => (routeOrNotFound srv { conn := c, middlewareIndex := 0, log := [] }).conn

/-! ## The handler of `POST /api/users` in `examples/main.cpp` -/

/-- Function `Response::json`. -/
def Response.json (res : Response) (data : Str) : Response :=
  (res.set "Content-Type".toList "application/json".toList).send data

/-- What leaves a handler as an exception: one thrown by `JsonHandler::parse`, or the
`std::bad_any_cast` of `std::any_cast`. -/
inductive HandlerError where
  | json (e : JsonError)
  | badAnyCast
  deriving DecidableEq, Repr

/-- The expression `std::any_cast<std::string>(userData[key])`: the text held under the key,
or `std::bad_any_cast` when the `std::any` there holds no `std::string`. -/
def anyCastString {N : Type} (userData : List (Str × Json N)) (key : Str) :
    Except HandlerError Str :=
  match anyFind userData key with
  | some (.str s) => .ok s
  | _ => .error .badAnyCast

/-- The handler registered with `app.post("/api/users", ...)`. The map `newUser` is
iterated by `stringify` in an order the standard library chooses: `iter` puts the members
in that order. -/
def postUsers {N : Type} (stod : Str → Option N) (showDouble : N → Str)
    (iter : List (Str × Json N) → List (Str × Json N)) (c : Conn) :
    Except HandlerError Conn :=
  match parse stod c.req.body with
  | .error e => .error (.json e)
  | .ok userData =>
    if (anyFind userData "name".toList).isNone || (anyFind userData "email".toList).isNone then
      .ok { c with
        res := (c.res.status 400).json "\x7b\"error\": \"Name and email are required\"\x7d".toList }
    else
      match anyCastString userData "name".toList with
      | .error e => .error e
      | .ok name =>
        match anyCastString userData "email".toList with
        | .error e => .error e
        | .ok email =>
          let newUser : List (Str × Json N) :=
            [("id".toList, .int 4), ("name".toList, .str name), ("email".toList, .str email),
              ("created_at".toList, .cstr "2024-01-01".toList)]
          .ok { c with res := (c.res.status 201).json (stringify showDouble (iter newUser)) }

/-- The texts free of characters that `escapeString` writes with a backslash: no quote, no
backslash, no character below 32. -/
def needsNoEscape (s : Str) : Bool :=
  s.all (fun c => decide (32 ≤ c.toNat) && c != '"' && c != '\\')

/-! ## Lemmas on the matcher -/

theorem matchNodes_one (k : CharClass) (ns : List Node) (st : MatchState) :
    matchNodes (Node.one k :: ns) st =
      match st.rest with
      | c :: cs => if k.test c then matchNodes ns (st.eat c cs) else none
      | [] => none := by
  rw [matchNodes]

theorem matchNodes_lits (lits : Str) (ns : List Node) (t : Str) (st : MatchState)
    (h : st.rest = lits ++ t) :
    matchNodes (lits.map (fun c => Node.one (.lit c)) ++ ns) st
      = matchNodes ns (st.eatAll lits t) := by
  induction lits generalizing st with
  | nil =>
    obtain ⟨r, n, cur, caps⟩ := st
    simp at h
    subst h
    cases cur <;> simp [MatchState.eatAll]
  | cons c cs ih =>
    obtain ⟨r, n, cur, caps⟩ := st
    simp at h
    subst h
    rw [List.map_cons, List.cons_append, matchNodes_one]
    simp only [CharClass.test, beq_self_eq_true, if_true]
    rw [ih _ (by simp [MatchState.eat])]
    congr 1
    cases cur <;> simp [MatchState.eatAll, MatchState.eat] <;> omega

theorem matchNodes_lits_some (lits : Str) (ns : List Node) (st r : MatchState)
    (h : matchNodes (lits.map (fun c => Node.one (.lit c)) ++ ns) st = some r) :
    ∃ t, st.rest = lits ++ t := by
  induction lits generalizing st with
  | nil => exact ⟨st.rest, rfl⟩
  | cons c cs ih =>
    obtain ⟨rest, n, cur, caps⟩ := st
    rw [List.map_cons, List.cons_append, matchNodes_one] at h
    cases rest with
    | nil => simp at h
    | cons d ds =>
      simp only [CharClass.test] at h
      by_cases hd : d = c
      · subst hd
        simp at h
        obtain ⟨t, ht⟩ := ih _ h
        simp [MatchState.eat] at ht
        exact ⟨t, by simp [ht]⟩
      · simp [hd] at h

theorem plusLoop_last (p : Char → Bool) (s : Str) (st : MatchState) :
    plusLoop p (fun st' => matchNodes [Node.closeGroup, Node.eol] st') s st =
      if s ≠ [] ∧ s.all p = true then
        some { rest := [], consumed := st.consumed + s.length, cur := none,
               caps := st.caps ++ [(st.cur.map (· ++ s)).getD []] }
      else none := by
  induction s generalizing st with
  | nil => simp [plusLoop]
  | cons c cs ih =>
    rw [plusLoop]
    by_cases hc : p c = true
    · simp only [hc, if_true, ih]
      by_cases hcs : cs = []
      · subst hcs
        obtain ⟨r, n, cur, caps⟩ := st
        cases cur <;> simp [matchNodes, MatchState.eat, hc]
      · by_cases hall : cs.all p = true
        · obtain ⟨r, n, cur, caps⟩ := st
          cases cur <;> simp [hcs, hall, MatchState.eat, hc] <;> omega
        · obtain ⟨r, n, cur, caps⟩ := st
          have : cs ≠ [] := hcs
          cases cs with
          | nil => exact absurd rfl hcs
          | cons d ds =>
            simp [hall, matchNodes, MatchState.eat, hc]
    · simp [hc]

theorem all_noneOf_slash (s : Str) :
    s.all (CharClass.noneOf ['/']).test = true ↔ '/' ∉ s := by
  induction s with
  | nil => simp
  | cons c cs ih =>
    simp only [List.all_cons, Bool.and_eq_true, ih, List.mem_cons, not_or]
    have : (CharClass.noneOf ['/']).test c = true ↔ ¬ '/' = c := by
      simp [CharClass.test]
      exact ⟨fun h e => h e.symm, fun h e => h e.symm⟩
    rw [this]

theorem groupTail_match (s : Str) (st : MatchState) :
    matchNodes [Node.openGroup, Node.plus (.noneOf ['/']), Node.closeGroup, Node.eol]
        { st with rest := s } =
      if s ≠ [] ∧ '/' ∉ s then
        some { rest := [], consumed := st.consumed + s.length, cur := none,
               caps := st.caps ++ [s] }
      else none := by
  rw [matchNodes, matchNodes, plusLoop_last]
  simp only [all_noneOf_slash]
  simp

theorem usersId_regexMatch_some (s : Str) (h1 : s ≠ []) (h2 : '/' ∉ s) :
    regexMatch usersIdNodes ("/users/".toList ++ s) = some [s] := by
  unfold regexMatch usersIdNodes
  rw [matchNodes]
  simp only [if_true]
  rw [matchNodes_lits _ _ s _ rfl]
  have := groupTail_match s
    { rest := [], consumed := 0 + "/users/".toList.length, cur := none, caps := [] }
  simp only [MatchState.eatAll, Option.map_none']
  rw [this]
  simp [h1, h2]

theorem usersId_regexMatch_isSome (p : Str) (h : (regexMatch usersIdNodes p).isSome = true) :
    ∃ s, s ≠ [] ∧ '/' ∉ s ∧ p = "/users/".toList ++ s := by
  unfold regexMatch usersIdNodes at h
  rw [matchNodes] at h
  simp only [if_true] at h
  cases hm : matchNodes ("/users/".toList.map (fun c => Node.one (.lit c)) ++
    [Node.openGroup, Node.plus (.noneOf ['/']), Node.closeGroup, Node.eol])
    { rest := p, consumed := 0, cur := none, caps := [] } with
  | none => rw [hm] at h; simp at h
  | some r =>
    obtain ⟨t, ht⟩ := matchNodes_lits_some _ _ _ _ hm
    simp only at ht
    rw [matchNodes_lits _ _ t _ ht] at hm
    have := groupTail_match t
      { rest := [], consumed := 0 + "/users/".toList.length, cur := none, caps := [] }
    simp only [MatchState.eatAll, Option.map_none'] at hm
    rw [this] at hm
    by_cases hc : t ≠ [] ∧ '/' ∉ t
    · exact ⟨t, hc.1, hc.2, ht⟩
    · rw [if_neg hc] at hm
      simp at hm

theorem mapFind_mapSet (d : List (Str × Str)) (k v : Str) :
    mapFind (mapSet d k v) k = some v := by
  induction d with
  | nil => simp [mapSet, mapFind]
  | cons kv rest ih =>
    obtain ⟨k', v'⟩ := kv
    by_cases h : k' = k
    · simp [mapSet, mapFind, h]
    · simp [mapSet, mapFind, h, ih]

theorem param_setParam (req : Request) (k v : Str) : (req.setParam k v).param k = v := by
  simp [Request.setParam, Request.param, mapFind_mapSet]

/-- C1: the route registered for `/users/:id` with method `m` matches method `m'` and path
`p` exactly when `m' = m` and `p` is `/users/` followed by a non-empty `s` without `/`, and
then `extractParams` binds the parameter `id` to `s`; `/users/42` matches with `id = 42`,
while `/users/42/edit` and `/users` do not match. -/
theorem route_users_id (m : Str) (h : RequestHandler) :
    ∃ r, Route.create m "/users/:id".toList h = some r ∧
      (∀ m' p, r.matches m' p = true ↔
        m' = m ∧ ∃ s, s ≠ [] ∧ '/' ∉ s ∧ p = "/users/".toList ++ s) ∧
      (∀ s req, s ≠ [] → '/' ∉ s →
        r.extractParams ("/users/".toList ++ s) req = req.setParam "id".toList s ∧
        (r.extractParams ("/users/".toList ++ s) req).param "id".toList = s) ∧
      r.matches m "/users/42".toList = true ∧
      (r.extractParams "/users/42".toList Request.new).param "id".toList = "42".toList ∧
      r.matches m "/users/42/edit".toList = false ∧
      r.matches m "/users".toList = false := by
  have hr : Route.create m "/users/:id".toList h = some (usersIdRoute m h) := rfl
  have hx : ∀ s req, s ≠ [] → '/' ∉ s →
      (usersIdRoute m h).extractParams ("/users/".toList ++ s) req
        = req.setParam "id".toList s := by
    intro s req h1 h2
    simp only [Route.extractParams, usersIdRoute, usersId_regexMatch_some s h1 h2, bindParams]
  have hm : ∀ s, s ≠ [] → '/' ∉ s →
      (usersIdRoute m h).matches m ("/users/".toList ++ s) = true := by
    intro s h1 h2
    simp only [Route.matches, usersIdRoute, usersId_regexMatch_some s h1 h2]
    simp
  refine ⟨usersIdRoute m h, hr, ?_, ?_, ?_, ?_, ?_, ?_⟩
  · intro m' p
    constructor
    · intro hmt
      by_cases hmm : m = m'
      · simp only [Route.matches, usersIdRoute, hmm, ne_eq, not_true_eq_false, if_false] at hmt
        exact ⟨hmm.symm, usersId_regexMatch_isSome p hmt⟩
      · simp [Route.matches, usersIdRoute, hmm] at hmt
    · rintro ⟨rfl, s, h1, h2, rfl⟩
      exact hm s h1 h2
  · intro s req h1 h2
    rw [hx s req h1 h2]
    exact ⟨rfl, param_setParam _ _ _⟩
  · exact hm "42".toList (by decide) (by decide)
  · have := hx "42".toList Request.new (by decide) (by decide)
    rw [show "/users/42".toList = "/users/".toList ++ "42".toList from rfl, this]
    exact param_setParam _ _ _
  · have e2 : regexMatch usersIdNodes "/users/42/edit".toList = none := by decide
    simp only [Route.matches, usersIdRoute, e2]
    simp
  · have e3 : regexMatch usersIdNodes "/users".toList = none := by decide
    simp only [Route.matches, usersIdRoute, e3]
    simp

/-- C2: the route registered for `/users/:id/posts` gets the pattern text
`^/users/([^/]+)posts$`, without the `/` that ends the parameter name: it does not match
`/users/42/posts`, and it matches `/users/42posts` with `id = 42`. -/
theorem route_param_then_literal_drops_slash :
    ∃ r, Route.create "GET".toList "/users/:id/posts".toList id = some r ∧
      r.pattern = "^/users/([^/]+)posts$".toList ∧
      r.matches "GET".toList "/users/42/posts".toList = false ∧
      r.matches "GET".toList "/users/42posts".toList = true ∧
      (r.extractParams "/users/42posts".toList Request.new).param "id".toList = "42".toList := by
  refine ⟨_, rfl, ?_, ?_, ?_, ?_⟩ <;> decide

/-! ## `Router::handleRequest` -/

theorem handleRequestFrom_first (routes : List Route) (k : Nat) (w : World)
    (h : ∃ r ∈ routes, r.matches w.conn.req.method w.conn.req.path = true) :
    ∃ i r, routes[i]? = some r ∧
      r.matches w.conn.req.method w.conn.req.path = true ∧
      (∀ j r', j < i → routes[j]? = some r' →
        r'.matches w.conn.req.method w.conn.req.path = false) ∧
      handleRequestFrom routes k w =
        (true, { w with
          conn := r.handler { w.conn with req := r.extractParams w.conn.req.path w.conn.req },
          log := w.log ++ [.route (k + i)] }) := by
  induction routes generalizing k with
  | nil => simp at h
  | cons r rest ih =>
    by_cases hr : r.matches w.conn.req.method w.conn.req.path = true
    · refine ⟨0, r, by simp, hr, ?_, ?_⟩
      · intro j r' hj
        omega
      · simp [handleRequestFrom, hr]
    · have hrest : ∃ r' ∈ rest, r'.matches w.conn.req.method w.conn.req.path = true := by
        obtain ⟨r', hmem, hm⟩ := h
        rcases List.mem_cons.mp hmem with rfl | hmem
        · exact absurd hm hr
        · exact ⟨r', hmem, hm⟩
      obtain ⟨i, r', hi, hm, hfirst, heq⟩ := ih (k + 1) hrest
      refine ⟨i + 1, r', by simpa using hi, hm, ?_, ?_⟩
      · intro j r'' hj hjr
        cases j with
        | zero =>
          simp at hjr
          subst hjr
          simpa using hr
        | succ j => exact hfirst j r'' (by omega) (by simpa using hjr)
      · simp only [handleRequestFrom, hr]
        rw [heq]
        simp [Nat.add_assoc, Nat.add_comm 1 i]

theorem handleRequestFrom_false (routes : List Route) (k : Nat) (w : World)
    (h : ∀ r ∈ routes, r.matches w.conn.req.method w.conn.req.path = false) :
    handleRequestFrom routes k w = (false, w) := by
  induction routes generalizing k with
  | nil => rfl
  | cons r rest ih =>
    have hr := h r (List.mem_cons_self _ _)
    simp only [handleRequestFrom, hr]
    exact ih (k + 1) (fun r' hr' => h r' (List.mem_cons_of_mem _ hr'))

/-- C3: when some registered route matches the method and path of the request,
`Router::handleRequest` returns true, and its whole effect is one call of the handler of the
earliest registered matching route, on the request with the parameters of that route
bound: the log gains the single entry of that route. -/
theorem handleRequest_first_match_wins (routes : List Route) (w : World)
    (h : ∃ r ∈ routes, r.matches w.conn.req.method w.conn.req.path = true) :
    ∃ i r, routes[i]? = some r ∧
      r.matches w.conn.req.method w.conn.req.path = true ∧
      (∀ j r', j < i → routes[j]? = some r' →
        r'.matches w.conn.req.method w.conn.req.path = false) ∧
      handleRequest routes w =
        (true, { w with
          conn := r.handler { w.conn with req := r.extractParams w.conn.req.path w.conn.req },
          log := w.log ++ [.route i] }) := by
  obtain ⟨i, r, h1, h2, h3, h4⟩ := handleRequestFrom_first routes 0 w h
  exact ⟨i, r, h1, h2, h3, by simpa [handleRequest] using h4⟩

/-- C4: `Router::handleRequest` returns true exactly when some registered route has the
method of the request and a matcher that accepts its path; when it returns false the
request, the response and the log of handler calls are as before. -/
theorem handleRequest_true_iff (routes : List Route) (w : World) :
    ((handleRequest routes w).1 = true ↔
      ∃ r ∈ routes, r.method = w.conn.req.method ∧
        (regexMatch r.regex w.conn.req.path).isSome = true) ∧
    ((handleRequest routes w).1 = false → (handleRequest routes w).2 = w) := by
  have hmatch : ∀ r : Route, r.matches w.conn.req.method w.conn.req.path = true ↔
      r.method = w.conn.req.method ∧ (regexMatch r.regex w.conn.req.path).isSome = true := by
    intro r
    by_cases hm : r.method = w.conn.req.method <;> simp [Route.matches, hm]
  by_cases h : ∃ r ∈ routes, r.matches w.conn.req.method w.conn.req.path = true
  · obtain ⟨i, r, _, _, _, heq⟩ := handleRequestFrom_first routes 0 w h
    obtain ⟨r', hmem, hm⟩ := h
    unfold handleRequest
    rw [heq]
    refine ⟨⟨fun _ => ⟨r', hmem, (hmatch r').mp hm⟩, fun _ => rfl⟩, ?_⟩
    intro hf
    simp at hf
  · have hall : ∀ r ∈ routes, r.matches w.conn.req.method w.conn.req.path = false := by
      intro r hr
      by_contra hc
      exact h ⟨r, hr, by simpa using hc⟩
    have heq : handleRequest routes w = (false, w) := handleRequestFrom_false routes 0 w hall
    rw [heq]
    refine ⟨⟨fun hf => by simp at hf, ?_⟩, fun _ => rfl⟩
    rintro ⟨r, hr, hm⟩
    exact absurd ((hmatch r).mpr hm) (by simp [hall r hr])
/-- Instance of C3: `GET /a` registered before `GET /:x`, both matching the request for
`/a`; the handler of `GET /a` runs, once, and nothing of the second route is bound. -/
theorem handleRequest_first_match_wins_witness :
    (addRoute [] "GET".toList "/a".toList (sendHandler "first".toList)).bind
        (fun rs => addRoute rs "GET".toList "/:x".toList (sendHandler "second".toList))
      = some demoRoutes ∧
    (∀ r ∈ demoRoutes, r.matches "GET".toList "/a".toList = true) ∧
    handleRequest demoRoutes (demoWorld "/a".toList) =
      (true, { demoWorld "/a".toList with
        conn := sendHandler "first".toList (demoConn "/a".toList),
        log := [.route 0] }) := by
  have hall : ∀ r ∈ demoRoutes, r.matches "GET".toList "/a".toList = true := by
    intro r hr
    simp only [demoRoutes, List.mem_cons, List.mem_singleton, List.not_mem_nil, or_false] at hr
    rcases hr with rfl | rfl <;> decide
  obtain ⟨i, r, hi, _, hfirst, heq⟩ :=
    handleRequest_first_match_wins demoRoutes (demoWorld "/a".toList)
      ⟨_, List.mem_cons_self _ _, hall _ (List.mem_cons_self _ _)⟩
  refine ⟨rfl, hall, ?_⟩
  cases i with
  | zero =>
    simp only [demoRoutes, List.getElem?_cons_zero, Option.some.injEq] at hi
    subst hi
    rw [heq]
    rfl
  | succ i =>
    have h0 := hfirst 0 _ (Nat.succ_pos i) rfl
    have h1 : (mkRoute "GET".toList "/a".toList (sendHandler "first".toList)).matches
        "GET".toList "/a".toList = true := hall _ (List.mem_cons_self _ _)
    exact absurd (h0.symm.trans h1) (by decide)

/-! ## Patterns without parameters -/

theorem isSyntaxChar_eq_needsEscape (c : Char) : isSyntaxChar c = needsEscape c := by
  rw [Bool.eq_iff_iff]
  simp only [isSyntaxChar, needsEscape, Bool.or_eq_true, beq_iff_eq]
  tauto

theorem pathToRegexLoop_literal (len : Nat) (cs : Str) (i : Nat) (st : RegexBuild)
    (hc : ':' ∉ cs) (hst : st.inParam = false) :
    pathToRegexLoop len i cs st = { st with regex := st.regex ++ escapeAll cs } := by
  induction cs generalizing i st with
  | nil => simp [pathToRegexLoop, escapeAll]
  | cons c cs ih =>
    have hc1 : c ≠ ':' := fun h => hc (by simp [h])
    have hc2 : ':' ∉ cs := fun h => hc (List.mem_cons_of_mem _ h)
    have hstep : pathToRegexStep len st i c =
        { st with regex := st.regex ++ (if needsEscape c then ['\\', c] else [c]) } := by
      simp [pathToRegexStep, hc1, hst]
    rw [pathToRegexLoop, hstep, ih _ _ hc2 (by simpa using hst)]
    simp [escapeAll, List.append_assoc]

theorem pathToRegex_literal (pattern : Str) (hc : ':' ∉ pattern) :
    pathToRegex pattern [] = ('^' :: escapeAll pattern ++ ['$'], []) := by
  have h := pathToRegexLoop_literal pattern.length pattern 0
    { regex := ['^'], currentParam := [], inParam := false, paramNames := [] } hc rfl
  simp [pathToRegex, h]

theorem reStep_escaped (st : ReParse) (c : Char) (hm : st.mode = .normal) :
    reLoop (if needsEscape c then ['\\', c] else [c]) st
      = some (st.push (.one (.lit c))) := by
  obtain ⟨nodes, g, mode⟩ := st
  simp only at hm
  subst hm
  by_cases h : needsEscape c = true
  · simp [h, reLoop, reStep, isSyntaxChar_eq_needsEscape, ReParse.push]
  · have h' : isSyntaxChar c = false := by
      rw [isSyntaxChar_eq_needsEscape]; simpa using h
    have hs := h'
    simp only [isSyntaxChar, Bool.or_eq_false_iff, beq_eq_false_iff_ne] at hs
    simp [h, reLoop, reStep, h', ReParse.push, hs]

theorem reLoop_append (a b : Str) (st : ReParse) :
    reLoop (a ++ b) st = (reLoop a st).bind (reLoop b) := by
  induction a generalizing st with
  | nil => simp [reLoop]
  | cons c cs ih =>
    simp only [List.cons_append, reLoop]
    cases reStep st c with
    | none => simp
    | some st' => simp [ih]

theorem reLoop_escapeAll (cs : Str) (st : ReParse) (hm : st.mode = .normal) :
    reLoop (escapeAll cs) st
      = some { st with nodes := st.nodes ++ cs.map (fun c => Node.one (.lit c)) } := by
  induction cs generalizing st with
  | nil => simp [escapeAll, reLoop]
  | cons c cs ih =>
    rw [escapeAll, reLoop_append, reStep_escaped st c hm]
    simp only [Option.some_bind]
    rw [ih _ (by simp [ReParse.push])]
    simp [ReParse.push, hm]

theorem regexCompile_literal (pattern : Str) :
    regexCompile ('^' :: escapeAll pattern ++ ['$'])
      = some (Node.bol :: (pattern.map (fun c => Node.one (.lit c)) ++ [Node.eol])) := by
  unfold regexCompile
  rw [show '^' :: escapeAll pattern ++ ['$'] = ['^'] ++ (escapeAll pattern ++ ['$']) from rfl,
    reLoop_append]
  have h1 : reLoop ['^'] { nodes := [], inGroup := false, mode := .normal }
      = some { nodes := [Node.bol], inGroup := false, mode := .normal } := by decide
  rw [h1]
  simp only [Option.some_bind]
  rw [reLoop_append, reLoop_escapeAll _ _ rfl]
  simp [reLoop, reStep, ReParse.push]

theorem literal_regexMatch (pattern path : Str) :
    (regexMatch (Node.bol :: (pattern.map (fun c => Node.one (.lit c)) ++ [Node.eol])) path).isSome
      = true ↔ path = pattern := by
  unfold regexMatch
  rw [matchNodes]
  simp only [if_true]
  constructor
  · intro h
    cases hm : matchNodes (pattern.map (fun c => Node.one (.lit c)) ++ [Node.eol])
        { rest := path, consumed := 0, cur := none, caps := [] } with
    | none => rw [hm] at h; simp at h
    | some r =>
      obtain ⟨t, ht⟩ := matchNodes_lits_some _ _ _ _ hm
      simp only at ht
      rw [matchNodes_lits _ _ t _ ht] at hm
      cases t with
      | nil => simpa using ht
      | cons d ds => simp [matchNodes, MatchState.eatAll] at hm
  · rintro rfl
    rw [matchNodes_lits _ _ [] _ (by simp)]
    simp [matchNodes, MatchState.eatAll]

/-- C5: a route whose pattern contains no `:` matches a path, for its own method, exactly
when the path equals the pattern character for character. -/
theorem route_without_params_exact (m pattern : Str) (h : RequestHandler)
    (hc : ':' ∉ pattern) :
    ∃ r, Route.create m pattern h = some r ∧
      ∀ path, r.matches m path = true ↔ path = pattern := by
  refine ⟨{ method := m, path := pattern, pattern := '^' :: escapeAll pattern ++ ['$'],
            regex := Node.bol :: (pattern.map (fun c => Node.one (.lit c)) ++ [Node.eol]),
            paramNames := [], handler := h }, ?_, ?_⟩
  · simp only [Route.create, pathToRegex_literal pattern hc, regexCompile_literal]
  · intro path
    simp only [Route.matches, ne_eq, not_true_eq_false, if_false]
    exact literal_regexMatch pattern path

/-- Instance of C5: the pattern `/a.b(c)/` holds syntax characters and ends in `/`; it
matches itself, and neither `/aXb(c)/`, nor `/a.b(c)` without the final `/`, nor a longer
path. -/
theorem route_without_params_exact_witness :
    ∃ r, Route.create "GET".toList "/a.b(c)/".toList id = some r ∧
      r.matches "GET".toList "/a.b(c)/".toList = true ∧
      r.matches "GET".toList "/aXb(c)/".toList = false ∧
      r.matches "GET".toList "/a.b(c)".toList = false ∧
      r.matches "GET".toList "/a.b(c)/x".toList = false := by
  obtain ⟨r, hr, hm⟩ :=
    route_without_params_exact "GET".toList "/a.b(c)/".toList id (by decide)
  refine ⟨r, hr, (hm _).mpr rfl, ?_, ?_, ?_⟩
  · exact Bool.eq_false_iff.mpr (fun h => absurd ((hm _).mp h) (by decide))
  · exact Bool.eq_false_iff.mpr (fun h => absurd ((hm _).mp h) (by decide))
  · exact Bool.eq_false_iff.mpr (fun h => absurd ((hm _).mp h) (by decide))

/-! ## `Middleware::pathMatches` -/

theorem findFrom_ge (needle hay : Str) (p q : Nat) (h : findFrom needle hay p = some q) :
    p ≤ q := by
  induction hay generalizing p with
  | nil =>
    simp only [findFrom] at h
    split at h <;> simp at h
    omega
  | cons c hay ih =>
    simp only [findFrom] at h
    split at h
    · simp at h; omega
    · have := ih _ h
      omega

theorem strFind_zero_iff (hay needle : Str) :
    strFind hay needle = some 0 ↔ needle <+: hay := by
  unfold strFind
  cases hay with
  | nil =>
    cases needle <;> simp [findFrom]
  | cons c hay =>
    simp only [findFrom]
    by_cases hp : needle.isPrefixOf (c :: hay) = true
    · simp [hp, List.isPrefixOf_iff_prefix.mp hp]
    · simp only [hp]
      constructor
      · intro h
        have := findFrom_ge _ _ _ _ h
        omega
      · intro h
        exact absurd (List.isPrefixOf_iff_prefix.mpr h) hp

theorem pathMatches_iff (middlewarePath requestPath : Str) :
    pathMatches middlewarePath requestPath = true ↔ middlewarePath <+: requestPath := by
  unfold pathMatches
  cases middlewarePath with
  | nil => simp
  | cons c cs =>
    simp only [List.isEmpty_cons]
    rw [← strFind_zero_iff]
    simp

/-- C8: when the chain reaches an entry registered with path `p` (non-empty or not), the
entry's function is called exactly when the request path starts with `p`; otherwise the
entry is passed over and the chain goes on with the next entry. `/admin` is not the start
of `/public` and is the start of `/admin/users`. -/
theorem scoped_entry_runs_iff_path_starts (chain : List MiddlewareEntry)
    (finalNext : Conn → Conn) (fuel i : Nat) (w : World) (e : MiddlewareEntry)
    (hi : chain[i]? = some e) :
    (e.path <+: w.conn.req.path →
      executeNext chain finalNext (fuel + 1) i w =
        runHandler (fun calls w' => executeNext chain finalNext fuel (i + calls + 1) w') 0
          (e.function w.conn) { w with log := w.log ++ [.invoke i] }) ∧
    (¬ e.path <+: w.conn.req.path →
      executeNext chain finalNext (fuel + 1) i w =
        executeNext chain finalNext fuel (i + 1) { w with log := w.log ++ [.skip i] }) ∧
    pathMatches "/admin".toList "/public".toList = false ∧
    pathMatches "/admin".toList "/admin/users".toList = true := by
  have hlt : i < chain.length := by
    by_contra hge
    rw [List.getElem?_eq_none (by omega)] at hi
    exact absurd hi (by simp)
  have hne : i ≠ chain.length := by omega
  refine ⟨?_, ?_, by decide, by decide⟩
  · intro hpre
    have hm : pathMatches e.path w.conn.req.path = true := (pathMatches_iff _ _).mpr hpre
    simp [executeNext, hne, hi, hm]
  · intro hpre
    have hm : pathMatches e.path w.conn.req.path = false := by
      rw [Bool.eq_false_iff]
      exact fun h => hpre ((pathMatches_iff _ _).mp h)
    simp [executeNext, hne, hi, hm]

/-- Instance of C8: in the chain global, `/admin`, global, reached with the request path
`/public` the `/admin` entry is passed over, and the whole run calls entries 0 and 2 only;
with `/admin/users` all three are called. -/
theorem scoped_entry_runs_iff_path_starts_witness :
    executeNext adminChain id 3 1 (demoWorld "/public".toList) =
      executeNext adminChain id 2 2
        { demoWorld "/public".toList with log := [.skip 1] } ∧
    (execute adminChain id (demoWorld "/public".toList)).toOption.map (·.log) =
      some [.invoke 0, .skip 1, .invoke 2, .final] ∧
    (execute adminChain id (demoWorld "/admin/users".toList)).toOption.map (·.log) =
      some [.invoke 0, .invoke 1, .invoke 2, .final] :=
  ⟨(scoped_entry_runs_iff_path_starts adminChain id 2 1 (demoWorld "/public".toList)
      { path := "/admin".toList, function := mwHeader } rfl).2.1 (by decide),
    by decide, by decide⟩

/-! ## Chains whose functions call `next()` exactly once -/

theorem getElem?_of_drop_cons {α : Type} (l : List α) (i : Nat) (a : α) (rest : List α)
    (h : l.drop i = a :: rest) :
    l[i]? = some a ∧ l.drop (i + 1) = rest ∧ i < l.length := by
  have hlt : i < l.length := by
    by_contra hge
    rw [List.drop_eq_nil_of_le (by omega)] at h
    exact absurd h (by simp)
  have h2 := List.drop_eq_getElem_cons hlt
  rw [h] at h2
  simp only [List.cons.injEq] at h2
  refine ⟨?_, h2.2.symm, hlt⟩
  rw [List.getElem?_eq_getElem hlt, h2.1]

theorem runHandler_callsOnce (next : Nat → World → Except Fault World) (m : Mw) (w w2 : World)
    (hm : m.CallsOnce) (hn : next 0 { w with conn := m.firstConn } = .ok w2) :
    ∃ w', runHandler next 0 m w = .ok w' ∧ w'.log = w2.log ∧
      w'.middlewareIndex = w2.middlewareIndex := by
  cases m with
  | ret c => exact absurd hm (by simp [Mw.CallsOnce])
  | callNext c k =>
    simp only [Mw.firstConn] at hn
    simp only [runHandler, hn]
    have hk := hm w2.conn
    cases hkc : k w2.conn with
    | ret c' => exact ⟨{ w2 with conn := c' }, by simp [runHandler], rfl, rfl⟩
    | callNext c' k' => rw [hkc] at hk; exact absurd hk (by simp [Mw.Returns])

theorem executeNext_callsOnce (chain : List MiddlewareEntry) (finalNext : Conn → Conn)
    (h : ∀ e ∈ chain, ∀ c, pathMatches e.path c.req.path = true → (e.function c).CallsOnce)
    (L : List MiddlewareEntry) (current fuel : Nat) (w : World)
    (hL : chain.drop current = L) (hcur : current ≤ chain.length) (hfuel : L.length < fuel) :
    ∃ w', executeNext chain finalNext fuel current w = .ok w' ∧
      w'.log = w.log ++ visits current L w.conn ++ [.final] := by
  induction L generalizing current fuel w with
  | nil =>
    have hlen : current = chain.length := by
      have := congrArg List.length hL
      simp at this
      omega
    obtain ⟨fuel, rfl⟩ : ∃ f, fuel = f + 1 := ⟨fuel - 1, by simp at hfuel; omega⟩
    exact ⟨{ w with conn := finalNext w.conn, log := w.log ++ [.final] },
      by simp [executeNext, hlen], by simp [visits]⟩
  | cons e L ih =>
    obtain ⟨hget, hdrop, hlt⟩ := getElem?_of_drop_cons chain current e L hL
    obtain ⟨fuel, rfl⟩ : ∃ f, fuel = f + 1 := ⟨fuel - 1, by simp at hfuel; omega⟩
    have hne : current ≠ chain.length := by omega
    have hmem : e ∈ chain := List.getElem?_mem hget
    simp only [List.length_cons, Nat.add_lt_add_iff_right] at hfuel
    by_cases hm : pathMatches e.path w.conn.req.path = true
    · obtain ⟨w2, hw2, hlog2⟩ := ih (current + 1) fuel
        { w with conn := (e.function w.conn).firstConn, log := w.log ++ [.invoke current] }
        hdrop (by omega) hfuel
      obtain ⟨w', hw', hlog', _⟩ := runHandler_callsOnce
        (fun calls w' => executeNext chain finalNext fuel (current + calls + 1) w')
        (e.function w.conn) { w with log := w.log ++ [.invoke current] } w2
        (h e hmem w.conn hm) (by simpa using hw2)
      refine ⟨w', by simp [executeNext, hne, hget, hm, hw'], ?_⟩
      rw [hlog', hlog2]
      simp [visits, hm]
    · obtain ⟨w2, hw2, hlog2⟩ := ih (current + 1) fuel
        { w with log := w.log ++ [.skip current] } hdrop (by omega) hfuel
      refine ⟨w2, by simp [executeNext, hne, hget, hm, hw2], ?_⟩
      rw [hlog2]
      simp [visits, hm]

theorem visits_entries (L : List MiddlewareEntry) (i : Nat) (c : Conn) :
    (visits i L c).map Event.entry = (List.range' i L.length).map some := by
  induction L generalizing i c with
  | nil => simp [visits]
  | cons e L ih =>
    by_cases hm : pathMatches e.path c.req.path = true
    · simp [visits, hm, Event.entry, ih, List.range'_succ]
    · simp [visits, hm, Event.entry, ih, List.range'_succ]

theorem routeOrNotFound_log (srv : HttpServer) (w : World) :
    ∃ tail, (routeOrNotFound srv w).log = w.log ++ [.final] ++ tail ∧
      ∀ ev ∈ tail, ∃ j, ev = .route j := by
  unfold routeOrNotFound
  by_cases h : ∃ r ∈ srv.routes, r.matches w.conn.req.method w.conn.req.path = true
  · obtain ⟨i, r, _, _, _, heq⟩ := handleRequestFrom_first srv.routes 0
      { w with log := w.log ++ [.final] } h
    simp only [handleRequest, heq]
    exact ⟨[.route (0 + i)], by simp, by simp⟩
  · have hall : ∀ r ∈ srv.routes, r.matches w.conn.req.method w.conn.req.path = false := by
      intro r hr
      by_contra hc
      exact h ⟨r, hr, by simpa using hc⟩
    have heq : handleRequest srv.routes { w with log := w.log ++ [.final] }
        = (false, { w with log := w.log ++ [.final] }) :=
      handleRequestFrom_false srv.routes 0 _ hall
    simp only [heq]
    exact ⟨[], by simp, by simp⟩

theorem serverNext_callsOnce (srv : HttpServer)
    (h : ∀ m ∈ srv.globalMiddleware, ∀ c, (m c).CallsOnce)
    (d fuel : Nat) (w : World)
    (hd : srv.globalMiddleware.length - w.middlewareIndex = d) (hfuel : d < fuel) :
    ∃ w', serverNext srv fuel w = .ok w' ∧
      ∃ tail, w'.log = w.log ++ (List.range' w.middlewareIndex d).map Event.invoke
          ++ [.final] ++ tail ∧
        ∀ ev ∈ tail, ∃ j, ev = .route j := by
  induction d generalizing fuel w with
  | zero =>
    obtain ⟨fuel, rfl⟩ : ∃ f, fuel = f + 1 := ⟨fuel - 1, by omega⟩
    have hnone : srv.globalMiddleware[w.middlewareIndex]? = none :=
      List.getElem?_eq_none (by omega)
    obtain ⟨tail, ht, hr⟩ := routeOrNotFound_log srv w
    exact ⟨routeOrNotFound srv w, by simp [serverNext, hnone], tail, by simp [ht], hr⟩
  | succ d ih =>
    obtain ⟨fuel, rfl⟩ : ∃ f, fuel = f + 1 := ⟨fuel - 1, by omega⟩
    have hlt : w.middlewareIndex < srv.globalMiddleware.length := by omega
    have hget : srv.globalMiddleware[w.middlewareIndex]?
        = some srv.globalMiddleware[w.middlewareIndex] := List.getElem?_eq_getElem hlt
    obtain ⟨w2, hw2, tail, hlog2, hr⟩ := ih fuel
      { w with conn := (srv.globalMiddleware[w.middlewareIndex] w.conn).firstConn,
               middlewareIndex := w.middlewareIndex + 1,
               log := w.log ++ [.invoke w.middlewareIndex] }
      (by simp only; omega) (by omega)
    obtain ⟨w', hw', hlog', _⟩ := runHandler_callsOnce
      (fun _ w' => serverNext srv fuel w')
      (srv.globalMiddleware[w.middlewareIndex] w.conn)
      { w with middlewareIndex := w.middlewareIndex + 1,
               log := w.log ++ [.invoke w.middlewareIndex] } w2
      (h _ (List.getElem_mem _) w.conn) (by simpa using hw2)
    refine ⟨w', by simp [serverNext, hget, hw'], tail, ?_, hr⟩
    rw [hlog', hlog2]
    simp [List.range'_succ]

/-- C10: in a chain where every entry that applies calls `next()` exactly once,
`Middleware::execute` visits every entry once, in registration order, calling those whose
path matches, and then calls the final continuation once, last; the middleware loop of
`HttpServer::processRequest` calls every global middleware once, in order, and then the
routing step once; on an empty chain the final continuation is called at once. -/
theorem chain_runs_in_registration_order (chain : List MiddlewareEntry)
    (finalNext : Conn → Conn) (w : World) (srv : HttpServer) (c : Conn)
    (hchain : ∀ e ∈ chain, ∀ c', pathMatches e.path c'.req.path = true →
      (e.function c').CallsOnce)
    (hsrv : ∀ m ∈ srv.globalMiddleware, ∀ c', (m c').CallsOnce) :
    (∃ w', execute chain finalNext w = .ok w' ∧
      w'.log = w.log ++ visits 0 chain w.conn ++ [.final] ∧
      (visits 0 chain w.conn).map Event.entry = (List.range chain.length).map some) ∧
    (∃ w', dispatch srv c = .ok w' ∧
      ∃ tail, w'.log = (List.range srv.globalMiddleware.length).map Event.invoke
          ++ [.final] ++ tail ∧
        ∀ ev ∈ tail, ∃ j, ev = .route j) ∧
    execute [] finalNext w = .ok { w with conn := finalNext w.conn, log := w.log ++ [.final] } := by
  refine ⟨?_, ?_, rfl⟩
  · have hent := visits_entries chain 0 w.conn
    rw [← List.range_eq_range'] at hent
    cases hc : chain with
    | nil =>
      exact ⟨{ w with conn := finalNext w.conn, log := w.log ++ [.final] },
        by simp [execute], by simp [visits], by simp [visits]⟩
    | cons e rest =>
      obtain ⟨w', hw', hlog⟩ := executeNext_callsOnce chain finalNext hchain chain 0
        (chain.length + 1) w rfl (Nat.zero_le _) (Nat.lt_succ_self _)
      rw [hc] at hw' hlog hent
      exact ⟨w', by simpa [execute] using hw', hlog, hent⟩
  · by_cases he : srv.globalMiddleware.isEmpty = true
    · obtain ⟨tail, ht, hr⟩ := routeOrNotFound_log srv
        { conn := c, middlewareIndex := 0, log := [] }
      have hnil : srv.globalMiddleware = [] := List.isEmpty_iff.mp he
      exact ⟨routeOrNotFound srv { conn := c, middlewareIndex := 0, log := [] },
        by simp [dispatch, he], tail, by simpa [hnil] using ht, hr⟩
    · obtain ⟨w', hw', tail, hlog, hr⟩ := serverNext_callsOnce srv hsrv
        srv.globalMiddleware.length (srv.globalMiddleware.length + 1)
        { conn := c, middlewareIndex := 0, log := [] } rfl (Nat.lt_succ_self _)
      refine ⟨w', by simpa [dispatch, he] using hw', tail, ?_, hr⟩
      rw [hlog, List.range_eq_range']
      simp

/-- Instance of C10: the chain global, `/admin`, global on a request for `/public`, and a
server with two global middleware functions and no route. -/
theorem chain_runs_in_registration_order_witness :
    (∃ w', execute adminChain id (demoWorld "/public".toList) = .ok w' ∧
      w'.log = [.invoke 0, .skip 1, .invoke 2, .final]) ∧
    (∃ w', dispatch twoStepServer (demoConn "/public".toList) = .ok w' ∧
      w'.log = [.invoke 0, .invoke 1, .final]) := by
  have h := chain_runs_in_registration_order adminChain id (demoWorld "/public".toList)
    twoStepServer (demoConn "/public".toList)
    (by
      intro e he c' _
      simp only [adminChain, Middleware.use, Middleware.usePath, List.nil_append,
        List.cons_append, List.mem_cons, List.mem_singleton, List.not_mem_nil, or_false] at he
      rcases he with rfl | rfl | rfl <;>
        simp [mwContinue, mwHeader, Mw.CallsOnce, Mw.Returns])
    (by
      intro m hm c'
      simp only [twoStepServer, emptyServer, HttpServer.use, List.nil_append,
        List.cons_append, List.mem_cons, List.mem_singleton, List.not_mem_nil, or_false] at hm
      rcases hm with rfl | rfl <;> simp [mwContinue, mwHeader, Mw.CallsOnce, Mw.Returns])
  obtain ⟨⟨w1, h1, hl1, _⟩, ⟨w2, h2, tail, hl2, _⟩, _⟩ := h
  refine ⟨⟨w1, h1, ?_⟩, ⟨w2, h2, ?_⟩⟩
  · rw [hl1]; decide
  · have hd : dispatch twoStepServer (demoConn "/public".toList) = .ok w2 := h2
    have : (dispatch twoStepServer (demoConn "/public".toList)).toOption.map (·.log)
        = some [.invoke 0, .invoke 1, .final] := by decide
    rw [hd] at this
    simpa [Except.toOption] using this

/-! ## An entry that does not call `next()` -/

theorem runHandler_log (Q : Event → Prop) (next : Nat → World → Except Fault World)
    (hnext : ∀ calls w a, next calls w = .ok a →
      ∃ T, a.log = w.log ++ T ∧ ∀ ev ∈ T, Q ev)
    (m : Mw) (calls : Nat) (w w' : World) (h : runHandler next calls m w = .ok w') :
    ∃ T, w'.log = w.log ++ T ∧ ∀ ev ∈ T, Q ev := by
  induction m generalizing calls w with
  | ret c =>
    simp only [runHandler, Except.ok.injEq] at h
    subst h
    exact ⟨[], by simp, by simp⟩
  | callNext c k ih =>
    simp only [runHandler] at h
    cases hn : next calls { w with conn := c } with
    | error e => rw [hn] at h; simp at h
    | ok w2 =>
      rw [hn] at h
      obtain ⟨T1, hT1, hQ1⟩ := hnext _ _ _ hn
      obtain ⟨T2, hT2, hQ2⟩ := ih w2.conn (calls + 1) w2 h
      refine ⟨T1 ++ T2, by rw [hT2, hT1]; simp, ?_⟩
      intro ev hev
      rcases List.mem_append.mp hev with h1 | h2
      · exact hQ1 ev h1
      · exact hQ2 ev h2

theorem executeNext_log_ge (chain : List MiddlewareEntry) (finalNext : Conn → Conn)
    (fuel cur : Nat) (w w' : World) (h : executeNext chain finalNext fuel cur w = .ok w') :
    ∃ T, w'.log = w.log ++ T ∧
      ∀ ev ∈ T, ev = .final ∨ ∃ j, cur ≤ j ∧ (ev = .invoke j ∨ ev = .skip j) := by
  induction fuel generalizing cur w w' with
  | zero => simp [executeNext] at h
  | succ fuel ih =>
    have hwk : ∀ calls w1 a, executeNext chain finalNext fuel (cur + calls + 1) w1 = .ok a →
        ∃ T, a.log = w1.log ++ T ∧
          ∀ ev ∈ T, ev = .final ∨ ∃ j, cur ≤ j ∧ (ev = .invoke j ∨ ev = .skip j) := by
      intro calls w1 a ha
      obtain ⟨T, hT, hQ⟩ := ih _ _ _ ha
      refine ⟨T, hT, fun ev hev => ?_⟩
      rcases hQ ev hev with hf | ⟨j, hj, hev'⟩
      · exact Or.inl hf
      · exact Or.inr ⟨j, by omega, hev'⟩
    simp only [executeNext] at h
    split at h
    · simp only [Except.ok.injEq] at h
      subst h
      exact ⟨[.final], rfl, by simp⟩
    · split at h
      · simp at h
      · rename_i e _
        split at h
        · obtain ⟨T, hT, hQ⟩ := runHandler_log _ _ hwk _ _ _ _ h
          refine ⟨.invoke cur :: T, by rw [hT]; simp, ?_⟩
          intro ev hev
          rcases List.mem_cons.mp hev with rfl | hev
          · exact Or.inr ⟨cur, le_refl _, Or.inl rfl⟩
          · exact hQ ev hev
        · obtain ⟨T, hT, hQ⟩ := hwk 0 _ _ h
          refine ⟨.skip cur :: T, by rw [hT]; simp, ?_⟩
          intro ev hev
          rcases List.mem_cons.mp hev with rfl | hev
          · exact Or.inr ⟨cur, le_refl _, Or.inr rfl⟩
          · exact hQ ev hev

theorem runHandler_returns (next : Nat → World → Except Fault World) (m : Mw) (w : World)
    (hm : m.Returns) : runHandler next 0 m w = .ok { w with conn := m.firstConn } := by
  cases m with
  | ret c => rfl
  | callNext c k => exact absurd hm (by simp [Mw.Returns])

theorem runHandler_atMostOnce (next : Nat → World → Except Fault World) (m : Mw) (w : World)
    (hm : m.AtMostOnce) :
    runHandler next 0 m w = .ok { w with conn := m.firstConn } ∨
    (∃ e, next 0 { w with conn := m.firstConn } = .error e ∧
      runHandler next 0 m w = .error e) ∨
    (∃ w2 c', next 0 { w with conn := m.firstConn } = .ok w2 ∧
      runHandler next 0 m w = .ok { w2 with conn := c' }) := by
  cases m with
  | ret c => exact Or.inl rfl
  | callNext c k =>
    right
    simp only [Mw.firstConn, runHandler]
    cases hn : next 0 { w with conn := c } with
    | error e => exact Or.inl ⟨e, rfl, rfl⟩
    | ok w2 =>
      right
      have hk := hm w2.conn
      cases hkc : k w2.conn with
      | ret c' => exact ⟨w2, c', rfl, by simp [runHandler, hkc]⟩
      | callNext c' k' => rw [hkc] at hk; exact absurd hk (by simp [Mw.Returns])

theorem executeNext_blocked_partial (chain : List MiddlewareEntry) (finalNext : Conn → Conn)
    (i : Nat) (b : MiddlewareEntry) (hi : chain[i]? = some b)
    (hb : ∀ c, (b.function c).Returns)
    (hpre : ∀ j e, j < i → chain[j]? = some e → ∀ c, (e.function c).AtMostOnce)
    (fuel cur : Nat) (w w' : World) (hcur : cur ≤ i)
    (h : executeNext chain finalNext fuel cur w = .ok w') :
    ∃ T, w'.log = w.log ++ T ∧
      (.invoke i ∈ T → ∀ ev ∈ T, ∃ j, j ≤ i ∧ (ev = .invoke j ∨ ev = .skip j)) := by
  have hilt : i < chain.length := by
    by_contra hge
    rw [List.getElem?_eq_none (by omega)] at hi
    exact absurd hi (by simp)
  induction fuel generalizing cur w w' with
  | zero => simp [executeNext] at h
  | succ fuel ih =>
    have hne : cur ≠ chain.length := by omega
    have hget : chain[cur]? = some chain[cur] := List.getElem?_eq_getElem (by omega)
    simp only [executeNext, hne, if_false, hget] at h
    by_cases hm : pathMatches chain[cur].path w.conn.req.path = true
    · simp only [hm, if_true] at h
      by_cases hci : cur = i
      · subst hci
        have hbe : chain[cur] = b := by
          rw [hget] at hi; exact Option.some.inj hi
        rw [runHandler_returns _ _ _ (hbe ▸ hb w.conn)] at h
        simp only [Except.ok.injEq] at h
        subst h
        exact ⟨[.invoke cur], rfl,
          fun _ ev hev => ⟨cur, le_refl _, Or.inl (by simpa using hev)⟩⟩
      · have hlt : cur < i := by omega
        rcases runHandler_atMostOnce
          (fun calls w' => executeNext chain finalNext fuel (cur + calls + 1) w')
          (chain[cur].function w.conn) { w with log := w.log ++ [.invoke cur] }
          (hpre cur _ hlt hget w.conn) with h1 | ⟨e, _, h1⟩ | ⟨w2, c', hn, h1⟩
        · rw [h1] at h
          simp only [Except.ok.injEq] at h
          subst h
          exact ⟨[.invoke cur], rfl,
            fun _ ev hev => ⟨cur, by omega, Or.inl (by simpa using hev)⟩⟩
        · rw [h1] at h; simp at h
        · rw [h1] at h
          simp only [Except.ok.injEq] at h
          subst h
          obtain ⟨T, hT, hQ⟩ := ih (cur + 1) _ w2 (by omega) hn
          refine ⟨.invoke cur :: T, by simp [hT], ?_⟩
          intro hmem ev hev
          have hmemT : Event.invoke i ∈ T := by
            rcases List.mem_cons.mp hmem with heq | hmT
            · injection heq with heq; omega
            · exact hmT
          rcases List.mem_cons.mp hev with rfl | hev
          · exact ⟨cur, by omega, Or.inl rfl⟩
          · exact hQ hmemT ev hev
    · simp only [hm] at h
      by_cases hci : cur = i
      · subst hci
        obtain ⟨T, hT, hQ⟩ := executeNext_log_ge _ _ _ _ _ _ h
        refine ⟨.skip cur :: T, by simp [hT], ?_⟩
        intro hmem
        exfalso
        rcases List.mem_cons.mp hmem with heq | hmT
        · exact absurd heq (by simp)
        · rcases hQ _ hmT with hf | ⟨j, hj, hj1 | hj2⟩
          · exact absurd hf (by simp)
          · injection hj1 with hj1; omega
          · exact absurd hj2 (by simp)
      · obtain ⟨T, hT, hQ⟩ := ih (cur + 1) _ w' (by omega) h
        refine ⟨.skip cur :: T, by simp [hT], ?_⟩
        intro hmem ev hev
        have hmemT : Event.invoke i ∈ T := by
          rcases List.mem_cons.mp hmem with heq | hmT
          · exact absurd heq (by simp)
          · exact hmT
        rcases List.mem_cons.mp hev with rfl | hev
        · exact ⟨cur, by omega, Or.inr rfl⟩
        · exact hQ hmemT ev hev

theorem executeNext_blocked_total (chain : List MiddlewareEntry) (finalNext : Conn → Conn)
    (i : Nat) (b : MiddlewareEntry) (hi : chain[i]? = some b)
    (hb : ∀ c, (b.function c).Returns) (hglobal : b.path = [])
    (hpre : ∀ j e, j < i → chain[j]? = some e → ∀ c, (e.function c).AtMostOnce)
    (fuel cur : Nat) (w : World) (hcur : cur ≤ i) (hfuel : i - cur < fuel) :
    ∃ w' T, executeNext chain finalNext fuel cur w = .ok w' ∧ w'.log = w.log ++ T ∧
      ∀ ev ∈ T, ∃ j, j ≤ i ∧ (ev = .invoke j ∨ ev = .skip j) := by
  have hilt : i < chain.length := by
    by_contra hge
    rw [List.getElem?_eq_none (by omega)] at hi
    exact absurd hi (by simp)
  induction fuel generalizing cur w with
  | zero => omega
  | succ fuel ih =>
    have hne : cur ≠ chain.length := by omega
    have hget : chain[cur]? = some chain[cur] := List.getElem?_eq_getElem (by omega)
    simp only [executeNext, hne, if_false, hget]
    by_cases hci : cur = i
    · subst hci
      have hbe : chain[cur] = b := by
        rw [hget] at hi; exact Option.some.inj hi
      have hm : pathMatches chain[cur].path w.conn.req.path = true := by
        rw [hbe, hglobal]; rfl
      simp only [hm, if_true]
      rw [runHandler_returns _ _ _ (hbe ▸ hb w.conn)]
      exact ⟨_, [.invoke cur], rfl, rfl,
        fun ev hev => ⟨cur, le_refl _, Or.inl (by simpa using hev)⟩⟩
    · have hlt : cur < i := by omega
      by_cases hm : pathMatches chain[cur].path w.conn.req.path = true
      · simp only [hm, if_true]
        obtain ⟨w2, T, hn, hT, hQ⟩ := ih (cur + 1)
          { w with conn := (chain[cur].function w.conn).firstConn,
                   log := w.log ++ [.invoke cur] } (by omega) (by omega)
        rcases runHandler_atMostOnce
          (fun calls w' => executeNext chain finalNext fuel (cur + calls + 1) w')
          (chain[cur].function w.conn) { w with log := w.log ++ [.invoke cur] }
          (hpre cur _ hlt hget w.conn) with h1 | ⟨e, he, _⟩ | ⟨w3, c', hn3, h1⟩
        · rw [h1]
          exact ⟨_, [.invoke cur], rfl, rfl,
            fun ev hev => ⟨cur, by omega, Or.inl (by simpa using hev)⟩⟩
        · simp only [Nat.add_zero] at he
          rw [hn] at he
          exact absurd he (by simp)
        · rw [h1]
          simp only [Nat.add_zero] at hn3
          rw [hn] at hn3
          simp only [Except.ok.injEq] at hn3
          subst hn3
          refine ⟨_, .invoke cur :: T, rfl, by simp [hT], ?_⟩
          intro ev hev
          rcases List.mem_cons.mp hev with rfl | hev
          · exact ⟨cur, by omega, Or.inl rfl⟩
          · exact hQ ev hev
      · simp only [hm]
        obtain ⟨w2, T, hn, hT, hQ⟩ := ih (cur + 1)
          { w with log := w.log ++ [.skip cur] } (by omega) (by omega)
        refine ⟨w2, .skip cur :: T, by simpa using hn, by simp [hT], ?_⟩
        intro ev hev
        rcases List.mem_cons.mp hev with rfl | hev
        · exact ⟨cur, by omega, Or.inr rfl⟩
        · exact hQ ev hev

theorem serverNext_blocked (srv : HttpServer) (i : Nat) (b : MiddlewareFunction)
    (hi : srv.globalMiddleware[i]? = some b) (hb : ∀ c, (b c).Returns)
    (hpre : ∀ j m, j < i → srv.globalMiddleware[j]? = some m → ∀ c, (m c).AtMostOnce)
    (fuel : Nat) (w : World) (hcur : w.middlewareIndex ≤ i)
    (hfuel : i - w.middlewareIndex < fuel) :
    ∃ w' T, serverNext srv fuel w = .ok w' ∧ w'.log = w.log ++ T ∧
      ∀ ev ∈ T, ∃ j, j ≤ i ∧ ev = .invoke j := by
  have hilt : i < srv.globalMiddleware.length := by
    by_contra hge
    rw [List.getElem?_eq_none (by omega)] at hi
    exact absurd hi (by simp)
  induction fuel generalizing w with
  | zero => omega
  | succ fuel ih =>
    have hget : srv.globalMiddleware[w.middlewareIndex]?
        = some srv.globalMiddleware[w.middlewareIndex] := List.getElem?_eq_getElem (by omega)
    simp only [serverNext, hget]
    by_cases hci : w.middlewareIndex = i
    · have hbe : srv.globalMiddleware[w.middlewareIndex] = b := by
        have h2 : srv.globalMiddleware[w.middlewareIndex]? = some b := by rw [hci]; exact hi
        rw [hget] at h2
        exact Option.some.inj h2
      rw [runHandler_returns _ _ _ (hbe ▸ hb w.conn)]
      exact ⟨_, [.invoke w.middlewareIndex], rfl, rfl,
        fun ev hev => ⟨w.middlewareIndex, by omega, by simpa using hev⟩⟩
    · have hlt : w.middlewareIndex < i := by omega
      obtain ⟨w2, T, hn, hT, hQ⟩ := ih
        { w with conn := (srv.globalMiddleware[w.middlewareIndex] w.conn).firstConn,
                 middlewareIndex := w.middlewareIndex + 1,
                 log := w.log ++ [.invoke w.middlewareIndex] }
        (by simp only; omega) (by simp only; omega)
      rcases runHandler_atMostOnce
        (fun _ w' => serverNext srv fuel w')
        (srv.globalMiddleware[w.middlewareIndex] w.conn)
        { w with middlewareIndex := w.middlewareIndex + 1,
                 log := w.log ++ [.invoke w.middlewareIndex] }
        (hpre _ _ hlt hget w.conn) with h1 | ⟨e, he, _⟩ | ⟨w3, c', hn3, h1⟩
      · rw [h1]
        exact ⟨_, [.invoke w.middlewareIndex], rfl, rfl,
          fun ev hev => ⟨w.middlewareIndex, by omega, by simpa using hev⟩⟩
      · rw [hn] at he
        exact absurd he (by simp)
      · rw [h1]
        rw [hn] at hn3
        simp only [Except.ok.injEq] at hn3
        subst hn3
        refine ⟨_, .invoke w.middlewareIndex :: T, rfl, by simp [hT], ?_⟩
        intro ev hev
        rcases List.mem_cons.mp hev with rfl | hev
        · exact ⟨w.middlewareIndex, by omega, rfl⟩
        · exact hQ ev hev

/-- C7, as stated, fails: in the global chain `mwTwice`, `mwBlock`, `mwHeader` the second
entry applies and returns without calling `next()`, yet the third entry and the final
continuation run, because the first entry calls `next()` a second time; the response
carries the header the third entry sets. The same holds in the server's loop. -/
theorem blocking_entry_bypassed :
    (execute twiceChain id (demoWorld "/x".toList)).toOption.map (·.log) =
      some [.invoke 0, .invoke 1, .invoke 2, .final] ∧
    (execute twiceChain id (demoWorld "/x".toList)).toOption.map
        (fun w => mapFind w.conn.res.headers "X-B".toList) = some (some "1".toList) ∧
    (dispatch twiceServer (demoConn "/x".toList)).toOption.map (·.log) =
      some [.invoke 0, .invoke 1, .invoke 2, .final] ∧
    (dispatch twiceServer (demoConn "/x".toList)).toOption.map
        (fun w => mapFind w.conn.res.headers "X-B".toList) = some (some "1".toList) := by
  refine ⟨?_, ?_, ?_, ?_⟩ <;> decide

/-- C7, amended: when an entry returns without calling `next()` and every entry before it
calls `next()` at most once, then in every run of `Middleware::execute` in which that entry
is called, no later entry and no final continuation is executed; when the entry is global
the run ends with only entries up to it visited; when it is the first entry the result is
exactly what it returned. In the server's loop, under the same conditions, only middleware
up to the blocking one is called and the routing step is not reached. -/
theorem blocking_entry_halts_chain (chain : List MiddlewareEntry) (finalNext : Conn → Conn)
    (w : World) (i : Nat) (b : MiddlewareEntry) (srv : HttpServer) (c : Conn) (k : Nat)
    (m : MiddlewareFunction)
    (hi : chain[i]? = some b) (hb : ∀ c', (b.function c').Returns)
    (hpre : ∀ j e, j < i → chain[j]? = some e → ∀ c', (e.function c').AtMostOnce)
    (hk : srv.globalMiddleware[k]? = some m) (hm : ∀ c', (m c').Returns)
    (hprek : ∀ j m', j < k → srv.globalMiddleware[j]? = some m' →
      ∀ c', (m' c').AtMostOnce) :
    (∀ w', execute chain finalNext w = .ok w' →
      ∃ T, w'.log = w.log ++ T ∧
        (.invoke i ∈ T → ∀ ev ∈ T, ∃ j, j ≤ i ∧ (ev = .invoke j ∨ ev = .skip j))) ∧
    (b.path = [] →
      ∃ w' T, execute chain finalNext w = .ok w' ∧ w'.log = w.log ++ T ∧
        ∀ ev ∈ T, ∃ j, j ≤ i ∧ (ev = .invoke j ∨ ev = .skip j)) ∧
    (b.path = [] → i = 0 →
      execute chain finalNext w =
        .ok { w with conn := (b.function w.conn).firstConn, log := w.log ++ [.invoke 0] }) ∧
    (∃ w', dispatch srv c = .ok w' ∧ ∀ ev ∈ w'.log, ∃ j, j ≤ k ∧ ev = .invoke j) ∧
    (k = 0 →
      dispatch srv c =
        .ok { conn := (m c).firstConn, middlewareIndex := 1, log := [.invoke 0] }) := by
  have hne : chain.isEmpty = false := by
    cases chain with
    | nil => simp at hi
    | cons e rest => rfl
  have hne' : srv.globalMiddleware.isEmpty = false := by
    cases hg : srv.globalMiddleware with
    | nil => rw [hg] at hk; simp at hk
    | cons e rest => rfl
  have hilt : i < chain.length := by
    by_contra hge
    rw [List.getElem?_eq_none (by omega)] at hi
    exact absurd hi (by simp)
  have hklt : k < srv.globalMiddleware.length := by
    by_contra hge
    rw [List.getElem?_eq_none (by omega)] at hk
    exact absurd hk (by simp)
  have hex : execute chain finalNext w = executeNext chain finalNext (chain.length + 1) 0 w := by
    simp [execute, hne]
  have hdx : dispatch srv c = serverNext srv (srv.globalMiddleware.length + 1)
      { conn := c, middlewareIndex := 0, log := [] } := by
    simp [dispatch, hne']
  refine ⟨?_, ?_, ?_, ?_, ?_⟩
  · intro w' hw'
    rw [hex] at hw'
    exact executeNext_blocked_partial chain finalNext i b hi hb hpre _ 0 w w' (Nat.zero_le _) hw'
  · intro hglobal
    rw [hex]
    exact executeNext_blocked_total chain finalNext i b hi hb hglobal hpre _ 0 w
      (Nat.zero_le _) (by omega)
  · intro hglobal h0
    subst h0
    have hm0 : pathMatches b.path w.conn.req.path = true := by rw [hglobal]; rfl
    have hlen : (0 : Nat) ≠ chain.length := by omega
    rw [hex]
    simp only [executeNext, hlen, if_false, hi, hm0, if_true]
    exact runHandler_returns _ _ _ (hb w.conn)
  · rw [hdx]
    obtain ⟨w', T, hw', hT, hQ⟩ := serverNext_blocked srv k m hk hm hprek
      (srv.globalMiddleware.length + 1) { conn := c, middlewareIndex := 0, log := [] }
      (Nat.zero_le _) (by simp only; omega)
    exact ⟨w', hw', by simpa [hT] using hQ⟩
  · intro h0
    subst h0
    rw [hdx]
    simp only [serverNext, hk]
    exact runHandler_returns _ _ _ (hm c)

/-- Instance of C7 (amended): global middleware A that does not continue, then B that
would set the header `X-B`; only A is called and the response has no header `X-B`, in
`Middleware::execute` and in the server's loop. -/
theorem blocking_entry_halts_chain_witness :
    (∃ w', execute blockChain id (demoWorld "/x".toList) = .ok w' ∧
      w'.log = [.invoke 0] ∧ mapFind w'.conn.res.headers "X-B".toList = none) ∧
    (∃ w', dispatch blockServer (demoConn "/x".toList) = .ok w' ∧
      w'.log = [.invoke 0] ∧ mapFind w'.conn.res.headers "X-B".toList = none) := by
  have h := blocking_entry_halts_chain blockChain id (demoWorld "/x".toList) 0
    { path := [], function := mwBlock } blockServer (demoConn "/x".toList) 0 mwBlock
    rfl (fun _ => trivial) (fun j _ hj => absurd hj (Nat.not_lt_zero j))
    rfl (fun _ => trivial) (fun j _ hj => absurd hj (Nat.not_lt_zero j))
  obtain ⟨_, _, h3, _, h5⟩ := h
  exact ⟨⟨_, h3 rfl rfl, rfl, by decide⟩, ⟨_, h5 rfl, rfl, by decide⟩⟩

/-! ## The 404 answer -/

theorem send_fields (res : Response) (data : Str) :
    (res.send data).statusCode = res.statusCode ∧
      (res.send data).statusMessage = res.statusMessage ∧ (res.send data).body = data := by
  cases hs : res.headersSent <;> simp [Response.send, Response.set, hs]

theorem routeOrNotFound_isNotFound (srv : HttpServer) (w : World)
    (h : ∀ r ∈ srv.routes, r.matches w.conn.req.method w.conn.req.path = false) :
    (routeOrNotFound srv w).conn.res.IsNotFound ∧
      (routeOrNotFound srv w).middlewareIndex = w.middlewareIndex := by
  have heq : handleRequest srv.routes { w with log := w.log ++ [.final] }
      = (false, { w with log := w.log ++ [.final] }) :=
    handleRequestFrom_false srv.routes 0 _ h
  simp only [routeOrNotFound, heq, Bool.not_false, if_true]
  obtain ⟨s1, s2, s3⟩ := send_fields (w.conn.res.status 404) "Not Found".toList
  exact ⟨⟨s1.trans rfl, s2.trans rfl, s3⟩, trivial⟩

theorem runHandler_passesOn (srv : HttpServer) (method path : Str) (fuel : Nat)
    (ih : ∀ w : World, srv.globalMiddleware.length - w.middlewareIndex < fuel →
      w.conn.req.method = method → w.conn.req.path = path →
      ∃ w', serverNext srv fuel w = .ok w' ∧ w.middlewareIndex ≤ w'.middlewareIndex ∧
        w'.conn.res.IsNotFound)
    (m : Mw) (hm : m.PassesOn method path) (calls : Nat) (w : World)
    (hfuel : srv.globalMiddleware.length - w.middlewareIndex < fuel) :
    ∃ w', runHandler (fun _ w' => serverNext srv fuel w') calls m w = .ok w' ∧
      w.middlewareIndex ≤ w'.middlewareIndex ∧ w'.conn.res.IsNotFound := by
  induction m generalizing calls w with
  | ret c => exact absurd hm (by simp [Mw.PassesOn])
  | callNext c k ihm =>
    obtain ⟨h1, h2, h3⟩ := hm
    obtain ⟨w2, hw2, hidx, hnf⟩ := ih { w with conn := c } hfuel h1 h2
    simp only [runHandler, hw2]
    rcases h3 w2.conn with hp | hkeep
    · obtain ⟨w3, hw3, hidx3, hnf3⟩ := ihm w2.conn hp (calls + 1) w2
        (by simp only at hidx; omega)
      exact ⟨w3, hw3, by simp only at hidx; omega, hnf3⟩
    · cases hk : k w2.conn with
      | ret c' =>
        rw [hk] at hkeep
        obtain ⟨k1, k2, k3⟩ := hkeep
        refine ⟨{ w2 with conn := c' }, by simp [runHandler], by simpa using hidx, ?_⟩
        exact ⟨k1.trans hnf.1, k2.trans hnf.2.1, k3.trans hnf.2.2⟩
      | callNext c' k' => rw [hk] at hkeep; exact absurd hkeep (by simp [Mw.KeepsAnswer])

theorem serverNext_passesOn (srv : HttpServer) (method path : Str)
    (hroutes : ∀ r ∈ srv.routes, r.matches method path = false)
    (hmw : ∀ mw ∈ srv.globalMiddleware, ∀ c : Conn, c.req.method = method →
      c.req.path = path → (mw c).PassesOn method path)
    (fuel : Nat) (w : World)
    (hfuel : srv.globalMiddleware.length - w.middlewareIndex < fuel)
    (h1 : w.conn.req.method = method) (h2 : w.conn.req.path = path) :
    ∃ w', serverNext srv fuel w = .ok w' ∧ w.middlewareIndex ≤ w'.middlewareIndex ∧
      w'.conn.res.IsNotFound := by
  induction fuel generalizing w with
  | zero => omega
  | succ fuel ih =>
    by_cases hlt : w.middlewareIndex < srv.globalMiddleware.length
    · have hget : srv.globalMiddleware[w.middlewareIndex]?
          = some srv.globalMiddleware[w.middlewareIndex] := List.getElem?_eq_getElem hlt
      simp only [serverNext, hget]
      obtain ⟨w', hw', hidx, hnf⟩ := runHandler_passesOn srv method path fuel
        (fun w hf e1 e2 => ih w hf e1 e2)
        (srv.globalMiddleware[w.middlewareIndex] w.conn)
        (hmw _ (List.getElem_mem _) w.conn h1 h2) 0
        { w with middlewareIndex := w.middlewareIndex + 1,
                 log := w.log ++ [.invoke w.middlewareIndex] }
        (by simp only; omega)
      exact ⟨w', hw', by simp only at hidx; omega, hnf⟩
    · have hnone : srv.globalMiddleware[w.middlewareIndex]? = none :=
        List.getElem?_eq_none (by omega)
      simp only [serverNext, hnone]
      obtain ⟨hnf, hidx⟩ := routeOrNotFound_isNotFound srv w (by rw [h1, h2]; exact hroutes)
      exact ⟨_, rfl, by omega, hnf⟩

theorem staticLoop_none (serveFile : Str → Str → Str → Option (Str × Str × Int)) (c : Conn)
    (paths : List (Str × Str)) (h : ∀ sp ∈ paths, ¬ sp.1 <+: c.req.path) :
    staticLoop serveFile c paths = none := by
  induction paths with
  | nil => rfl
  | cons sp rest ih =>
    have h0 : ¬ (strFind c.req.path sp.1 = some 0) := fun hf =>
      h sp (List.mem_cons_self _ _) ((strFind_zero_iff _ _).mp hf)
    simp only [staticLoop, beq_iff_eq, h0, if_false]
    exact ih (fun sp' hsp => h sp' (List.mem_cons_of_mem _ hsp))

/-- C6, as stated, fails: `mwOkAfter` invokes its continuation, the request falls under no
static path and matches no route, and `processRequest` leaves the status code 200. -/
theorem not_found_overwritten :
    (processRequest okAfterServer (demoConn "/x".toList)).toOption.map
      (fun w => (w.log, w.conn.res.statusCode)) = some ([.invoke 0, .final], 200) := by
  decide

/-- C6, amended: for a request whose path falls under no static path and that matches no
registered route, when every global middleware, called with the method and path of the
request, calls `next()` with that method and path and, once its last call has come back,
leaves the status code, reason phrase and body alone, `processRequest` ends with status
code 404, reason phrase `Not Found` and body `Not Found`. -/
theorem unmatched_request_gets_404 (srv : HttpServer) (c : Conn)
    (hstatic : ∀ sp ∈ srv.staticPaths, ¬ sp.1 <+: c.req.path)
    (hroutes : ∀ r ∈ srv.routes, r.matches c.req.method c.req.path = false)
    (hmw : ∀ mw ∈ srv.globalMiddleware, ∀ c' : Conn, c'.req.method = c.req.method →
      c'.req.path = c.req.path → (mw c').PassesOn c.req.method c.req.path) :
    ∃ w', processRequest srv c = .ok w' ∧ w'.conn.res.statusCode = 404 ∧
      w'.conn.res.statusMessage = "Not Found".toList ∧
      w'.conn.res.body = "Not Found".toList := by
  have hs : staticLoop srv.serveFile { c with res := c.res.setDefaultHeaders }
      srv.staticPaths = none := staticLoop_none _ _ _ hstatic
  simp only [processRequest, hs, dispatch]
  by_cases he : srv.globalMiddleware.isEmpty = true
  · simp only [he, Bool.not_true, Bool.false_eq_true, if_false]
    obtain ⟨hnf, _⟩ := routeOrNotFound_isNotFound srv
      { conn := { c with res := c.res.setDefaultHeaders }, middlewareIndex := 0, log := [] }
      hroutes
    exact ⟨_, rfl, hnf⟩
  · simp only [he, Bool.not_false, if_true]
    obtain ⟨w', hw', _, hnf⟩ := serverNext_passesOn srv c.req.method c.req.path hroutes hmw
      (srv.globalMiddleware.length + 1)
      { conn := { c with res := c.res.setDefaultHeaders }, middlewareIndex := 0, log := [] }
      (by simp only; omega) rfl rfl
    exact ⟨w', hw', hnf⟩

/-- Instance of C6 (amended): the server with the global middleware `mwContinue` and
`mwHeader` and no route, on a request for `/public`. -/
theorem unmatched_request_gets_404_witness :
    ∃ w', processRequest twoStepServer (demoConn "/public".toList) = .ok w' ∧
      w'.conn.res.statusCode = 404 ∧
      w'.conn.res.statusMessage = "Not Found".toList ∧
      w'.conn.res.body = "Not Found".toList :=
  unmatched_request_gets_404 twoStepServer (demoConn "/public".toList)
    (fun sp hsp => absurd hsp (by simp [twoStepServer, emptyServer, HttpServer.use]))
    (fun r hr => absurd hr (by simp [twoStepServer, emptyServer, HttpServer.use]))
    (by
      intro mw hmw c' h1 h2
      simp only [twoStepServer, emptyServer, HttpServer.use, List.nil_append,
        List.cons_append, List.mem_cons, List.mem_singleton, List.not_mem_nil, or_false] at hmw
      rcases hmw with rfl | rfl
      · exact ⟨h1, h2, fun c'' => Or.inr ⟨rfl, rfl, rfl⟩⟩
      · exact ⟨h1, h2, fun c'' => Or.inr ⟨rfl, rfl, rfl⟩⟩)

/-! ## `HttpServer::use(path, middleware)` -/

/-- C9: `HttpServer::use(path, middleware)` registers the middleware exactly as
`HttpServer::use(middleware)` does, without the path; after `use("/admin", mwHeader)` a
request for `/public` calls the middleware, and the response carries its header. -/
theorem server_use_ignores_path :
    adminServer.globalMiddleware = (emptyServer.use mwHeader).globalMiddleware ∧
    (processRequest adminServer (demoConn "/public".toList)).toOption.map (·.log) =
      some [.invoke 0, .final] ∧
    (processRequest adminServer (demoConn "/public".toList)).toOption.map
        (fun w => mapFind w.conn.res.headers "X-B".toList) = some (some "1".toList) ∧
    (execute (Middleware.usePath [] "/admin".toList mwHeader) id
        (demoWorld "/public".toList)).toOption.map (·.log) = some [.skip 0, .final] := by
  refine ⟨rfl, ?_, ?_, ?_⟩ <;> decide

/-! ## The nesting bound of the model is large enough -/

theorem runHandler_fuel (next : Nat → World → Except Fault World)
    (hnext : ∀ calls w, next calls w ≠ .error .outOfFuel) (m : Mw) (calls : Nat) (w : World) :
    runHandler next calls m w ≠ .error .outOfFuel := by
  induction m generalizing calls w with
  | ret c => simp [runHandler]
  | callNext c k ih =>
    simp only [runHandler]
    cases hn : next calls { w with conn := c } with
    | error e =>
      intro h
      simp only [Except.error.injEq] at h
      exact hnext _ _ (hn.trans (by rw [h]))
    | ok w2 => exact ih _ _ _

theorem executeNext_fuel (chain : List MiddlewareEntry) (finalNext : Conn → Conn)
    (fuel cur : Nat) (w : World) (hfuel : chain.length - cur < fuel) :
    executeNext chain finalNext fuel cur w ≠ .error .outOfFuel := by
  induction fuel generalizing cur w with
  | zero => omega
  | succ fuel ih =>
    simp only [executeNext]
    split
    · simp
    · rename_i hne
      split
      · simp
      · rename_i e hget
        have hlt : cur < chain.length := by
          by_contra hge
          rw [List.getElem?_eq_none (by omega)] at hget
          exact absurd hget (by simp)
        have hwk : ∀ calls w1,
            executeNext chain finalNext fuel (cur + calls + 1) w1 ≠ .error .outOfFuel :=
          fun calls w1 => ih _ _ (by omega)
        split
        · exact runHandler_fuel _ hwk _ _ _
        · exact hwk 0 _

/-- The run of `Middleware::execute` never stops for lack of fuel: its result is a final
state or the undefined behaviour of an iterator moved past `end()`. -/
theorem execute_fuel (chain : List MiddlewareEntry) (finalNext : Conn → Conn) (w : World) :
    execute chain finalNext w ≠ .error .outOfFuel := by
  unfold execute
  split
  · simp
  · exact executeNext_fuel _ _ _ _ _ (by omega)

theorem handleRequestFrom_index (routes : List Route) (k : Nat) (w : World) :
    (handleRequestFrom routes k w).2.middlewareIndex = w.middlewareIndex := by
  induction routes generalizing k with
  | nil => rfl
  | cons r rest ih =>
    simp only [handleRequestFrom]
    split
    · rfl
    · exact ih _

theorem routeOrNotFound_index (srv : HttpServer) (w : World) :
    (routeOrNotFound srv w).middlewareIndex = w.middlewareIndex := by
  have h := handleRequestFrom_index srv.routes 0 { w with log := w.log ++ [.final] }
  simp only [routeOrNotFound, handleRequest]
  split
  · exact h
  · exact h

theorem runHandler_server_total (srv : HttpServer) (fuel : Nat)
    (ih : ∀ w : World, srv.globalMiddleware.length - w.middlewareIndex < fuel →
      ∃ w', serverNext srv fuel w = .ok w' ∧ w.middlewareIndex ≤ w'.middlewareIndex)
    (m : Mw) (calls : Nat) (w : World)
    (hfuel : srv.globalMiddleware.length - w.middlewareIndex < fuel) :
    ∃ w', runHandler (fun _ w' => serverNext srv fuel w') calls m w = .ok w' ∧
      w.middlewareIndex ≤ w'.middlewareIndex := by
  induction m generalizing calls w with
  | ret c => exact ⟨{ w with conn := c }, rfl, le_refl _⟩
  | callNext c k ihm =>
    obtain ⟨w2, hw2, hidx⟩ := ih { w with conn := c } hfuel
    simp only [runHandler, hw2]
    obtain ⟨w3, hw3, hidx3⟩ := ihm w2.conn (calls + 1) w2 (by simp only at hidx; omega)
    exact ⟨w3, hw3, by simp only at hidx; omega⟩

theorem serverNext_total (srv : HttpServer) (fuel : Nat) (w : World)
    (hfuel : srv.globalMiddleware.length - w.middlewareIndex < fuel) :
    ∃ w', serverNext srv fuel w = .ok w' ∧ w.middlewareIndex ≤ w'.middlewareIndex := by
  induction fuel generalizing w with
  | zero => omega
  | succ fuel ih =>
    by_cases hlt : w.middlewareIndex < srv.globalMiddleware.length
    · have hget : srv.globalMiddleware[w.middlewareIndex]?
          = some srv.globalMiddleware[w.middlewareIndex] := List.getElem?_eq_getElem hlt
      simp only [serverNext, hget]
      obtain ⟨w', hw', hidx⟩ := runHandler_server_total srv fuel (fun w hf => ih w hf)
        (srv.globalMiddleware[w.middlewareIndex] w.conn) 0
        { w with middlewareIndex := w.middlewareIndex + 1,
                 log := w.log ++ [.invoke w.middlewareIndex] }
        (by simp only; omega)
      exact ⟨w', hw', by simp only at hidx; omega⟩
    · have hnone : srv.globalMiddleware[w.middlewareIndex]? = none :=
        List.getElem?_eq_none (by omega)
      simp only [serverNext, hnone]
      exact ⟨_, rfl, le_of_eq (routeOrNotFound_index srv w).symm⟩

/-- The run of `HttpServer::processRequest` returns on every request, whatever the
middleware and the handlers do: the nesting bound of the model is never reached. -/
theorem processRequest_total (srv : HttpServer) (c : Conn) :
    ∃ w', processRequest srv c = .ok w' := by
  simp only [processRequest]
  split
  · exact ⟨_, rfl⟩
  · simp only [dispatch]
    split
    · obtain ⟨w', hw', _⟩ := serverNext_total srv (srv.globalMiddleware.length + 1)
        { conn := { c with res := c.res.setDefaultHeaders }, middlewareIndex := 0, log := [] }
        (by simp only; omega)
      exact ⟨w', hw'⟩
    · exact ⟨_, rfl⟩

/-! ## The continuation handed to a chain entry -/

/-- C11: the second call of the continuation handed to entry 0 of the chain `mwTwice`,
`mwContinue` does not resume at entry 1: it calls the final continuation directly, so
entry 1 is called once and the final continuation twice; in the chain `mwContinue`,
`mwTwice` the second call of the continuation of the last entry moves the iterator past
`end()`. In the server's loop the second call resumes where the shared index stands, here
at the routing step. -/
theorem continuation_second_call_moves_on :
    (execute twiceFirstChain id (demoWorld "/x".toList)).toOption.map (·.log) =
      some [.invoke 0, .invoke 1, .final, .final] ∧
    (match execute twiceLastChain id (demoWorld "/x".toList) with
      | .error e => some e
      | .ok _ => none) = some Fault.pastEnd ∧
    (dispatch twiceFirstServer (demoConn "/x".toList)).toOption.map (·.log) =
      some [.invoke 0, .invoke 1, .final, .final] := by
  refine ⟨?_, ?_, ?_⟩ <;> decide

/-! ## `JsonHandler`: single values -/

theorem skipWhitespace_head (s : Str) (c : Char) (t : Str) (h : skipWhitespace s = c :: t) :
    isJsonSpace c = false := by
  induction s with
  | nil => simp [skipWhitespace] at h
  | cons d ds ih =>
    simp only [skipWhitespace] at h
    split at h
    · exact ih h
    · rename_i hd
      simp only [List.cons.injEq] at h
      rw [← h.1]
      simpa using hd

theorem skipWhitespace_of_not_space (c : Char) (t : Str) (h : isJsonSpace c = false) :
    skipWhitespace (c :: t) = c :: t := by
  simp [skipWhitespace, h]

theorem skipWhitespace_idem (s : Str) : skipWhitespace (skipWhitespace s) = skipWhitespace s := by
  cases h : skipWhitespace s with
  | nil => rfl
  | cons c t => exact skipWhitespace_of_not_space c t (skipWhitespace_head s c t h)

/-- C19: when the first character of the text that is no white space is none of `{`, `[`,
`"`, `t`, `f`, `n`, `-` and no decimal digit, `parseValue` throws the unexpected-character
error and `isValid` answers false. -/
theorem parseValue_unexpected_character {N : Type} (stod : Str → Option N) (s : Str)
    (c : Char) (t : Str) (hs : skipWhitespace s = c :: t)
    (h1 : c ≠ '{') (h2 : c ≠ '[') (h3 : c ≠ '"') (h4 : c ≠ 't') (h5 : c ≠ 'f')
    (h6 : c ≠ 'n') (h7 : c ≠ '-') (h8 : c.isDigit = false) :
    (∀ fuel, parseValue stod (fuel + 1) s = .error .unexpectedChar) ∧
    isValid stod s = false := by
  have hv : ∀ fuel s', skipWhitespace s' = c :: t →
      parseValue stod (fuel + 1) s' = .error .unexpectedChar := by
    intro fuel s' hs'
    simp [parseValue, hs', h1, h2, h3, h4, h5, h6, h7, h8]
  refine ⟨fun fuel => hv fuel s hs, ?_⟩
  have hi : skipWhitespace (skipWhitespace s) = c :: t := by rw [skipWhitespace_idem, hs]
  simp [isValid, hv _ _ hi]

/-- Instance of C19: the text ` @1`. -/
theorem parseValue_unexpected_character_witness :
    parseValue stodDec 5 " @1".toList = .error .unexpectedChar ∧
    isValid stodDec " @1".toList = false :=
  ⟨(parseValue_unexpected_character stodDec " @1".toList '@' "1".toList rfl
      (by decide) (by decide) (by decide) (by decide) (by decide) (by decide) (by decide)
      (by decide)).1 4,
   (parseValue_unexpected_character stodDec " @1".toList '@' "1".toList rfl
      (by decide) (by decide) (by decide) (by decide) (by decide) (by decide) (by decide)
      (by decide)).2⟩

theorem parseStringLoop_cons (c : Char) (cs : Str) :
    parseStringLoop (c :: cs) =
      if c == '"' then .ok ([], cs)
      else if c == '\\' then
        match cs with
        | [] => .error .expectedQuote
        | d :: ds =>
          match parseStringLoop ds with
          | .ok (s, rest) => .ok (parseEscape d ++ s, rest)
          | .error e => .error e
      else
        match parseStringLoop cs with
        | .ok (s, rest) => .ok (c :: s, rest)
        | .error e => .error e := by
  cases cs <;> rfl

/-- C18: `parseString` has no case for `\u`: it copies the backslash and the `u`, and then
the four digits as ordinary characters, so the literal `"\u0041"` parses to the six
characters `\u0041`, while `unescapeString` turns the same six characters into `A`. -/
theorem parseString_keeps_unicode_escape :
    (∀ cs : Str, parseStringLoop ('\\' :: 'u' :: cs) =
      match parseStringLoop cs with
      | .ok (s, rest) => .ok ('\\' :: 'u' :: s, rest)
      | .error e => .error e) ∧
    parseString "\"\\u0041\"".toList = .ok ("\\u0041".toList, []) ∧
    unescapeString "\\u0041".toList = "A".toList := by
  refine ⟨fun cs => ?_, rfl, by decide⟩
  rw [parseStringLoop_cons]
  simp only [show ('\\' == '"') = false from by decide, show ('\\' == '\\') = true from by decide,
    Bool.false_eq_true, if_false, if_true]
  cases parseStringLoop cs with
  | error e => rfl
  | ok p => rfl

/-- C16: `isValid` accepts the array `[1 2]` and the object `{"a":1 "b":2}`, whose
elements are separated by white space only; the comma after an element is passed over when
it is there and not asked for when it is not. -/
theorem isValid_accepts_missing_comma :
    isValid stodDec "[1 2]".toList = true ∧
    isValid stodDec "\x7b\"a\":1 \"b\":2\x7d".toList = true ∧
    (∀ s : Str, skipComma (',' :: s) = s) ∧
    (∀ (c : Char) (s : Str), c ≠ ',' → skipComma (c :: s) = c :: s) := by
  refine ⟨by decide, by decide, fun s => rfl, fun c s h => ?_⟩
  simp [skipComma, h]

/-! ## `JsonHandler`: an object with one member -/

theorem parseStringLoop_plain (k rest : Str) (hq : '"' ∉ k) (hb : '\\' ∉ k) :
    parseStringLoop (k ++ '"' :: rest) = .ok (k, rest) := by
  induction k with
  | nil => simp [parseStringLoop_cons]
  | cons c cs ih =>
    have hc1 : c ≠ '"' := fun h => hq (by simp [h])
    have hc2 : c ≠ '\\' := fun h => hb (by simp [h])
    have ih' := ih (fun h => hq (List.mem_cons_of_mem _ h)) (fun h => hb (List.mem_cons_of_mem _ h))
    rw [List.cons_append, parseStringLoop_cons]
    simp [hc1, hc2, ih']

theorem parseString_plain (k rest : Str) (hq : '"' ∉ k) (hb : '\\' ∉ k) :
    parseString ('"' :: (k ++ '"' :: rest)) = .ok (k, rest) := by
  simp [parseString, parseStringLoop_plain k rest hq hb]

theorem parseValue_one_brace {N : Type} (stod : Str → Option N) (x : N)
    (h : stod ['1'] = some x) (f : Nat) (rest : Str) :
    parseValue stod (f + 1) ('1' :: '}' :: rest) = .ok (.num x, '}' :: rest) := by
  have e : scanNumber ('1' :: '}' :: rest) = (['1'], '}' :: rest) := by
    simp [scanNumber, scanSign, scanFraction, scanExponent, takeDigits, Char.isDigit]
  have p : parseNumber stod ('1' :: '}' :: rest) = .ok (x, '}' :: rest) := by
    simp only [parseNumber, e, h]
  rw [parseValue]
  simp [skipWhitespace, isJsonSpace, p]

theorem parseValue_brace_error {N : Type} (stod : Str → Option N) (f : Nat) (rest : Str) :
    parseValue stod (f + 1) ('}' :: rest) = .error .unexpectedChar := by
  rw [parseValue]
  simp [skipWhitespace, isJsonSpace]

theorem parseValue_one_member {N : Type} (stod : Str → Option N) (x : N)
    (h : stod ['1'] = some x) (k : Str) (hq : '"' ∉ k) (hb : '\\' ∉ k) (n : Nat) :
    parseValue stod (n + 3) ('{' :: '"' :: (k ++ ['"', ':', '1', '}']))
      = .ok (.obj [(k, .num x)], []) := by
  have hs : parseString ('"' :: (k ++ ['"', ':', '1', '}'])) = .ok (k, [':', '1', '}']) :=
    parseString_plain k _ hq hb
  have hv := parseValue_one_brace stod x h (n + 1) []
  rw [parseValue]
  simp only [skipWhitespace, isJsonSpace, parseObjectWith, parseObjectLoop]
  simp [hs, skipWhitespace, isJsonSpace, hv, skipComma, parseObjectLoop, anySet]

theorem parseValue_member_without_value {N : Type} (stod : Str → Option N)
    (k : Str) (hq : '"' ∉ k) (hb : '\\' ∉ k) (n : Nat) :
    parseValue stod (n + 3) ('{' :: '"' :: (k ++ ['"', ':', '}']))
      = .error .unexpectedChar := by
  have hs : parseString ('"' :: (k ++ ['"', ':', '}'])) = .ok (k, [':', '}']) :=
    parseString_plain k _ hq hb
  have hv := parseValue_brace_error stod (n + 1) []
  rw [parseValue]
  simp only [skipWhitespace, isJsonSpace, parseObjectWith, parseObjectLoop]
  simp [hs, skipWhitespace, isJsonSpace, hv]

/-- C15: for every key `k` without `"` and `\`, and every conversion that converts the text
`1`, `isValid` answers true on `{"k":1}` and false on `{"k":}`. -/
theorem isValid_member_needs_value {N : Type} (stod : Str → Option N) (x : N)
    (h : stod ['1'] = some x) (k : Str) (hq : '"' ∉ k) (hb : '\\' ∉ k) :
    isValid stod ('{' :: '"' :: (k ++ ['"', ':', '1', '}'])) = true ∧
    isValid stod ('{' :: '"' :: (k ++ ['"', ':', '}'])) = false := by
  constructor
  · have hv := parseValue_one_member stod x h k hq hb (k.length + 4)
    have hl : ('{' :: '"' :: (k ++ ['"', ':', '1', '}'])).length + 1 = k.length + 4 + 3 := by
      simp
    simp only [isValid, hl]
    rw [skipWhitespace_of_not_space _ _ (by decide), hv]
    rfl
  · have hv := parseValue_member_without_value stod k hq hb (k.length + 3)
    have hl : ('{' :: '"' :: (k ++ ['"', ':', '}'])).length + 1 = k.length + 3 + 3 := by
      simp
    simp only [isValid, hl]
    rw [skipWhitespace_of_not_space _ _ (by decide), hv]

/-- Instance of C15: `isValid` is true on `{"a":1}` and false on `{"a":}`. -/
theorem isValid_member_needs_value_witness :
    isValid stodDec "\x7b\"a\":1\x7d".toList = true ∧
      isValid stodDec "\x7b\"a\":\x7d".toList = false :=
  isValid_member_needs_value stodDec ⟨1, 0⟩ rfl "a".toList (by decide) (by decide)

/-! ## `escapeString` and `unescapeString` -/

theorem unescapeString_cons (c : Char) (rest : Str) :
    unescapeString (c :: rest) =
      if c == '\\' then
        match rest with
        | [] => [c]
        | d :: rest1 =>
          if d == '"' then '"' :: unescapeString rest1
          else if d == '\\' then '\\' :: unescapeString rest1
          else if d == 'b' then Char.ofNat 8 :: unescapeString rest1
          else if d == 'f' then Char.ofNat 12 :: unescapeString rest1
          else if d == 'n' then '\n' :: unescapeString rest1
          else if d == 'r' then '\r' :: unescapeString rest1
          else if d == 't' then '\t' :: unescapeString rest1
          else if d == 'u' then
            match rest1 with
            | h1 :: h2 :: h3 :: h4 :: rest2 =>
              match stoi16 [h1, h2, h3, h4] with
              | some v => castChar v :: unescapeString rest2
              | none => '\\' :: d :: unescapeString rest1
            | _ => '\\' :: d :: unescapeString rest1
          else '\\' :: d :: unescapeString rest1
      else c :: unescapeString rest := by
  rcases rest with _ | ⟨d, _ | ⟨h1, _ | ⟨h2, _ | ⟨h3, _ | ⟨h4, r⟩⟩⟩⟩⟩ <;> rfl

theorem unescapeString_plain (c : Char) (rest : Str) (h : c ≠ '\\') :
    unescapeString (c :: rest) = c :: unescapeString rest := by
  rw [unescapeString_cons]
  simp [h]

theorem unescapeString_escape (d : Char) (rest : Str) :
    unescapeString ('\\' :: d :: rest) =
      if d == '"' then '"' :: unescapeString rest
      else if d == '\\' then '\\' :: unescapeString rest
      else if d == 'b' then Char.ofNat 8 :: unescapeString rest
      else if d == 'f' then Char.ofNat 12 :: unescapeString rest
      else if d == 'n' then '\n' :: unescapeString rest
      else if d == 'r' then '\r' :: unescapeString rest
      else if d == 't' then '\t' :: unescapeString rest
      else if d == 'u' then
        match rest with
        | h1 :: h2 :: h3 :: h4 :: rest2 =>
          match stoi16 [h1, h2, h3, h4] with
          | some v => castChar v :: unescapeString rest2
          | none => '\\' :: d :: unescapeString rest
        | _ => '\\' :: d :: unescapeString rest
      else '\\' :: d :: unescapeString rest := by
  rw [unescapeString_cons]
  simp only [beq_self_eq_true, if_true]
  rfl

theorem stoi16_hex4 : ∀ n, n < 32 → stoi16 (hex4 n) = some (n : Int) := by decide

theorem castChar_small (c : Char) (h : c.toNat < 32) : castChar (c.toNat : Int) = c := by
  unfold castChar
  have : ((c.toNat : Int) % 256).toNat = c.toNat := by omega
  rw [this, Char.ofNat_toNat]

theorem unescapeString_escapeChar (c : Char) (rest : Str) :
    unescapeString (escapeChar c ++ rest) = c :: unescapeString rest := by
  unfold escapeChar
  split
  · rename_i h; simp only [beq_iff_eq] at h; subst h
    rw [List.cons_append, List.cons_append, List.nil_append, unescapeString_escape]; rfl
  split
  · rename_i h; simp only [beq_iff_eq] at h; subst h
    rw [List.cons_append, List.cons_append, List.nil_append, unescapeString_escape]; rfl
  split
  · rename_i h; simp only [beq_iff_eq] at h; subst h
    rw [List.cons_append, List.cons_append, List.nil_append, unescapeString_escape]; rfl
  split
  · rename_i h; simp only [beq_iff_eq] at h; subst h
    rw [List.cons_append, List.cons_append, List.nil_append, unescapeString_escape]; rfl
  split
  · rename_i h; simp only [beq_iff_eq] at h; subst h
    rw [List.cons_append, List.cons_append, List.nil_append, unescapeString_escape]; rfl
  split
  · rename_i h; simp only [beq_iff_eq] at h; subst h
    rw [List.cons_append, List.cons_append, List.nil_append, unescapeString_escape]; rfl
  split
  · rename_i h; simp only [beq_iff_eq] at h; subst h
    rw [List.cons_append, List.cons_append, List.nil_append, unescapeString_escape]; rfl
  split
  · rename_i h
    have hs := stoi16_hex4 c.toNat h
    rw [List.cons_append, List.cons_append, unescapeString_escape]
    simp only [show ('u' == '"') = false from by decide, show ('u' == '\\') = false from by decide,
      show ('u' == 'b') = false from by decide, show ('u' == 'f') = false from by decide,
      show ('u' == 'n') = false from by decide, show ('u' == 'r') = false from by decide,
      show ('u' == 't') = false from by decide, beq_self_eq_true, Bool.false_eq_true,
      if_false, if_true]
    simp only [hex4, List.cons_append, List.nil_append] at hs ⊢
    simp only [hs, castChar_small c h]
  · rename_i h1 h2 _ _ _ _ _ _
    rw [List.cons_append, List.nil_append]
    exact unescapeString_plain c rest (by simpa using h2)

/-- C13: for every text `S`, `unescapeString (escapeString S) = S`. -/
theorem unescapeString_escapeString (S : Str) : unescapeString (escapeString S) = S := by
  induction S with
  | nil => rfl
  | cons c cs ih => rw [escapeString, unescapeString_escapeChar, ih]

/-! ## `JsonHandler`: every successful step moves the cursor forward -/

theorem skipWhitespace_length (s : Str) : (skipWhitespace s).length ≤ s.length := by
  induction s with
  | nil => simp [skipWhitespace]
  | cons c cs ih =>
    simp only [skipWhitespace]
    split
    · simp only [List.length_cons]; omega
    · exact le_refl _

theorem skipComma_length (s : Str) : (skipComma s).length ≤ s.length := by
  cases s with
  | nil => simp [skipComma]
  | cons c cs =>
    simp only [skipComma]
    split <;> simp

theorem parseStringLoop_length_aux (n : Nat) (s k r : Str) (hn : s.length ≤ n)
    (h : parseStringLoop s = .ok (k, r)) : r.length < s.length := by
  induction n generalizing s k r with
  | zero =>
    have : s = [] := List.length_eq_zero.mp (by omega)
    subst this
    simp [parseStringLoop] at h
  | succ n ih =>
    cases s with
    | nil => simp [parseStringLoop] at h
    | cons c cs =>
      simp only [List.length_cons] at hn
      rw [parseStringLoop_cons] at h
      split at h
      · simp only [Except.ok.injEq, Prod.mk.injEq] at h
        rw [← h.2]; simp
      · split at h
        · cases cs with
          | nil => simp at h
          | cons d ds =>
            simp only at h
            simp only [List.length_cons] at hn
            cases hr : parseStringLoop ds with
            | error e => rw [hr] at h; simp at h
            | ok p =>
              obtain ⟨k', r'⟩ := p
              rw [hr] at h
              simp only [Except.ok.injEq, Prod.mk.injEq] at h
              have := ih ds k' r' (by omega) hr
              rw [← h.2]; simp only [List.length_cons]; omega
        · cases hr : parseStringLoop cs with
          | error e => rw [hr] at h; simp at h
          | ok p =>
            obtain ⟨k', r'⟩ := p
            rw [hr] at h
            simp only [Except.ok.injEq, Prod.mk.injEq] at h
            have := ih cs k' r' (by omega) hr
            rw [← h.2]; simp only [List.length_cons]; omega

theorem parseStringLoop_length (s k r : Str) (h : parseStringLoop s = .ok (k, r)) :
    r.length < s.length :=
  parseStringLoop_length_aux s.length s k r (le_refl _) h

theorem parseString_length (s k r : Str) (h : parseString s = .ok (k, r)) :
    r.length < s.length := by
  cases s with
  | nil => simp [parseString] at h
  | cons c cs =>
    simp only [parseString] at h
    split at h
    · have := parseStringLoop_length cs k r h
      simp only [List.length_cons]; omega
    · simp at h

theorem takeDigits_length (s : Str) : (takeDigits s).2.length ≤ s.length := by
  induction s with
  | nil => simp [takeDigits]
  | cons c cs ih =>
    simp only [takeDigits]
    split
    · simp only [List.length_cons]; omega
    · exact le_refl _

theorem scanSign_length (s : Str) : (scanSign s).2.length ≤ s.length := by
  cases s with
  | nil => simp [scanSign]
  | cons c t => simp only [scanSign]; split <;> simp

theorem scanFraction_length (s : Str) : (scanFraction s).2.length ≤ s.length := by
  cases s with
  | nil => simp [scanFraction]
  | cons c t =>
    simp only [scanFraction]
    split
    · have := takeDigits_length t
      simp only [List.length_cons]; omega
    · exact le_refl _

theorem scanExponentSign_length (s : Str) : (scanExponentSign s).2.length ≤ s.length := by
  cases s with
  | nil => simp [scanExponentSign]
  | cons c t => simp only [scanExponentSign]; split <;> simp

theorem scanExponent_length (s : Str) : (scanExponent s).2.length ≤ s.length := by
  cases s with
  | nil => simp [scanExponent]
  | cons c t =>
    simp only [scanExponent]
    split
    · have h1 := takeDigits_length (scanExponentSign t).2
      have h2 := scanExponentSign_length t
      simp only [List.length_cons]; omega
    · exact le_refl _

theorem scanNumber_length (c : Char) (t : Str) (hc : c = '-' ∨ c.isDigit = true) :
    (scanNumber (c :: t)).2.length < (c :: t).length := by
  have h3 := fun s => scanFraction_length s
  have h4 := fun s => scanExponent_length s
  have h2 := fun s => takeDigits_length s
  have key : (takeDigits (scanSign (c :: t)).2).2.length < (c :: t).length := by
    by_cases hm : c = '-'
    · subst hm
      have := h2 t
      simp only [scanSign, beq_self_eq_true, if_true, List.length_cons]; omega
    · have hd : c.isDigit = true := hc.resolve_left hm
      have := h2 t
      simp only [scanSign, beq_iff_eq, hm, if_false, takeDigits, hd, if_true, List.length_cons]
      omega
  have a := h3 (takeDigits (scanSign (c :: t)).2).2
  have b := h4 (scanFraction (takeDigits (scanSign (c :: t)).2).2).2
  simp only [scanNumber]
  omega

theorem parseNumber_length {N : Type} (stod : Str → Option N) (c : Char) (t : Str)
    (hc : c = '-' ∨ c.isDigit = true) (x : N) (r : Str)
    (h : parseNumber stod (c :: t) = .ok (x, r)) : r.length < (c :: t).length := by
  simp only [parseNumber] at h
  split at h
  · simp only [Except.ok.injEq, Prod.mk.injEq] at h
    rw [← h.2]
    exact scanNumber_length c t hc
  · simp at h

theorem isPrefixOf_drop_length (p s : Str) (hp : p ≠ []) (h : p.isPrefixOf s = true) :
    (s.drop p.length).length < s.length := by
  have hpre := List.isPrefixOf_iff_prefix.mp h
  obtain ⟨t, rfl⟩ := hpre
  have : 0 < p.length := List.length_pos.mpr hp
  simp
  omega
theorem parseObjectLoop_succ {N : Type} (pv : Str → Except JsonError (Json N × Str))
    (n : Nat) (s : Str) (result : List (Str × Json N)) :
    parseObjectLoop pv (n + 1) s result =
      match s with
      | [] => .error .expectedCloseBrace
      | c :: t =>
        if c == '}' then .ok (result, t)
        else
          match skipWhitespace (c :: t) with
          | [] => .error .expectedKeyQuote
          | q :: t1 =>
            if q != '"' then .error .expectedKeyQuote
            else
              match parseString (q :: t1) with
              | .error e => .error e
              | .ok (key, s2) =>
                match skipWhitespace s2 with
                | [] => .error .expectedColon
                | d :: t3 =>
                  if d != ':' then .error .expectedColon
                  else
                    match pv (skipWhitespace t3) with
                    | .error e => .error e
                    | .ok (v, s5) =>
                      parseObjectLoop pv n (skipComma (skipWhitespace s5))
                        (anySet result key v) := by
  cases s <;> rfl

theorem parseArrayLoop_succ {N : Type} (pv : Str → Except JsonError (Json N × Str))
    (n : Nat) (s : Str) (result : List (Json N)) :
    parseArrayLoop pv (n + 1) s result =
      match s with
      | [] => .error .expectedCloseBracket
      | c :: t =>
        if c == ']' then .ok (result, t)
        else
          match pv (c :: t) with
          | .error e => .error e
          | .ok (v, s1) =>
            parseArrayLoop pv n (skipComma (skipWhitespace s1)) (result ++ [v]) := by
  cases s <;> rfl

theorem parseLoop_succ {N : Type} (pv : Str → Except JsonError (Json N × Str))
    (n : Nat) (s : Str) (result : List (Str × Json N)) :
    parseLoop pv (n + 1) s result =
      match s with
      | [] => .ok result
      | c :: t =>
        if c == '}' then .ok result
        else
          match skipWhitespace (c :: t) with
          | [] => .ok result
          | q :: t1 =>
            if q != '"' then .ok result
            else
              match parseString (q :: t1) with
              | .error e => .error e
              | .ok (key, s2) =>
                match skipWhitespace s2 with
                | [] => .ok result
                | d :: t3 =>
                  if d != ':' then .ok result
                  else
                    match pv (skipWhitespace t3) with
                    | .error e => .error e
                    | .ok (v, s5) =>
                      parseLoop pv n (skipComma (skipWhitespace s5))
                        (anySet result key v) := by
  cases s <;> rfl

theorem parseObjectLoop_length {N : Type} (pv : Str → Except JsonError (Json N × Str))
    (hpv : ∀ s v r, pv s = .ok (v, r) → r.length < s.length)
    (n : Nat) (s : Str) (acc m : List (Str × Json N)) (r : Str)
    (h : parseObjectLoop pv n s acc = .ok (m, r)) : r.length < s.length := by
  induction n generalizing s acc with
  | zero => simp [parseObjectLoop] at h
  | succ n ih =>
    rw [parseObjectLoop_succ] at h
    cases s with
    | nil => simp at h
    | cons c t =>
      simp only at h
      split at h
      · simp only [Except.ok.injEq, Prod.mk.injEq] at h
        rw [← h.2]; simp
      · have hw := skipWhitespace_length (c :: t)
        cases hs1 : skipWhitespace (c :: t) with
        | nil => rw [hs1] at h; simp at h
        | cons q t1 =>
          rw [hs1] at h hw
          simp only at h
          split at h
          · simp at h
          · cases hps : parseString (q :: t1) with
            | error e => rw [hps] at h; simp at h
            | ok p =>
              obtain ⟨key, s2⟩ := p
              rw [hps] at h
              simp only at h
              have l2 := parseString_length _ _ _ hps
              have hw2 := skipWhitespace_length s2
              cases hs3 : skipWhitespace s2 with
              | nil => rw [hs3] at h; simp at h
              | cons d t3 =>
                rw [hs3] at h hw2
                simp only at h
                split at h
                · simp at h
                · have hw3 := skipWhitespace_length t3
                  cases hv : pv (skipWhitespace t3) with
                  | error e => rw [hv] at h; simp at h
                  | ok p =>
                    obtain ⟨v, s5⟩ := p
                    rw [hv] at h
                    simp only at h
                    have l5 := hpv _ _ _ hv
                    have l6 := ih _ _ h
                    have l7 := skipComma_length (skipWhitespace s5)
                    have l8 := skipWhitespace_length s5
                    simp only [List.length_cons] at *
                    omega

theorem parseArrayLoop_length {N : Type} (pv : Str → Except JsonError (Json N × Str))
    (hpv : ∀ s v r, pv s = .ok (v, r) → r.length < s.length)
    (n : Nat) (s : Str) (acc m : List (Json N)) (r : Str)
    (h : parseArrayLoop pv n s acc = .ok (m, r)) : r.length < s.length := by
  induction n generalizing s acc with
  | zero => simp [parseArrayLoop] at h
  | succ n ih =>
    rw [parseArrayLoop_succ] at h
    cases s with
    | nil => simp at h
    | cons c t =>
      simp only at h
      split at h
      · simp only [Except.ok.injEq, Prod.mk.injEq] at h
        rw [← h.2]; simp
      · cases hv : pv (c :: t) with
        | error e => rw [hv] at h; simp at h
        | ok p =>
          obtain ⟨v, s1⟩ := p
          rw [hv] at h
          simp only at h
          have l1 := hpv _ _ _ hv
          have l2 := ih _ _ h
          have l3 := skipComma_length (skipWhitespace s1)
          have l4 := skipWhitespace_length s1
          simp only [List.length_cons] at *
          omega

theorem parseValue_length {N : Type} (stod : Str → Option N) (fuel : Nat) (s : Str)
    (v : Json N) (r : Str) (h : parseValue stod fuel s = .ok (v, r)) :
    r.length < s.length := by
  induction fuel generalizing s v r with
  | zero => simp [parseValue] at h
  | succ fuel ih =>
    rw [parseValue] at h
    have hw := skipWhitespace_length s
    cases hs : skipWhitespace s with
    | nil => rw [hs] at h; simp at h
    | cons c t =>
      rw [hs] at h hw
      simp only at h
      split at h
      · rename_i hc
        simp only [parseObjectWith, hc, if_true] at h
        cases ho : parseObjectLoop (fun s' => parseValue stod fuel s') fuel (skipWhitespace t) []
          with
        | error e => rw [ho] at h; simp at h
        | ok p =>
          obtain ⟨m, r'⟩ := p
          rw [ho] at h
          simp only [Except.ok.injEq, Prod.mk.injEq] at h
          have l1 := parseObjectLoop_length _ (fun s v r hh => ih s v r hh) _ _ _ _ _ ho
          have l2 := skipWhitespace_length t
          rw [← h.2]
          simp only [List.length_cons] at *
          omega
      · split at h
        · rename_i hc
          simp only [parseArrayWith, hc, if_true] at h
          cases ho : parseArrayLoop (fun s' => parseValue stod fuel s') fuel (skipWhitespace t) []
            with
          | error e => rw [ho] at h; simp at h
          | ok p =>
            obtain ⟨m, r'⟩ := p
            rw [ho] at h
            simp only [Except.ok.injEq, Prod.mk.injEq] at h
            have l1 := parseArrayLoop_length _ (fun s v r hh => ih s v r hh) _ _ _ _ _ ho
            have l2 := skipWhitespace_length t
            rw [← h.2]
            simp only [List.length_cons] at *
            omega
        · split at h
          · cases hp : parseString (c :: t) with
            | error e => rw [hp] at h; simp at h
            | ok p =>
              obtain ⟨k, r'⟩ := p
              rw [hp] at h
              simp only [Except.ok.injEq, Prod.mk.injEq] at h
              have l1 := parseString_length _ _ _ hp
              rw [← h.2]
              omega
          · split at h
            · cases hp : parseBoolean (c :: t) with
              | error e => rw [hp] at h; simp at h
              | ok p =>
                obtain ⟨b, r'⟩ := p
                rw [hp] at h
                simp only [Except.ok.injEq, Prod.mk.injEq] at h
                rw [← h.2]
                simp only [parseBoolean] at hp
                split at hp
                · rename_i hpre
                  simp only [Except.ok.injEq, Prod.mk.injEq] at hp
                  have := isPrefixOf_drop_length "true".toList (c :: t) (by decide) hpre
                  rw [← hp.2]
                  change (List.drop 4 (c :: t)).length < _ at this
                  omega
                · split at hp
                  · rename_i hpre
                    simp only [Except.ok.injEq, Prod.mk.injEq] at hp
                    have := isPrefixOf_drop_length "false".toList (c :: t) (by decide) hpre
                    rw [← hp.2]
                    change (List.drop 5 (c :: t)).length < _ at this
                    omega
                  · simp at hp
            · split at h
              · cases hp : parseNull (c :: t) with
                | error e => rw [hp] at h; simp at h
                | ok p =>
                  obtain ⟨b, r'⟩ := p
                  rw [hp] at h
                  simp only [Except.ok.injEq, Prod.mk.injEq] at h
                  rw [← h.2]
                  simp only [parseNull] at hp
                  split at hp
                  · rename_i hpre
                    simp only [Except.ok.injEq, Prod.mk.injEq] at hp
                    have := isPrefixOf_drop_length "null".toList (c :: t) (by decide) hpre
                    rw [← hp.2]
                    change (List.drop 4 (c :: t)).length < _ at this
                    omega
                  · simp at hp
              · split at h
                · rename_i hc
                  cases hp : parseNumber stod (c :: t) with
                  | error e => rw [hp] at h; simp at h
                  | ok p =>
                    obtain ⟨x, r'⟩ := p
                    rw [hp] at h
                    simp only [Except.ok.injEq, Prod.mk.injEq] at h
                    have := parseNumber_length stod c t (by simpa using hc) x r' hp
                    rw [← h.2]
                    omega
                · simp at h
/-! ## `JsonHandler`: text after a value does not change how the value is read -/

theorem skipWhitespace_append (s e : Str) (h : skipWhitespace s ≠ []) :
    skipWhitespace (s ++ e) = skipWhitespace s ++ e := by
  induction s with
  | nil => simp [skipWhitespace] at h
  | cons c cs ih =>
    simp only [List.cons_append, skipWhitespace] at h ⊢
    split
    · rename_i hc
      simp only [hc, if_true] at h
      exact ih h
    · rfl

theorem skipComma_append (s e : Str) (h : s ≠ []) : skipComma (s ++ e) = skipComma s ++ e := by
  cases s with
  | nil => exact absurd rfl h
  | cons c cs =>
    simp only [List.cons_append, skipComma]
    split <;> rfl

theorem parseStringLoop_append_aux (n : Nat) (s k r e : Str) (hn : s.length ≤ n)
    (h : parseStringLoop s = .ok (k, r)) : parseStringLoop (s ++ e) = .ok (k, r ++ e) := by
  induction n generalizing s k r with
  | zero =>
    have : s = [] := List.length_eq_zero.mp (by omega)
    subst this
    simp [parseStringLoop] at h
  | succ n ih =>
    cases s with
    | nil => simp [parseStringLoop] at h
    | cons c cs =>
      simp only [List.length_cons] at hn
      rw [parseStringLoop_cons] at h
      rw [List.cons_append, parseStringLoop_cons]
      split at h
      · rename_i hc
        simp only [Except.ok.injEq, Prod.mk.injEq] at h
        simp [hc, h.1.symm, h.2.symm]
      · rename_i hc
        simp only [hc, if_false]
        split at h
        · rename_i hb
          simp only [hb, if_true]
          cases cs with
          | nil => simp at h
          | cons d ds =>
            simp only at h
            simp only [List.length_cons] at hn
            cases hr : parseStringLoop ds with
            | error e => rw [hr] at h; simp at h
            | ok p =>
              obtain ⟨k', r'⟩ := p
              rw [hr] at h
              simp only [Except.ok.injEq, Prod.mk.injEq] at h
              have := ih ds k' r' (by omega) hr
              simp [this, h.1.symm, h.2.symm]
        · rename_i hb
          simp only [hb, if_false]
          cases hr : parseStringLoop cs with
          | error e => rw [hr] at h; simp at h
          | ok p =>
            obtain ⟨k', r'⟩ := p
            rw [hr] at h
            simp only [Except.ok.injEq, Prod.mk.injEq] at h
            have := ih cs k' r' (by omega) hr
            simp [this, h.1.symm, h.2.symm]

theorem parseString_append (s k r e : Str) (h : parseString s = .ok (k, r)) :
    parseString (s ++ e) = .ok (k, r ++ e) := by
  cases s with
  | nil => simp [parseString] at h
  | cons c cs =>
    simp only [parseString, List.cons_append] at h ⊢
    split at h
    · rename_i hc
      simp only [hc, if_true]
      exact parseStringLoop_append_aux cs.length cs k r e (le_refl _) h
    · simp at h

theorem isPrefixOf_append (p s e : Str) (h : p.isPrefixOf s = true) :
    p.isPrefixOf (s ++ e) = true ∧ (s ++ e).drop p.length = s.drop p.length ++ e := by
  obtain ⟨t, rfl⟩ := List.isPrefixOf_iff_prefix.mp h
  constructor
  · exact List.isPrefixOf_iff_prefix.mpr ⟨t ++ e, by simp⟩
  · simp

theorem not_isPrefixOf_append (p s e : Str) (h : p.isPrefixOf s = false)
    (hl : p.length ≤ s.length) : p.isPrefixOf (s ++ e) = false := by
  rw [Bool.eq_false_iff] at h ⊢
  intro hp
  apply h
  obtain ⟨t, ht⟩ := List.isPrefixOf_iff_prefix.mp hp
  apply List.isPrefixOf_iff_prefix.mpr
  have h1 : p = (s ++ e).take p.length := by rw [← ht]; simp
  rw [List.take_append_of_le_length hl] at h1
  rw [h1]
  exact List.take_prefix _ _

theorem parseBoolean_append (s e : Str) (b : Bool) (r : Str)
    (h : parseBoolean s = .ok (b, r)) : parseBoolean (s ++ e) = .ok (b, r ++ e) := by
  simp only [parseBoolean] at h ⊢
  split at h
  · rename_i hp
    obtain ⟨h1, h2⟩ := isPrefixOf_append _ s e hp
    simp only [Except.ok.injEq, Prod.mk.injEq] at h
    simp only [h1, if_true]
    change Except.ok (true, List.drop 4 (s ++ e)) = _
    change List.drop 4 (s ++ e) = List.drop 4 s ++ e at h2
    rw [h2, h.1.symm, h.2.symm]
  · rename_i hp
    split at h
    · rename_i hq
      obtain ⟨h1, h2⟩ := isPrefixOf_append _ s e hq
      have hlen : "true".toList.length ≤ s.length := by
        obtain ⟨t, ht⟩ := List.isPrefixOf_iff_prefix.mp hq
        rw [← ht]
        simp
      have h0 := not_isPrefixOf_append _ s e (Bool.eq_false_iff.mpr hp) hlen
      simp only [Except.ok.injEq, Prod.mk.injEq] at h
      simp only [h0, h1, if_true, Bool.false_eq_true, if_false]
      change Except.ok (false, List.drop 5 (s ++ e)) = _
      change List.drop 5 (s ++ e) = List.drop 5 s ++ e at h2
      rw [h2, h.1.symm, h.2.symm]
    · simp at h

theorem parseNull_append (s e : Str) (r : Str)
    (h : parseNull s = .ok ((), r)) : parseNull (s ++ e) = .ok ((), r ++ e) := by
  simp only [parseNull] at h ⊢
  split at h
  · rename_i hp
    obtain ⟨h1, h2⟩ := isPrefixOf_append _ s e hp
    simp only [Except.ok.injEq, Prod.mk.injEq] at h
    simp only [h1, if_true]
    change Except.ok ((), List.drop 4 (s ++ e)) = _
    change List.drop 4 (s ++ e) = List.drop 4 s ++ e at h2
    rw [h2, h.2.symm]
  · simp at h

theorem takeDigits_append (s e : Str) (h : (takeDigits s).2 ≠ [] ∨ StopsNumber e) :
    takeDigits (s ++ e) = ((takeDigits s).1, (takeDigits s).2 ++ e) := by
  induction s with
  | nil =>
    rcases h with h | h
    · simp [takeDigits] at h
    · cases e with
      | nil => rfl
      | cons c t =>
        simp only [StopsNumber] at h
        simp [takeDigits, h.1]
  | cons c cs ih =>
    simp only [List.cons_append, takeDigits] at h ⊢
    split
    · rename_i hc
      simp only [hc, if_true] at h
      simp only [List.append_eq, ih h]
    · rfl

theorem scanSign_append (s e : Str) (h : (scanSign s).2 ≠ [] ∨ StopsNumber e) :
    scanSign (s ++ e) = ((scanSign s).1, (scanSign s).2 ++ e) := by
  cases s with
  | nil =>
    rcases h with h | h
    · simp [scanSign] at h
    · cases e with
      | nil => rfl
      | cons c t =>
        simp only [StopsNumber] at h
        simp [scanSign, h.2.2.2.2.2]
  | cons c cs =>
    simp only [List.cons_append, scanSign]
    split <;> rfl

theorem scanFraction_append (s e : Str) (h : (scanFraction s).2 ≠ [] ∨ StopsNumber e) :
    scanFraction (s ++ e) = ((scanFraction s).1, (scanFraction s).2 ++ e) := by
  cases s with
  | nil =>
    rcases h with h | h
    · simp [scanFraction] at h
    · cases e with
      | nil => rfl
      | cons c t =>
        simp only [StopsNumber] at h
        simp [scanFraction, h.2.1]
  | cons c cs =>
    simp only [List.cons_append, scanFraction] at h ⊢
    split
    · rename_i hc
      simp only [hc, if_true] at h
      rw [takeDigits_append cs e h]
    · rfl

theorem scanExponentSign_append (s e : Str)
    (h : (scanExponentSign s).2 ≠ [] ∨ StopsNumber e) :
    scanExponentSign (s ++ e) = ((scanExponentSign s).1, (scanExponentSign s).2 ++ e) := by
  cases s with
  | nil =>
    rcases h with h | h
    · simp [scanExponentSign] at h
    · cases e with
      | nil => rfl
      | cons c t =>
        simp only [StopsNumber] at h
        simp [scanExponentSign, h.2.2.2.2.1, h.2.2.2.2.2]
  | cons c cs =>
    simp only [List.cons_append, scanExponentSign]
    split <;> rfl

theorem takeDigits_rest_ne (s : Str) (h : (takeDigits s).2 ≠ []) : s ≠ [] := by
  rintro rfl
  simp [takeDigits] at h

theorem scanFraction_rest_ne (s : Str) (h : (scanFraction s).2 ≠ []) : s ≠ [] := by
  rintro rfl
  simp [scanFraction] at h

theorem scanExponent_rest_ne (s : Str) (h : (scanExponent s).2 ≠ []) : s ≠ [] := by
  rintro rfl
  simp [scanExponent] at h

theorem scanExponent_append (s e : Str) (h : (scanExponent s).2 ≠ [] ∨ StopsNumber e) :
    scanExponent (s ++ e) = ((scanExponent s).1, (scanExponent s).2 ++ e) := by
  cases s with
  | nil =>
    rcases h with h | h
    · simp [scanExponent] at h
    · cases e with
      | nil => rfl
      | cons c t =>
        simp only [StopsNumber] at h
        simp [scanExponent, h.2.2.1, h.2.2.2.1]
  | cons c cs =>
    simp only [List.cons_append, scanExponent] at h ⊢
    split
    · rename_i hc
      simp only [hc, if_true] at h
      have h1 : (scanExponentSign cs).2 ≠ [] ∨ StopsNumber e :=
        h.imp (takeDigits_rest_ne _) id
      rw [scanExponentSign_append cs e h1]
      simp only
      rw [takeDigits_append _ e h]
    · rfl

theorem scanNumber_append (s e : Str) (h : (scanNumber s).2 ≠ [] ∨ StopsNumber e) :
    scanNumber (s ++ e) = ((scanNumber s).1, (scanNumber s).2 ++ e) := by
  simp only [scanNumber] at h ⊢
  have hc : (scanFraction (takeDigits (scanSign s).2).2).2 ≠ [] ∨ StopsNumber e :=
    h.imp (scanExponent_rest_ne _) id
  have hb : (takeDigits (scanSign s).2).2 ≠ [] ∨ StopsNumber e :=
    hc.imp (scanFraction_rest_ne _) id
  have ha : (scanSign s).2 ≠ [] ∨ StopsNumber e := hb.imp (takeDigits_rest_ne _) id
  rw [scanSign_append s e ha]
  simp only
  rw [takeDigits_append _ e hb]
  simp only
  rw [scanFraction_append _ e hc]
  simp only
  rw [scanExponent_append _ e h]

theorem parseNumber_append {N : Type} (stod : Str → Option N) (s e : Str) (x : N) (r : Str)
    (h : parseNumber stod s = .ok (x, r)) (he : r ≠ [] ∨ StopsNumber e) :
    parseNumber stod (s ++ e) = .ok (x, r ++ e) := by
  simp only [parseNumber] at h ⊢
  cases hs : stod (scanNumber s).1 with
  | none => rw [hs] at h; simp at h
  | some y =>
    rw [hs] at h
    simp only [Except.ok.injEq, Prod.mk.injEq] at h
    have := scanNumber_append s e (by rw [h.2]; exact he)
    rw [this]
    simp only [hs, h.1, h.2]

theorem parseObjectLoop_nil {N : Type} (pv : Str → Except JsonError (Json N × Str))
    (n : Nat) (acc m : List (Str × Json N)) (r : Str) :
    parseObjectLoop pv n [] acc ≠ .ok (m, r) := by
  cases n <;> simp [parseObjectLoop]

theorem parseArrayLoop_nil {N : Type} (pv : Str → Except JsonError (Json N × Str))
    (n : Nat) (acc m : List (Json N)) (r : Str) :
    parseArrayLoop pv n [] acc ≠ .ok (m, r) := by
  cases n <;> simp [parseArrayLoop]

theorem skipComma_skipWhitespace_append (s e : Str) (h : skipComma (skipWhitespace s) ≠ []) :
    skipComma (skipWhitespace (s ++ e)) = skipComma (skipWhitespace s) ++ e := by
  have h1 : skipWhitespace s ≠ [] := by
    intro h0
    rw [h0] at h
    exact h rfl
  rw [skipWhitespace_append s e h1, skipComma_append _ e h1]

theorem skipComma_skipWhitespace_ne (s : Str) (h : skipComma (skipWhitespace s) ≠ []) :
    s ≠ [] := by
  rintro rfl
  exact h rfl

theorem parseObjectLoop_append {N : Type} (pv pv' : Str → Except JsonError (Json N × Str))
    (e : Str)
    (H : ∀ s v r, pv s = .ok (v, r) → r ≠ [] → pv' (s ++ e) = .ok (v, r ++ e))
    (H0 : ∀ v r, pv [] ≠ .ok (v, r))
    (n n' : Nat) (hn : n ≤ n') (s : Str) (acc m : List (Str × Json N)) (r : Str)
    (h : parseObjectLoop pv n s acc = .ok (m, r)) :
    parseObjectLoop pv' n' (s ++ e) acc = .ok (m, r ++ e) := by
  induction n generalizing n' s acc with
  | zero => simp [parseObjectLoop] at h
  | succ n ih =>
    obtain ⟨k, rfl⟩ : ∃ k, n' = k + 1 := ⟨n' - 1, by omega⟩
    rw [parseObjectLoop_succ] at h ⊢
    cases s with
    | nil => simp at h
    | cons c t =>
      simp only [List.cons_append] at h ⊢
      split at h
      · rename_i hc
        simp only [Except.ok.injEq, Prod.mk.injEq] at h
        simp only [hc, if_true, h.1, h.2]
      · rename_i hc
        simp only [hc, if_false]
        cases hs1 : skipWhitespace (c :: t) with
        | nil => rw [hs1] at h; simp at h
        | cons q t1 =>
          rw [hs1] at h
          have e1 : skipWhitespace (c :: (t ++ e)) = q :: (t1 ++ e) := by
            have := skipWhitespace_append (c :: t) e (by rw [hs1]; simp)
            rw [hs1] at this
            simpa using this
          rw [e1]
          simp only at h ⊢
          split at h
          · simp at h
          · rename_i hq
            simp only [hq, if_false]
            cases hps : parseString (q :: t1) with
            | error e => rw [hps] at h; simp at h
            | ok p =>
              obtain ⟨key, s2⟩ := p
              rw [hps] at h
              have e2 := parseString_append _ _ _ e hps
              rw [List.cons_append] at e2
              rw [e2]
              simp only at h ⊢
              cases hs3 : skipWhitespace s2 with
              | nil => rw [hs3] at h; simp at h
              | cons d t3 =>
                rw [hs3] at h
                have e3 : skipWhitespace (s2 ++ e) = d :: (t3 ++ e) := by
                  have := skipWhitespace_append s2 e (by rw [hs3]; simp)
                  rw [hs3] at this
                  simpa using this
                rw [e3]
                simp only at h ⊢
                split at h
                · simp at h
                · rename_i hd
                  simp only [hd, if_false]
                  cases hv : pv (skipWhitespace t3) with
                  | error e => rw [hv] at h; simp at h
                  | ok p =>
                    obtain ⟨v, s5⟩ := p
                    rw [hv] at h
                    simp only at h
                    have n3 : skipWhitespace t3 ≠ [] := by
                      intro h0
                      rw [h0] at hv
                      exact H0 _ _ hv
                    have n5 : skipComma (skipWhitespace s5) ≠ [] := by
                      intro h0
                      rw [h0] at h
                      exact parseObjectLoop_nil _ _ _ _ _ h
                    have e4 := skipWhitespace_append t3 e n3
                    have e5 := H _ _ _ hv (skipComma_skipWhitespace_ne _ n5)
                    rw [e4, e5]
                    simp only
                    rw [skipComma_skipWhitespace_append _ _ n5]
                    exact ih k (by omega) _ _ h

theorem parseArrayLoop_append {N : Type} (pv pv' : Str → Except JsonError (Json N × Str))
    (e : Str)
    (H : ∀ s v r, pv s = .ok (v, r) → r ≠ [] → pv' (s ++ e) = .ok (v, r ++ e))
    (n n' : Nat) (hn : n ≤ n') (s : Str) (acc m : List (Json N)) (r : Str)
    (h : parseArrayLoop pv n s acc = .ok (m, r)) :
    parseArrayLoop pv' n' (s ++ e) acc = .ok (m, r ++ e) := by
  induction n generalizing n' s acc with
  | zero => simp [parseArrayLoop] at h
  | succ n ih =>
    obtain ⟨k, rfl⟩ : ∃ k, n' = k + 1 := ⟨n' - 1, by omega⟩
    rw [parseArrayLoop_succ] at h ⊢
    cases s with
    | nil => simp at h
    | cons c t =>
      simp only [List.cons_append] at h ⊢
      split at h
      · rename_i hc
        simp only [Except.ok.injEq, Prod.mk.injEq] at h
        simp only [hc, if_true, h.1, h.2]
      · rename_i hc
        simp only [hc, if_false]
        cases hv : pv (c :: t) with
        | error e => rw [hv] at h; simp at h
        | ok p =>
          obtain ⟨v, s1⟩ := p
          rw [hv] at h
          simp only at h
          have n5 : skipComma (skipWhitespace s1) ≠ [] := by
            intro h0
            rw [h0] at h
            exact parseArrayLoop_nil _ _ _ _ _ h
          have e5 := H _ _ _ hv (skipComma_skipWhitespace_ne _ n5)
          rw [List.cons_append] at e5
          rw [e5]
          simp only
          rw [skipComma_skipWhitespace_append _ _ n5]
          exact ih k (by omega) _ _ h

theorem parseValue_nil {N : Type} (stod : Str → Option N) (fuel : Nat) (v : Json N) (r : Str) :
    parseValue stod fuel [] ≠ .ok (v, r) := by
  cases fuel <;> simp [parseValue, skipWhitespace]

/-- More fuel and more text after the value leave the value read by `parseValue` and the
place where it ends as they were, unless a number runs to the end of the text and the
added text could continue it. -/
theorem parseValue_append {N : Type} (stod : Str → Option N) (e : Str) (f f' : Nat)
    (hf : f ≤ f') (s : Str) (v : Json N) (r : Str)
    (h : parseValue stod f s = .ok (v, r))
    (he : r ≠ [] ∨ StopsNumber e ∨ ∀ x, v ≠ .num x) :
    parseValue stod f' (s ++ e) = .ok (v, r ++ e) := by
  induction f generalizing f' s v r with
  | zero => simp [parseValue] at h
  | succ f ih =>
    obtain ⟨k, rfl⟩ : ∃ k, f' = k + 1 := ⟨f' - 1, by omega⟩
    rw [parseValue] at h ⊢
    cases hs : skipWhitespace s with
    | nil => rw [hs] at h; simp at h
    | cons c t =>
      rw [hs] at h
      have e1 : skipWhitespace (s ++ e) = c :: (t ++ e) := by
        have := skipWhitespace_append s e (by rw [hs]; simp)
        rw [hs] at this
        simpa using this
      rw [e1]
      simp only at h ⊢
      have HH : ∀ s v r, (fun s' => parseValue stod f s') s = .ok (v, r) → r ≠ [] →
          (fun s' => parseValue stod k s') (s ++ e) = .ok (v, r ++ e) :=
        fun s v r hh hr => ih k (by omega) s v r hh (Or.inl hr)
      split at h
      · rename_i hc
        simp only [parseObjectWith, hc, if_true] at h ⊢
        cases ho : parseObjectLoop (fun s' => parseValue stod f s') f (skipWhitespace t) []
          with
        | error e => rw [ho] at h; simp at h
        | ok p =>
          obtain ⟨m, r'⟩ := p
          rw [ho] at h
          simp only [Except.ok.injEq, Prod.mk.injEq] at h
          have n1 : skipWhitespace t ≠ [] := by
            intro h0
            rw [h0] at ho
            exact parseObjectLoop_nil _ _ _ _ _ ho
          have := parseObjectLoop_append _ _ e HH (fun v r => parseValue_nil stod f v r)
            f k (by omega) _ _ _ _ ho
          rw [skipWhitespace_append t e n1, this]
          simp only [h.1, h.2]
      · rename_i hc1
        simp only [hc1, Bool.false_eq_true, if_false]
        split at h
        · rename_i hc
          simp only [parseArrayWith, hc, if_true] at h ⊢
          cases ho : parseArrayLoop (fun s' => parseValue stod f s') f (skipWhitespace t) []
            with
          | error e => rw [ho] at h; simp at h
          | ok p =>
            obtain ⟨m, r'⟩ := p
            rw [ho] at h
            simp only [Except.ok.injEq, Prod.mk.injEq] at h
            have n1 : skipWhitespace t ≠ [] := by
              intro h0
              rw [h0] at ho
              exact parseArrayLoop_nil _ _ _ _ _ ho
            have := parseArrayLoop_append _ _ e HH f k (by omega) _ _ _ _ ho
            rw [skipWhitespace_append t e n1, this]
            simp only [h.1, h.2]
        · rename_i hc2
          simp only [hc2, Bool.false_eq_true, if_false]
          split at h
          · rename_i hc
            simp only [hc, if_true]
            cases hp : parseString (c :: t) with
            | error e => rw [hp] at h; simp at h
            | ok p =>
              obtain ⟨x, r'⟩ := p
              rw [hp] at h
              simp only [Except.ok.injEq, Prod.mk.injEq] at h
              have := parseString_append _ _ _ e hp
              rw [List.cons_append] at this
              rw [this]
              simp only [h.1, h.2]
          · rename_i hc3
            simp only [hc3, Bool.false_eq_true, if_false]
            split at h
            · rename_i hc
              simp only [hc, if_true]
              cases hp : parseBoolean (c :: t) with
              | error e => rw [hp] at h; simp at h
              | ok p =>
                obtain ⟨x, r'⟩ := p
                rw [hp] at h
                simp only [Except.ok.injEq, Prod.mk.injEq] at h
                have := parseBoolean_append _ e _ _ hp
                rw [List.cons_append] at this
                rw [this]
                simp only [h.1, h.2]
            · rename_i hc4
              simp only [hc4, Bool.false_eq_true, if_false]
              split at h
              · rename_i hc
                simp only [hc, if_true]
                cases hp : parseNull (c :: t) with
                | error e => rw [hp] at h; simp at h
                | ok p =>
                  obtain ⟨x, r'⟩ := p
                  rw [hp] at h
                  simp only [Except.ok.injEq, Prod.mk.injEq] at h
                  have := parseNull_append _ e _ hp
                  rw [List.cons_append] at this
                  rw [this]
                  simp only [h.1, h.2]
              · rename_i hc5
                simp only [hc5, Bool.false_eq_true, if_false]
                split at h
                · rename_i hc
                  simp only [hc, if_true]
                  cases hp : parseNumber stod (c :: t) with
                  | error e => rw [hp] at h; simp at h
                  | ok p =>
                    obtain ⟨x, r'⟩ := p
                    rw [hp] at h
                    simp only [Except.ok.injEq, Prod.mk.injEq] at h
                    have he' : r' ≠ [] ∨ StopsNumber e := by
                      rcases he with he | he | he
                      · exact Or.inl (by rw [h.2]; exact he)
                      · exact Or.inr he
                      · exact absurd h.1.symm (he x)
                    have := parseNumber_append stod _ e _ _ hp he'
                    rw [List.cons_append] at this
                    rw [this]
                    simp only [h.1, h.2]
                · simp at h

/-! ## `JsonHandler`: the fuel of `isValid` is enough -/

theorem parseStringLoop_error_aux (n : Nat) (s : Str) (e : JsonError) (hn : s.length ≤ n)
    (h : parseStringLoop s = .error e) : e = .expectedQuote := by
  induction n generalizing s with
  | zero =>
    have : s = [] := List.length_eq_zero.mp (by omega)
    subst this
    simp only [parseStringLoop, Except.error.injEq] at h
    exact h.symm
  | succ n ih =>
    cases s with
    | nil =>
      simp only [parseStringLoop, Except.error.injEq] at h
      exact h.symm
    | cons c cs =>
      simp only [List.length_cons] at hn
      rw [parseStringLoop_cons] at h
      split at h
      · simp at h
      · split at h
        · cases cs with
          | nil =>
            simp only [Except.error.injEq] at h
            exact h.symm
          | cons d ds =>
            simp only at h
            simp only [List.length_cons] at hn
            cases hr : parseStringLoop ds with
            | error e' =>
              rw [hr] at h
              simp only [Except.error.injEq] at h
              subst h
              exact ih ds (by omega) hr
            | ok p => rw [hr] at h; simp at h
        · cases hr : parseStringLoop cs with
          | error e' =>
            rw [hr] at h
            simp only [Except.error.injEq] at h
            subst h
            exact ih cs (by omega) hr
          | ok p => rw [hr] at h; simp at h

theorem parseString_error (s : Str) (e : JsonError) (h : parseString s = .error e) :
    e = .expectedQuote := by
  cases s with
  | nil =>
    simp only [parseString, Except.error.injEq] at h
    exact h.symm
  | cons c cs =>
    simp only [parseString] at h
    split at h
    · exact parseStringLoop_error_aux cs.length cs e (le_refl _) h
    · simp only [Except.error.injEq] at h
      exact h.symm

theorem parseBoolean_error (s : Str) (e : JsonError) (h : parseBoolean s = .error e) :
    e = .expectedBoolean := by
  simp only [parseBoolean] at h
  split at h
  · simp at h
  · split at h
    · simp at h
    · simp only [Except.error.injEq] at h
      exact h.symm

theorem parseNull_error (s : Str) (e : JsonError) (h : parseNull s = .error e) :
    e = .expectedNull := by
  simp only [parseNull] at h
  split at h
  · simp at h
  · simp only [Except.error.injEq] at h
    exact h.symm

theorem parseNumber_error {N : Type} (stod : Str → Option N) (s : Str) (e : JsonError)
    (h : parseNumber stod s = .error e) : e = .stodFailed := by
  simp only [parseNumber] at h
  split at h
  · simp at h
  · simp only [Except.error.injEq] at h
    exact h.symm

theorem parseObjectLoop_fuel {N : Type} (pv : Str → Except JsonError (Json N × Str))
    (B : Nat) (hpv : ∀ s v r, pv s = .ok (v, r) → r.length < s.length)
    (hf : ∀ s, s.length < B → pv s ≠ .error .outOfFuel)
    (n : Nat) (s : Str) (acc : List (Str × Json N)) (hn : s.length < n) (hB : s.length < B) :
    parseObjectLoop pv n s acc ≠ .error .outOfFuel := by
  induction n generalizing s acc with
  | zero => omega
  | succ n ih =>
    rw [parseObjectLoop_succ]
    cases s with
    | nil => simp
    | cons c t =>
      simp only
      split
      · simp
      · have hw := skipWhitespace_length (c :: t)
        cases hs1 : skipWhitespace (c :: t) with
        | nil => simp
        | cons q t1 =>
          rw [hs1] at hw
          simp only
          split
          · simp
          · cases hps : parseString (q :: t1) with
            | error e =>
              have := parseString_error _ _ hps
              simp [this]
            | ok p =>
              obtain ⟨key, s2⟩ := p
              simp only
              have l2 := parseString_length _ _ _ hps
              have hw2 := skipWhitespace_length s2
              cases hs3 : skipWhitespace s2 with
              | nil => simp
              | cons d t3 =>
                rw [hs3] at hw2
                simp only
                split
                · simp
                · have hw3 := skipWhitespace_length t3
                  simp only [List.length_cons] at *
                  cases hv : pv (skipWhitespace t3) with
                  | error e =>
                    have := hf (skipWhitespace t3) (by omega)
                    rw [hv] at this
                    simpa using this
                  | ok p =>
                    obtain ⟨v, s5⟩ := p
                    simp only
                    have l5 := hpv _ _ _ hv
                    have l7 := skipComma_length (skipWhitespace s5)
                    have l8 := skipWhitespace_length s5
                    exact ih _ _ (by omega) (by omega)

theorem parseArrayLoop_fuel {N : Type} (pv : Str → Except JsonError (Json N × Str))
    (B : Nat) (hpv : ∀ s v r, pv s = .ok (v, r) → r.length < s.length)
    (hf : ∀ s, s.length < B → pv s ≠ .error .outOfFuel)
    (n : Nat) (s : Str) (acc : List (Json N)) (hn : s.length < n) (hB : s.length < B) :
    parseArrayLoop pv n s acc ≠ .error .outOfFuel := by
  induction n generalizing s acc with
  | zero => omega
  | succ n ih =>
    rw [parseArrayLoop_succ]
    cases s with
    | nil => simp
    | cons c t =>
      simp only
      split
      · simp
      · cases hv : pv (c :: t) with
        | error e =>
          have := hf (c :: t) hB
          rw [hv] at this
          simpa using this
        | ok p =>
          obtain ⟨v, s1⟩ := p
          simp only
          have l1 := hpv _ _ _ hv
          have l3 := skipComma_length (skipWhitespace s1)
          have l4 := skipWhitespace_length s1
          simp only [List.length_cons] at *
          exact ih _ _ (by omega) (by omega)

/-- With more fuel than the text is long, `parseValue` never runs out of fuel: the
result is the one of the source. -/
theorem parseValue_fuel {N : Type} (stod : Str → Option N) (fuel : Nat) (s : Str)
    (h : s.length < fuel) : parseValue stod fuel s ≠ .error .outOfFuel := by
  induction fuel generalizing s with
  | zero => omega
  | succ fuel ih =>
    rw [parseValue]
    have hw := skipWhitespace_length s
    cases hs : skipWhitespace s with
    | nil => simp
    | cons c t =>
      rw [hs] at hw
      have l2 := skipWhitespace_length t
      simp only [List.length_cons] at hw
      simp only
      split
      · rename_i hc
        simp only [parseObjectWith, hc, if_true]
        cases ho : parseObjectLoop (fun s' => parseValue stod fuel s') fuel (skipWhitespace t) []
          with
        | error e =>
          have := parseObjectLoop_fuel (fun s' => parseValue stod fuel s') fuel
            (fun s v r hh => parseValue_length stod fuel s v r hh) (fun s hs => ih s hs)
            fuel (skipWhitespace t) [] (by omega) (by omega)
          rw [ho] at this
          simpa using this
        | ok p => simp
      · split
        · rename_i hc
          simp only [parseArrayWith, hc, if_true]
          cases ho : parseArrayLoop (fun s' => parseValue stod fuel s') fuel (skipWhitespace t) []
            with
          | error e =>
            have := parseArrayLoop_fuel (fun s' => parseValue stod fuel s') fuel
              (fun s v r hh => parseValue_length stod fuel s v r hh) (fun s hs => ih s hs)
              fuel (skipWhitespace t) [] (by omega) (by omega)
            rw [ho] at this
            simpa using this
          | ok p => simp
        · split
          · cases hp : parseString (c :: t) with
            | error e =>
              have := parseString_error _ _ hp
              simp [this]
            | ok p => simp
          · split
            · cases hp : parseBoolean (c :: t) with
              | error e =>
                have := parseBoolean_error _ _ hp
                simp [this]
              | ok p => simp
            · split
              · cases hp : parseNull (c :: t) with
                | error e =>
                  have := parseNull_error _ _ hp
                  simp [this]
                | ok p => simp
              · split
                · cases hp : parseNumber stod (c :: t) with
                  | error e =>
                    have := parseNumber_error stod _ _ hp
                    simp [this]
                  | ok p => simp
                · simp

/-! ## `JsonHandler::isValid`: text after the value, and text that ends too early -/

theorem skipWhitespace_append_of_nil (s e : Str) (h : skipWhitespace s = []) :
    skipWhitespace (s ++ e) = skipWhitespace e := by
  induction s with
  | nil => rfl
  | cons c cs ih =>
    simp only [List.cons_append, skipWhitespace] at h ⊢
    split
    · rename_i hc
      simp only [hc, if_true] at h
      exact ih h
    · rename_i hc
      simp [hc] at h

theorem isValid_eq_true {N : Type} (stod : Str → Option N) (t : Str)
    (h : isValid stod t = true) :
    ∃ v rest, parseValue stod (t.length + 1) (skipWhitespace t) = .ok (v, rest) ∧
      skipWhitespace rest = [] := by
  simp only [isValid] at h
  cases hp : parseValue stod (t.length + 1) (skipWhitespace t) with
  | error e => rw [hp] at h; simp at h
  | ok p =>
    obtain ⟨v, rest⟩ := p
    rw [hp] at h
    exact ⟨v, rest, rfl, by simpa using h⟩

theorem isValid_of_parseValue {N : Type} (stod : Str → Option N) (t : Str) (v : Json N)
    (rest : Str) (h : parseValue stod (t.length + 1) (skipWhitespace t) = .ok (v, rest)) :
    isValid stod t = (skipWhitespace rest).isEmpty := by
  simp only [isValid, h]

/-- C14: when `isValid` accepts the text `t`, it rejects `t`, a space, and any text `g`
that starts with a character other than space, tab, LF and CR. -/
theorem isValid_rejects_trailing_text {N : Type} (stod : Str → Option N) (t : Str)
    (c : Char) (g : Str) (ht : isValid stod t = true)
    (hc : c ≠ ' ' ∧ c ≠ '\t' ∧ c ≠ '\n' ∧ c ≠ '\r') :
    isValid stod (t ++ ' ' :: c :: g) = false := by
  obtain ⟨v, rest, hp, hr⟩ := isValid_eq_true stod t ht
  have hne : skipWhitespace t ≠ [] := by
    intro h0
    rw [h0] at hp
    exact parseValue_nil stod _ _ _ hp
  have hsp : isJsonSpace c = false := by
    simp [isJsonSpace, hc.1, hc.2.1, hc.2.2.1, hc.2.2.2]
  have hstop : StopsNumber (' ' :: c :: g) := by
    simp only [StopsNumber]
    decide
  have hp2 := parseValue_append stod (' ' :: c :: g) (t.length + 1)
    ((t ++ ' ' :: c :: g).length + 1) (by simp) (skipWhitespace t) v rest hp
    (Or.inr (Or.inl hstop))
  rw [← skipWhitespace_append t _ hne] at hp2
  rw [isValid_of_parseValue stod _ v _ hp2, skipWhitespace_append_of_nil _ _ hr]
  have : skipWhitespace (' ' :: c :: g) = c :: g := by
    have h1 : skipWhitespace (' ' :: c :: g) = skipWhitespace (c :: g) := rfl
    rw [h1, skipWhitespace_of_not_space c g hsp]
  rw [this]
  rfl

/-- Instance of C14: `isValid` is true on `{"a":1}` and false on `{"a":1} garbage`. -/
theorem isValid_rejects_trailing_text_witness :
    isValid stodDec "\x7b\"a\":1\x7d".toList = true ∧
      isValid stodDec ("\x7b\"a\":1\x7d".toList ++ ' ' :: 'g' :: "arbage".toList) = false ∧
      "\x7b\"a\":1\x7d".toList ++ ' ' :: 'g' :: "arbage".toList =
        "\x7b\"a\":1\x7d garbage".toList :=
  ⟨by decide,
    isValid_rejects_trailing_text stodDec "\x7b\"a\":1\x7d".toList 'g' "arbage".toList
      (by decide) (by decide),
    by decide⟩

theorem skipWhitespace_eq_nil_iff (w : Str) :
    skipWhitespace w = [] ↔ ∀ c ∈ w, isJsonSpace c = true := by
  induction w with
  | nil => simp [skipWhitespace]
  | cons c cs ih =>
    simp only [skipWhitespace, List.mem_cons, forall_eq_or_imp]
    constructor
    · intro h
      split at h
      · rename_i hc
        exact ⟨hc, ih.mp h⟩
      · simp at h
    · rintro ⟨hc, h⟩
      simp only [hc, if_true]
      exact ih.mpr h

theorem parseValue_not_num {N : Type} (stod : Str → Option N) (f : Nat) (s : Str)
    (v : Json N) (r : Str) (c : Char) (t : Str)
    (h : parseValue stod f s = .ok (v, r)) (hs : skipWhitespace s = c :: t)
    (hc : c = '{' ∨ c = '[' ∨ c = '"') : ∀ x, v ≠ .num x := by
  intro x hx
  subst hx
  cases f with
  | zero => simp [parseValue] at h
  | succ f =>
    rw [parseValue, hs] at h
    simp only at h
    split at h
    · split at h <;> simp at h
    · split at h
      · split at h <;> simp at h
      · split at h
        · split at h <;> simp at h
        · split at h
          · split at h <;> simp at h
          · split at h
            · split at h <;> simp at h
            · split at h
              · rename_i h1 h2 h3 _ _ _
                rcases hc with rfl | rfl | rfl
                · exact h1 rfl
                · exact h2 rfl
                · exact h3 rfl
              · simp at h

/-- C20: `isValid` is false on every text of white space only, the empty one among them;
and when `isValid` accepts a text `t` that ends in a character that is no white space and
whose first character that is no white space is `{`, `[` or `"`, it rejects every proper
prefix `p` of `t`. -/
theorem isValid_rejects_early_end {N : Type} (stod : Str → Option N)
    (w : Str) (hw : ∀ c ∈ w, c = ' ' ∨ c = '\t' ∨ c = '\n' ∨ c = '\r')
    (t p : Str) (ht : isValid stod t = true)
    (hlast : ∃ c, t.getLast? = some c ∧ isJsonSpace c = false)
    (hfirst : ∃ c r, skipWhitespace t = c :: r ∧ (c = '{' ∨ c = '[' ∨ c = '"'))
    (hp : p <+: t) (hne : p ≠ t) :
    isValid stod w = false ∧ isValid stod p = false := by
  constructor
  · have h0 : skipWhitespace w = [] := by
      rw [skipWhitespace_eq_nil_iff]
      intro c hc
      rcases hw c hc with rfl | rfl | rfl | rfl <;> rfl
    cases hl : w.length + 1 with
    | zero => omega
    | succ n => simp [isValid, hl, h0, parseValue, skipWhitespace]
  · obtain ⟨e, rfl⟩ := hp
    have he : e ≠ [] := by
      rintro rfl
      exact hne (by simp)
    rw [← Bool.not_eq_true]
    intro hv
    obtain ⟨v, rest, hpv, hr⟩ := isValid_eq_true stod p hv
    have hnp : skipWhitespace p ≠ [] := by
      intro h0
      rw [h0] at hpv
      exact parseValue_nil stod _ _ _ hpv
    obtain ⟨c, r, hs, hc⟩ := hfirst
    rw [skipWhitespace_append p e hnp] at hs
    cases hsp : skipWhitespace p with
    | nil => exact hnp hsp
    | cons c' r' =>
      rw [hsp, List.cons_append] at hs
      have hcc : c' = c := (List.cons.inj hs).1
      subst hcc
      have hnum := parseValue_not_num stod _ _ _ _ _ _ hpv
        ((skipWhitespace_idem p).trans hsp) hc
      have h2 := parseValue_append stod e (p.length + 1) ((p ++ e).length + 1) (by simp)
        (skipWhitespace p) v rest hpv (Or.inr (Or.inr hnum))
      rw [← skipWhitespace_append p e hnp] at h2
      rw [isValid_of_parseValue stod _ v _ h2, skipWhitespace_append_of_nil _ _ hr] at ht
      have h3 : skipWhitespace e = [] := by simpa using ht
      obtain ⟨d, hd, hd2⟩ := hlast
      rw [List.getLast?_append_of_ne_nil _ he] at hd
      have := (skipWhitespace_eq_nil_iff e).mp h3 d (List.mem_of_getLast?_eq_some hd)
      rw [this] at hd2
      exact absurd hd2 (by decide)

/-- Instance of C20: `isValid` accepts `{"a":1}` and rejects its prefix `{"a":1`, and it
rejects a text of two spaces. -/
theorem isValid_rejects_early_end_witness :
    isValid stodDec "\x7b\"a\":1\x7d".toList = true ∧
      isValid stodDec "  ".toList = false ∧ isValid stodDec "\x7b\"a\":1".toList = false :=
  ⟨by decide,
    isValid_rejects_early_end stodDec "  ".toList (by decide)
      "\x7b\"a\":1\x7d".toList "\x7b\"a\":1".toList (by decide)
      ⟨'\x7d', by decide, by decide⟩ ⟨'\x7b', "\"a\":1\x7d".toList, by decide, by decide⟩
      ⟨['\x7d'], by decide⟩ (by decide)⟩

/-- The fuel `isValid` gives to `parseValue` is never used up. -/
theorem isValid_fuel {N : Type} (stod : Str → Option N) (json : Str) :
    parseValue stod (json.length + 1) (skipWhitespace json) ≠ .error .outOfFuel :=
  parseValue_fuel stod _ _ (Nat.lt_succ_of_le (skipWhitespace_length json))

/-! ## `JsonHandler::parse`: the loop leaves where `parseObject` throws -/

theorem parseValue_one_end {N : Type} (stod : Str → Option N) (x : N)
    (h : stod ['1'] = some x) (f : Nat) :
    parseValue stod (f + 1) ['1'] = .ok (.num x, []) := by
  have e : scanNumber ['1'] = (['1'], []) := by
    simp [scanNumber, scanSign, scanFraction, scanExponent, takeDigits, Char.isDigit]
  have p : parseNumber stod ['1'] = .ok (x, []) := by
    simp only [parseNumber, e, h]
  rw [parseValue]
  simp [skipWhitespace, isJsonSpace, p]

theorem parse_member_without_colon {N : Type} (stod : Str → Option N)
    (k : Str) (hq : '"' ∉ k) (hb : '\\' ∉ k) :
    parse stod ('{' :: '"' :: (k ++ ['"', ' ', '1', '}'])) = .ok [] := by
  have hs : parseString ('"' :: (k ++ ['"', ' ', '1', '}'])) = .ok (k, [' ', '1', '}']) :=
    parseString_plain k _ hq hb
  have hl : ('{' :: '"' :: (k ++ ['"', ' ', '1', '}'])).length + 1 = k.length + 6 + 1 := by
    simp
  simp only [parse, hl]
  rw [skipWhitespace_of_not_space _ _ (by decide)]
  simp only [bne_self_eq_false, Bool.false_eq_true, if_false]
  rw [skipWhitespace_of_not_space _ _ (by decide), parseLoop_succ]
  simp only [skipWhitespace_of_not_space '"' _ (by decide), hs]
  simp [skipWhitespace, isJsonSpace]

theorem parse_object_without_brace {N : Type} (stod : Str → Option N) (x : N)
    (h : stod ['1'] = some x) (k : Str) (hq : '"' ∉ k) (hb : '\\' ∉ k) :
    parse stod ('{' :: '"' :: (k ++ ['"', ':', '1'])) = .ok [(k, .num x)] := by
  have hs : parseString ('"' :: (k ++ ['"', ':', '1'])) = .ok (k, [':', '1']) :=
    parseString_plain k _ hq hb
  have hl : ('{' :: '"' :: (k ++ ['"', ':', '1'])).length + 1 = k.length + 4 + 1 + 1 := by
    simp
  have hv := parseValue_one_end stod x h (k.length + 4 + 1)
  simp only [parse, hl]
  rw [skipWhitespace_of_not_space _ _ (by decide)]
  simp only [bne_self_eq_false, Bool.false_eq_true, if_false]
  rw [skipWhitespace_of_not_space _ _ (by decide), parseLoop_succ]
  simp only [skipWhitespace_of_not_space '"' _ (by decide), hs]
  simp [skipWhitespace, isJsonSpace, hv, skipComma, parseLoop, anySet]

theorem parseValue_member_without_colon {N : Type} (stod : Str → Option N)
    (k : Str) (hq : '"' ∉ k) (hb : '\\' ∉ k) (n : Nat) :
    parseValue stod (n + 3) ('{' :: '"' :: (k ++ ['"', ' ', '1', '}']))
      = .error .expectedColon := by
  have hs : parseString ('"' :: (k ++ ['"', ' ', '1', '}'])) = .ok (k, [' ', '1', '}']) :=
    parseString_plain k _ hq hb
  rw [parseValue]
  simp only [skipWhitespace, isJsonSpace, parseObjectWith, parseObjectLoop]
  simp [hs, skipWhitespace, isJsonSpace]

theorem parseValue_object_without_brace {N : Type} (stod : Str → Option N) (x : N)
    (h : stod ['1'] = some x) (k : Str) (hq : '"' ∉ k) (hb : '\\' ∉ k) (n : Nat) :
    parseValue stod (n + 3) ('{' :: '"' :: (k ++ ['"', ':', '1']))
      = .error .expectedCloseBrace := by
  have hs : parseString ('"' :: (k ++ ['"', ':', '1'])) = .ok (k, [':', '1']) :=
    parseString_plain k _ hq hb
  have hv := parseValue_one_end stod x h (n + 1)
  rw [parseValue]
  simp only [skipWhitespace, isJsonSpace, parseObjectWith, parseObjectLoop]
  simp [hs, skipWhitespace, isJsonSpace, hv, skipComma, parseObjectLoop]

/-- Counterexample to C17: on `{"a" 1}`, where the colon is missing, `parse` returns the
empty map, and on `{"a":1`, where the closing brace is missing, it returns the map with the
one member `a`; neither call throws. -/
theorem parse_returns_map_on_broken_object :
    parse stodDec "\x7b\"a\" 1\x7d".toList = .ok [] ∧
      parse stodDec "\x7b\"a\":1".toList = .ok [("a".toList, .num ⟨1, 0⟩)] :=
  ⟨rfl, rfl⟩

/-- C17 as the code has it: for every key `k` without `"` and `\`, `parse` returns the
empty map on `{"k" 1}` and the map of the one member `k` on `{"k":1`, as its loop is left
with `break`; the errors for the missing colon and the missing brace are those of
`parseValue` on the same texts, that is of `parseObject` and `isValid`. -/
theorem parse_leaves_loop_where_parseObject_throws {N : Type} (stod : Str → Option N)
    (x : N) (h : stod ['1'] = some x) (k : Str) (hq : '"' ∉ k) (hb : '\\' ∉ k) :
    parse stod ('{' :: '"' :: (k ++ ['"', ' ', '1', '}'])) = .ok [] ∧
      parse stod ('{' :: '"' :: (k ++ ['"', ':', '1'])) = .ok [(k, .num x)] ∧
      (∀ n, parseValue stod (n + 3) ('{' :: '"' :: (k ++ ['"', ' ', '1', '}']))
        = .error .expectedColon) ∧
      (∀ n, parseValue stod (n + 3) ('{' :: '"' :: (k ++ ['"', ':', '1']))
        = .error .expectedCloseBrace) ∧
      isValid stod ('{' :: '"' :: (k ++ ['"', ' ', '1', '}'])) = false ∧
      isValid stod ('{' :: '"' :: (k ++ ['"', ':', '1'])) = false := by
  refine ⟨parse_member_without_colon stod k hq hb,
    parse_object_without_brace stod x h k hq hb,
    parseValue_member_without_colon stod k hq hb,
    parseValue_object_without_brace stod x h k hq hb, ?_, ?_⟩
  · have hl : ('{' :: '"' :: (k ++ ['"', ' ', '1', '}'])).length + 1 = k.length + 4 + 3 := by
      simp
    simp only [isValid, hl]
    rw [skipWhitespace_of_not_space _ _ (by decide),
      parseValue_member_without_colon stod k hq hb]
  · have hl : ('{' :: '"' :: (k ++ ['"', ':', '1'])).length + 1 = k.length + 3 + 3 := by
      simp
    simp only [isValid, hl]
    rw [skipWhitespace_of_not_space _ _ (by decide),
      parseValue_object_without_brace stod x h k hq hb]

/-- Instance of the amended C17 with the key `a`. -/
theorem parse_leaves_loop_where_parseObject_throws_witness :
    parse stodDec "\x7b\"a\" 1\x7d".toList = .ok [] ∧
      parse stodDec "\x7b\"a\":1".toList = .ok [("a".toList, .num ⟨1, 0⟩)] ∧
      (∀ n, parseValue stodDec (n + 3) "\x7b\"a\" 1\x7d".toList = .error .expectedColon) ∧
      (∀ n, parseValue stodDec (n + 3) "\x7b\"a\":1".toList = .error .expectedCloseBrace) ∧
      isValid stodDec "\x7b\"a\" 1\x7d".toList = false ∧
      isValid stodDec "\x7b\"a\":1".toList = false :=
  parse_leaves_loop_where_parseObject_throws stodDec ⟨1, 0⟩ rfl "a".toList
    (by decide) (by decide)

/-! ## `JsonHandler`: what `parse` reads in the text `stringify` writes -/

theorem digitChar_isDigit (n : Nat) (h : n < 10) : (Nat.digitChar n).isDigit = true := by
  interval_cases n <;> decide

theorem toDigitsCore_digits (fuel n : Nat) (ds : Str)
    (h : ∀ c ∈ ds, c.isDigit = true) :
    ∀ c ∈ Nat.toDigitsCore 10 fuel n ds, c.isDigit = true := by
  induction fuel generalizing n ds with
  | zero => simpa [Nat.toDigitsCore] using h
  | succ fuel ih =>
    have hd : ∀ c ∈ Nat.digitChar (n % 10) :: ds, c.isDigit = true := by
      intro c hc
      rcases List.mem_cons.mp hc with rfl | hc
      · exact digitChar_isDigit _ (Nat.mod_lt _ (by decide))
      · exact h c hc
    simp only [Nat.toDigitsCore]
    split
    · exact hd
    · exact ih _ _ hd

theorem toDigitsCore_ne_nil (fuel n : Nat) (ds : Str) :
    Nat.toDigitsCore 10 (fuel + 1) n ds ≠ [] := by
  induction fuel generalizing n ds with
  | zero =>
    simp only [Nat.toDigitsCore]
    split <;> simp
  | succ fuel ih =>
    rw [Nat.toDigitsCore]
    split
    · simp
    · exact ih _ _

theorem toDigits_digits (n : Nat) : ∀ c ∈ Nat.toDigits 10 n, c.isDigit = true :=
  toDigitsCore_digits _ _ [] (by simp)

theorem toDigits_ne_nil (n : Nat) : Nat.toDigits 10 n ≠ [] :=
  toDigitsCore_ne_nil _ _ []

theorem takeDigits_digits (ds : Str) (h : ∀ c ∈ ds, c.isDigit = true) :
    takeDigits ds = (ds, []) := by
  induction ds with
  | nil => rfl
  | cons c cs ih =>
    have hc := h c (List.mem_cons_self _ _)
    have := ih (fun d hd => h d (List.mem_cons_of_mem _ hd))
    simp [takeDigits, hc, this]

theorem scanNumber_digits (ds : Str) (h : ∀ c ∈ ds, c.isDigit = true) :
    scanNumber ds = (ds, []) ∧ scanNumber ('-' :: ds) = ('-' :: ds, []) := by
  have ht := takeDigits_digits ds h
  constructor
  · cases ds with
    | nil => rfl
    | cons c cs =>
      have hc : (c == '-') = false := by
        have := h c (List.mem_cons_self _ _)
        rw [Bool.eq_false_iff]
        intro he
        rw [beq_iff_eq] at he
        subst he
        exact absurd this (by decide)
      simp [scanNumber, scanSign, hc, ht, scanFraction, scanExponent]
  · simp [scanNumber, scanSign, ht, scanFraction, scanExponent]

theorem scanNumber_intText (n : Int) : scanNumber (intText n) = (intText n, []) := by
  simp only [intText]
  split
  · exact (scanNumber_digits _ (toDigits_digits _)).2
  · exact (scanNumber_digits _ (toDigits_digits _)).1

theorem intText_head (n : Int) :
    ∃ c t, intText n = c :: t ∧ (c == '-' || c.isDigit) = true := by
  simp only [intText]
  split
  · exact ⟨'-', _, rfl, by decide⟩
  · cases hd : Nat.toDigits 10 n.natAbs with
    | nil => exact absurd hd (toDigits_ne_nil _)
    | cons c t =>
      have := toDigits_digits n.natAbs c (by rw [hd]; exact List.mem_cons_self _ _)
      exact ⟨c, t, rfl, by simp [this]⟩

theorem parseValue_number_text {N : Type} (stod : Str → Option N) (s : Str) (x : N)
    (hs : scanNumber s = (s, [])) (hh : ∃ c t, s = c :: t ∧ (c == '-' || c.isDigit) = true)
    (hx : stod s = some x) (f : Nat) :
    parseValue stod (f + 1) s = .ok (.num x, []) := by
  obtain ⟨c, t, rfl, hc⟩ := hh
  have hsp : isJsonSpace c = false := by
    rcases Bool.or_eq_true _ _ ▸ hc with h | h
    · rw [beq_iff_eq] at h
      subst h
      rfl
    · simp only [isJsonSpace]
      rw [Bool.eq_false_iff]
      intro h0
      simp only [Bool.or_eq_true, beq_iff_eq] at h0
      rcases h0 with ((rfl | rfl) | rfl) | rfl <;> exact absurd h (by decide)
  have h1 : (c == '{') = false ∧ (c == '[') = false ∧ (c == '"') = false ∧
      (c == 't' || c == 'f') = false ∧ (c == 'n') = false := by
    rcases Bool.or_eq_true _ _ ▸ hc with h | h
    · rw [beq_iff_eq] at h
      subst h
      decide
    · refine ⟨?_, ?_, ?_, ?_, ?_⟩ <;>
      · rw [Bool.eq_false_iff]
        intro h0
        simp only [Bool.or_eq_true, beq_iff_eq] at h0
        first
        | (subst h0; exact absurd h (by decide))
        | (rcases h0 with rfl | rfl <;> exact absurd h (by decide))
  rw [parseValue, skipWhitespace_of_not_space c t hsp]
  simp only [h1.1, h1.2.1, h1.2.2.1, h1.2.2.2.1, h1.2.2.2.2, hc, Bool.false_eq_true, if_false,
    if_true, parseNumber, hs, hx]

theorem parseStringLoop_escape (d : Char) (X s r : Str)
    (h : parseStringLoop X = .ok (s, r)) :
    parseStringLoop ('\\' :: d :: X) = .ok (parseEscape d ++ s, r) := by
  rw [parseStringLoop_cons]
  simp [h]

theorem parseStringLoop_char (c : Char) (X s r : Str) (h1 : c ≠ '"') (h2 : c ≠ '\\')
    (h : parseStringLoop X = .ok (s, r)) :
    parseStringLoop (c :: X) = .ok (c :: s, r) := by
  rw [parseStringLoop_cons]
  simp [h, h1, h2]

theorem parseStringLoop_escapeString (s rest : Str) (h : plainText s) :
    parseStringLoop (escapeString s ++ '"' :: rest) = .ok (s, rest) := by
  induction s with
  | nil => simp [escapeString, parseStringLoop_cons]
  | cons c cs ih =>
    have ih' := ih (fun d hd => h d (List.mem_cons_of_mem _ hd))
    have hc := h c (List.mem_cons_self _ _)
    simp only [escapeString, escapeChar]
    split_ifs with h1 h2 h3 h4 h5 h6 h7 h8
    · rw [beq_iff_eq] at h1
      subst h1
      exact parseStringLoop_escape _ _ _ _ ih'
    · rw [beq_iff_eq] at h2
      subst h2
      exact parseStringLoop_escape _ _ _ _ ih'
    · rw [beq_iff_eq] at h3
      subst h3
      exact parseStringLoop_escape _ _ _ _ ih'
    · rw [beq_iff_eq] at h4
      subst h4
      exact parseStringLoop_escape _ _ _ _ ih'
    · rw [beq_iff_eq] at h5
      subst h5
      exact parseStringLoop_escape _ _ _ _ ih'
    · rw [beq_iff_eq] at h6
      subst h6
      exact parseStringLoop_escape _ _ _ _ ih'
    · rw [beq_iff_eq] at h7
      subst h7
      exact parseStringLoop_escape _ _ _ _ ih'
    · exfalso
      rcases hc with hc | rfl | rfl | rfl | rfl | rfl
      · omega
      · exact h3 rfl
      · exact h4 rfl
      · exact h5 rfl
      · exact h6 rfl
      · exact h7 rfl
    · exact parseStringLoop_char c _ _ _ (by simpa using h1) (by simpa using h2) ih'

theorem parseValue_literal {N : Type} (stod : Str → Option N) (e : Str) (f : Nat) :
    parseValue stod (f + 1) ("null".toList ++ e) = .ok (.null, e) ∧
    parseValue stod (f + 1) ("true".toList ++ e) = .ok (.bool true, e) ∧
    parseValue stod (f + 1) ("false".toList ++ e) = .ok (.bool false, e) := by
  refine ⟨?_, ?_, ?_⟩ <;>
  · rw [parseValue]
    simp [skipWhitespace, isJsonSpace, parseNull, parseBoolean]

theorem parseValue_stringifyValue {N : Type} (stod : Str → Option N) (showDouble : N → Str)
    (ofInt : Int → N) (v : Json N)
    (hstr : ∀ s, v = .str s → plainText s)
    (hint : ∀ n, v = .int n → stod (intText n) = some (ofInt n))
    (hnum : ∀ x, v = .num x → parseValue stod 1 (showDouble x) = .ok (.num x, []))
    (e : Str) (he : StopsNumber e) (f : Nat) :
    parseValue stod (f + 1) (stringifyValue showDouble v ++ e) =
      .ok (readBack ofInt v, e) := by
  cases v with
  | null => exact (parseValue_literal stod e f).1
  | bool b =>
    cases b
    · exact (parseValue_literal stod e f).2.2
    · exact (parseValue_literal stod e f).2.1
  | int n =>
    have h1 := parseValue_number_text stod (intText n) (ofInt n) (scanNumber_intText n)
      (intText_head n) (hint n rfl) 0
    have := parseValue_append stod e 1 (f + 1) (by omega) _ _ _ h1 (Or.inr (Or.inl he))
    simpa [stringifyValue, readBack] using this
  | num x =>
    have := parseValue_append stod e 1 (f + 1) (by omega) _ _ _ (hnum x rfl)
      (Or.inr (Or.inl he))
    simpa [stringifyValue, readBack] using this
  | str s =>
    have := parseStringLoop_escapeString s e (hstr s rfl)
    rw [parseValue]
    simp [stringifyValue, readBack, skipWhitespace, isJsonSpace, parseString, this]
  | cstr s => exact (parseValue_literal stod e f).1
  | arr xs => exact (parseValue_literal stod e f).1
  | obj m => exact (parseValue_literal stod e f).1
theorem parseValue_skipWhitespace {N : Type} (stod : Str → Option N) (f : Nat) (s : Str) :
    parseValue stod f (skipWhitespace s) = parseValue stod f s := by
  cases f with
  | zero => rfl
  | succ f =>
    rw [parseValue, skipWhitespace_idem]
    conv_rhs => rw [parseValue]

theorem stringifyLoop_tail {N : Type} (showDouble : N → Str) (rest : List (Str × Json N))
    (e : Str) :
    skipComma (skipWhitespace (stringifyLoop showDouble false rest ++ '}' :: e)) =
      stringifyLoop showDouble true rest ++ '}' :: e ∧
    StopsNumber (stringifyLoop showDouble false rest ++ '}' :: e) := by
  cases rest with
  | nil =>
    refine ⟨rfl, ?_⟩
    simp only [stringifyLoop, List.nil_append, StopsNumber]
    decide
  | cons p rest =>
    constructor
    · simp [stringifyLoop, skipWhitespace, isJsonSpace, skipComma]
    · simp only [stringifyLoop, Bool.false_eq_true, if_false, List.cons_append,
        List.nil_append, List.append_assoc, StopsNumber]
      decide

theorem stringifyLoop_length {N : Type} (showDouble : N → Str) ( first : Bool)
    (V : List (Str × Json N)) : V.length ≤ (stringifyLoop showDouble first V).length := by
  induction V generalizing first with
  | nil => simp [stringifyLoop]
  | cons p rest ih =>
    have := ih false
    simp only [stringifyLoop, List.length_append, List.length_cons]
    omega

theorem parseLoop_stringifyLoop {N : Type} (stod : Str → Option N) (showDouble : N → Str)
    (ofInt : Int → N) (F : Nat) (V : List (Str × Json N))
    (hkey : ∀ p ∈ V, plainText p.1)
    (hstr : ∀ p ∈ V, ∀ s, p.2 = .str s → plainText s)
    (hint : ∀ p ∈ V, ∀ n, p.2 = .int n → stod (intText n) = some (ofInt n))
    (hnum : ∀ p ∈ V, ∀ x, p.2 = .num x →
      parseValue stod 1 (showDouble x) = .ok (.num x, []))
    (n : Nat) (hn : V.length < n) (acc : List (Str × Json N)) :
    parseLoop (fun s' => parseValue stod (F + 1) s') n
        (stringifyLoop showDouble true V ++ ['}']) acc =
      .ok (V.foldl (fun a p => anySet a p.1 (readBack ofInt p.2)) acc) := by
  induction V generalizing n acc with
  | nil =>
    obtain ⟨m, rfl⟩ : ∃ m, n = m + 1 := ⟨n - 1, by simp at hn; omega⟩
    rw [parseLoop_succ]
    simp [stringifyLoop]
  | cons p rest ih =>
    obtain ⟨m, rfl⟩ : ∃ m, n = m + 1 := ⟨n - 1, by omega⟩
    have hp := List.mem_cons_self p rest
    have htext : stringifyLoop showDouble true (p :: rest) ++ ['}'] =
        '"' :: (escapeString p.1 ++ '"' :: ':' ::
          (stringifyValue showDouble p.2 ++ (stringifyLoop showDouble false rest ++ ['}']))) := by
      simp [stringifyLoop]
    have hs : parseString ('"' :: (escapeString p.1 ++ '"' :: ':' ::
        (stringifyValue showDouble p.2 ++ (stringifyLoop showDouble false rest ++ ['}'])))) =
        .ok (p.1, ':' :: (stringifyValue showDouble p.2 ++
          (stringifyLoop showDouble false rest ++ ['}']))) := by
      simp [parseString, parseStringLoop_escapeString _ _ (hkey p hp)]
    have ht := stringifyLoop_tail showDouble rest []
    have hv := parseValue_stringifyValue stod showDouble ofInt p.2 (hstr p hp) (hint p hp)
      (hnum p hp) _ ht.2 F
    rw [htext, parseLoop_succ]
    simp only [show ('"' == '}') = false by decide, Bool.false_eq_true, if_false,
      skipWhitespace_of_not_space '"' _ (by decide), bne_self_eq_false, hs,
      skipWhitespace_of_not_space ':' _ (by decide), parseValue_skipWhitespace, hv, ht.1]
    exact ih (fun q hq => hkey q (List.mem_cons_of_mem _ hq))
      (fun q hq => hstr q (List.mem_cons_of_mem _ hq))
      (fun q hq => hint q (List.mem_cons_of_mem _ hq))
      (fun q hq => hnum q (List.mem_cons_of_mem _ hq)) m
      (by simp only [List.length_cons] at hn; omega) _

theorem anySet_new {β : Type} (acc : List (Str × β)) (k : Str) (v : β)
    (h : ∀ q ∈ acc, q.1 ≠ k) : anySet acc k v = acc ++ [(k, v)] := by
  induction acc with
  | nil => rfl
  | cons q rest ih =>
    obtain ⟨k', v'⟩ := q
    have h1 : k' ≠ k := h (k', v') (List.mem_cons_self _ _)
    simp [anySet, h1, ih (fun q hq => h q (List.mem_cons_of_mem _ hq))]

theorem foldl_anySet {β γ : Type} (g : γ → β) (V : List (Str × γ)) (acc : List (Str × β))
    (h : ∀ p ∈ V, ∀ q ∈ acc, q.1 ≠ p.1) (hnd : (V.map Prod.fst).Nodup) :
    V.foldl (fun a p => anySet a p.1 (g p.2)) acc = acc ++ V.map (fun p => (p.1, g p.2)) := by
  induction V generalizing acc with
  | nil => simp
  | cons p rest ih =>
    rw [List.map_cons, List.nodup_cons] at hnd
    rw [List.foldl_cons, anySet_new acc p.1 _ (h p (List.mem_cons_self _ _)), ih]
    · simp
    · intro p' hp' q hq
      rcases List.mem_append.mp hq with hq | hq
      · exact h p' (List.mem_cons_of_mem _ hp') q hq
      · rw [List.mem_singleton] at hq
        subst hq
        intro he
        exact hnd.1 (he ▸ List.mem_map_of_mem Prod.fst hp')
    · exact hnd.2

/-- Counterexample to C12: a member that holds an array comes back from `stringify` and
`parse` as `null`, and a string with the character 1 comes back as the six characters
`\u0001`. -/
theorem parse_stringify_loses_values :
    parse stodDec (stringify showDec [("a".toList, .arr [.bool true])]) =
        .ok [("a".toList, .null)] ∧
      parse stodDec (stringify showDec [("a".toList, .str [Char.ofNat 1])]) =
        .ok [("a".toList, .str "\\u0001".toList)] :=
  ⟨rfl, rfl⟩

/-- C12 as the code has it: for a map with distinct keys whose keys and strings hold no
character that `escapeString` writes as `\u`, whose `int` members `n` have a text that
`stod` converts to `ofInt n`, and whose `double` members are read back from their text,
`parse (stringify V)` returns the members of `V` in their order, each with the value
`readBack` gives: an `int` as that `double`, a `double`, a string and a `bool` unchanged,
and anything else, an array or an object among them, as `null`. -/
theorem parse_stringify_readBack {N : Type} (stod : Str → Option N) (showDouble : N → Str)
    (ofInt : Int → N) (V : List (Str × Json N))
    (hnd : (V.map Prod.fst).Nodup)
    (hkey : ∀ p ∈ V, plainText p.1)
    (hstr : ∀ p ∈ V, ∀ s, p.2 = .str s → plainText s)
    (hint : ∀ p ∈ V, ∀ n, p.2 = .int n → stod (intText n) = some (ofInt n))
    (hnum : ∀ p ∈ V, ∀ x, p.2 = .num x →
      parseValue stod 1 (showDouble x) = .ok (.num x, [])) :
    parse stod (stringify showDouble V) =
      .ok (V.map (fun p => (p.1, readBack ofInt p.2))) := by
  have hw : skipWhitespace (stringifyLoop showDouble true V ++ ['}']) =
      stringifyLoop showDouble true V ++ ['}'] := by
    cases V with
    | nil => rfl
    | cons p rest => simp [stringifyLoop, skipWhitespace, isJsonSpace]
  have hl := stringifyLoop_length showDouble true V
  have := parseLoop_stringifyLoop stod showDouble ofInt (stringify showDouble V).length V
    hkey hstr hint hnum ((stringify showDouble V).length + 1)
    (by simp only [stringify, List.length_cons, List.length_append]; omega) []
  rw [foldl_anySet (readBack ofInt) V [] (by simp) hnd] at this
  have hs0 : skipWhitespace (stringify showDouble V) =
      '{' :: (stringifyLoop showDouble true V ++ ['}']) :=
    skipWhitespace_of_not_space '{' _ (by decide)
  simp only [parse, hs0, bne_self_eq_false, Bool.false_eq_true, if_false, hw]
  simpa using this
/-- Instance of the amended C12: the map of an `int`, a string, a `bool`, a `double` and an
array is written as `{"id":4,"name":"Ann","ok":true,"x":25e-1,"tags":null}` and read
back with the `int` as a `double` and the array as `null`. -/
theorem parse_stringify_readBack_witness :
    stringify showDec [("id".toList, .int 4), ("name".toList, .str "Ann".toList),
        ("ok".toList, .bool true), ("x".toList, .num ⟨25, -1⟩),
        ("tags".toList, .arr [.str "a".toList])] =
      "\x7b\"id\":4,\"name\":\"Ann\",\"ok\":true,\"x\":25e-1,\"tags\":null\x7d".toList ∧
    parse stodDec (stringify showDec [("id".toList, .int 4),
        ("name".toList, .str "Ann".toList), ("ok".toList, .bool true),
        ("x".toList, .num ⟨25, -1⟩), ("tags".toList, .arr [.str "a".toList])]) =
      .ok [("id".toList, .num ⟨4, 0⟩), ("name".toList, .str "Ann".toList),
        ("ok".toList, .bool true), ("x".toList, .num ⟨25, -1⟩), ("tags".toList, .null)] :=
  ⟨by decide,
    parse_stringify_readBack stodDec showDec (fun n => ⟨n, 0⟩)
      [("id".toList, .int 4), ("name".toList, .str "Ann".toList),
        ("ok".toList, .bool true), ("x".toList, .num ⟨25, -1⟩),
        ("tags".toList, .arr [.str "a".toList])]
      (by decide)
      (by
        intro p hp
        simp only [List.mem_cons, List.mem_singleton, List.not_mem_nil, or_false] at hp
        rcases hp with rfl | rfl | rfl | rfl | rfl <;> (unfold plainText; decide))
      (by
        intro p hp s hs
        simp only [List.mem_cons, List.mem_singleton, List.not_mem_nil, or_false] at hp
        rcases hp with rfl | rfl | rfl | rfl | rfl <;> cases hs
        unfold plainText
        decide)
      (by
        intro p hp n hs
        simp only [List.mem_cons, List.mem_singleton, List.not_mem_nil, or_false] at hp
        rcases hp with rfl | rfl | rfl | rfl | rfl <;> cases hs
        rfl)
      (by
        intro p hp x hs
        simp only [List.mem_cons, List.mem_singleton, List.not_mem_nil, or_false] at hp
        rcases hp with rfl | rfl | rfl | rfl | rfl <;> cases hs
        rfl)⟩

theorem parseLoop_fuel {N : Type} (pv : Str → Except JsonError (Json N × Str))
    (B : Nat) (hpv : ∀ s v r, pv s = .ok (v, r) → r.length < s.length)
    (hf : ∀ s, s.length < B → pv s ≠ .error .outOfFuel)
    (n : Nat) (s : Str) (acc : List (Str × Json N)) (hn : s.length < n) (hB : s.length < B) :
    parseLoop pv n s acc ≠ .error .outOfFuel := by
  induction n generalizing s acc with
  | zero => omega
  | succ n ih =>
    rw [parseLoop_succ]
    cases s with
    | nil => simp
    | cons c t =>
      simp only
      split
      · simp
      · have hw := skipWhitespace_length (c :: t)
        cases hs1 : skipWhitespace (c :: t) with
        | nil => simp
        | cons q t1 =>
          rw [hs1] at hw
          simp only
          split
          · simp
          · cases hps : parseString (q :: t1) with
            | error e =>
              have := parseString_error _ _ hps
              simp [this]
            | ok p =>
              obtain ⟨key, s2⟩ := p
              simp only
              have l2 := parseString_length _ _ _ hps
              have hw2 := skipWhitespace_length s2
              cases hs3 : skipWhitespace s2 with
              | nil => simp
              | cons d t3 =>
                rw [hs3] at hw2
                simp only
                split
                · simp
                · have hw3 := skipWhitespace_length t3
                  simp only [List.length_cons] at *
                  cases hv : pv (skipWhitespace t3) with
                  | error e =>
                    have := hf (skipWhitespace t3) (by omega)
                    rw [hv] at this
                    simpa using this
                  | ok p =>
                    obtain ⟨v, s5⟩ := p
                    simp only
                    have l5 := hpv _ _ _ hv
                    have l7 := skipComma_length (skipWhitespace s5)
                    have l8 := skipWhitespace_length s5
                    exact ih _ _ (by omega) (by omega)

/-- The fuel `parse` gives to its loop and to `parseValue` is never used up: what `parse`
returns is a map or an error of the source. -/
theorem parse_fuel {N : Type} (stod : Str → Option N) (json : Str) :
    parse stod json ≠ .error .outOfFuel := by
  simp only [parse]
  have hw := skipWhitespace_length json
  cases hs : skipWhitespace json with
  | nil => simp
  | cons c t =>
    rw [hs] at hw
    have l2 := skipWhitespace_length t
    simp only [List.length_cons] at hw
    simp only
    split
    · simp
    · exact parseLoop_fuel _ (json.length + 1)
        (fun s v r hh => parseValue_length stod _ s v r hh)
        (fun s hs => parseValue_fuel stod _ s hs) _ _ _ (by omega) (by omega)

/-! ## `Response`: status, headers and `send` -/

theorem mapFind_mapSet_ne (d : List (Str × Str)) (k k' v : Str) (h : k' ≠ k) :
    mapFind (mapSet d k' v) k = mapFind d k := by
  induction d with
  | nil => simp [mapSet, mapFind, h]
  | cons kv rest ih =>
    obtain ⟨k1, v1⟩ := kv
    by_cases h1 : k1 = k'
    · subst h1
      simp [mapSet, mapFind, h]
    · by_cases h2 : k1 = k
      · subst h2
        simp [mapSet, mapFind, h1]
      · simp [mapSet, mapFind, h1, h2, ih]

theorem lookup_cons_ne (code n : Int) (t : Str) (rest : List (Int × Str)) (h : ¬code = n) :
    List.lookup code ((n, t) :: rest) = List.lookup code rest := by
  have : (code == n) = false := by simpa using h
  simp [List.lookup, this]

theorem getStatusText_table (code : Int) :
    getStatusText code =
      match initializeStatusTexts.lookup code with
      | some text => text
      | none => "Unknown".toList := by
  unfold getStatusText initializeStatusTexts
  by_cases h1 : code = 200
  · subst h1; rfl
  rw [if_neg h1, lookup_cons_ne _ _ _ _ h1]
  by_cases h2 : code = 201
  · subst h2; rfl
  rw [if_neg h2, lookup_cons_ne _ _ _ _ h2]
  by_cases h3 : code = 204
  · subst h3; rfl
  rw [if_neg h3, lookup_cons_ne _ _ _ _ h3]
  by_cases h4 : code = 301
  · subst h4; rfl
  rw [if_neg h4, lookup_cons_ne _ _ _ _ h4]
  by_cases h5 : code = 302
  · subst h5; rfl
  rw [if_neg h5, lookup_cons_ne _ _ _ _ h5]
  by_cases h6 : code = 400
  · subst h6; rfl
  rw [if_neg h6, lookup_cons_ne _ _ _ _ h6]
  by_cases h7 : code = 401
  · subst h7; rfl
  rw [if_neg h7, lookup_cons_ne _ _ _ _ h7]
  by_cases h8 : code = 403
  · subst h8; rfl
  rw [if_neg h8, lookup_cons_ne _ _ _ _ h8]
  by_cases h9 : code = 404
  · subst h9; rfl
  rw [if_neg h9, lookup_cons_ne _ _ _ _ h9]
  by_cases h10 : code = 500
  · subst h10; rfl
  rw [if_neg h10, lookup_cons_ne _ _ _ _ h10]
  by_cases h11 : code = 501
  · subst h11; rfl
  rw [if_neg h11, lookup_cons_ne _ _ _ _ h11]
  by_cases h12 : code = 502
  · subst h12; rfl
  rw [if_neg h12, lookup_cons_ne _ _ _ _ h12]
  by_cases h13 : code = 503
  · subst h13; rfl
  rw [if_neg h13, lookup_cons_ne _ _ _ _ h13]
  rfl
/-- C24: `Response::status` stores the code and the phrase of the table, `Unknown` for a
code that is not in it, and `Utils::getHttpStatusText` returns the same phrase, whether
its static map is still empty or already filled. -/
theorem status_sets_code_and_phrase (res : Response) (code : Int) :
    (res.status code).statusCode = code ∧
    (res.status code).statusMessage =
      (match List.lookup code
          [(200, "OK".toList), (201, "Created".toList), (204, "No Content".toList),
           (301, "Moved Permanently".toList), (302, "Found".toList),
           (400, "Bad Request".toList), (401, "Unauthorized".toList),
           (403, "Forbidden".toList), (404, "Not Found".toList),
           (500, "Internal Server Error".toList), (501, "Not Implemented".toList),
           (502, "Bad Gateway".toList), (503, "Service Unavailable".toList)] with
        | some text => text
        | none => "Unknown".toList) ∧
    (res.status code).headers = res.headers ∧ (res.status code).body = res.body ∧
    (getHttpStatusText [] code).1 = (res.status code).statusMessage ∧
    (getHttpStatusText initializeStatusTexts code).1 = (res.status code).statusMessage ∧
    (getHttpStatusText [] code).2 = initializeStatusTexts ∧
    (getHttpStatusText initializeStatusTexts code).2 = initializeStatusTexts := by
  have ht := getStatusText_table code
  refine ⟨rfl, ht, rfl, rfl, ?_, ?_, rfl, rfl⟩
  · exact ht.symm
  · exact ht.symm

theorem setDefaultHeaders_keeps_contentType (res : Response) (v : Str)
    (h : mapFind res.headers "Content-Type".toList = some v) :
    mapFind res.setDefaultHeaders.headers "Content-Type".toList = some v := by
  have e1 : normalizeHeaderName "Server".toList = "Server".toList := by decide
  have e2 : normalizeHeaderName "Connection".toList = "Connection".toList := by decide
  simp only [Response.setDefaultHeaders, h, Option.isNone_some, Bool.false_eq_true, if_false,
    Response.set, e1, e2]
  rw [mapFind_mapSet_ne _ _ _ _ (by decide), mapFind_mapSet_ne _ _ _ _ (by decide), h]

/-- C25: a fresh `Response` has status 200 `OK`, an empty body and the three headers
`Content-Type: text/plain`, `Server: HttpApi/1.0`, `Connection: close`; `clear()` turns
every `Response` into the fresh one; and `setDefaultHeaders` leaves a `Content-Type` that is
already in the map as it is. -/
theorem fresh_response_defaults (res other : Response) (v : Str)
    (h : mapFind other.headers "Content-Type".toList = some v) :
    Response.new.statusCode = 200 ∧ Response.new.statusMessage = "OK".toList ∧
    Response.new.body = [] ∧
    Response.new.headers =
      [("Content-Type".toList, "text/plain".toList), ("Server".toList, "HttpApi/1.0".toList),
       ("Connection".toList, "close".toList)] ∧
    res.clear = Response.new ∧
    mapFind other.setDefaultHeaders.headers "Content-Type".toList = some v :=
  ⟨rfl, rfl, rfl, by decide, rfl, setDefaultHeaders_keeps_contentType other v h⟩

/-- Instance of C25: the `Content-Type: application/json` of a response stays after
`setDefaultHeaders`. -/
theorem fresh_response_defaults_witness :
    (Response.new.send "x".toList).clear = Response.new ∧
    mapFind (Response.new.set "content-type".toList
      "application/json".toList).setDefaultHeaders.headers "Content-Type".toList =
        some "application/json".toList :=
  ⟨(fresh_response_defaults (Response.new.send "x".toList)
      (Response.new.set "content-type".toList "application/json".toList)
      "application/json".toList (by decide)).2.2.2.2.1,
   (fresh_response_defaults (Response.new.send "x".toList)
      (Response.new.set "content-type".toList "application/json".toList)
      "application/json".toList (by decide)).2.2.2.2.2⟩

theorem mapSet_filter_ne (d : List (Str × Str)) (k v : Str) :
    (mapSet d k v).filter (fun e => decide (e.1 ≠ k)) = d.filter (fun e => decide (e.1 ≠ k)) := by
  induction d with
  | nil => simp [mapSet]
  | cons kv rest ih =>
    obtain ⟨k1, v1⟩ := kv
    by_cases h1 : k1 = k
    · subst h1
      simp [mapSet]
    · have ih' := ih
      simp only [ne_eq, decide_not] at ih'
      simp [mapSet, h1, ih']

theorem mapSet_filter_eq (d : List (Str × Str)) (k v : Str) (hnd : (d.map Prod.fst).Nodup) :
    (mapSet d k v).filter (fun e => decide (e.1 = k)) = [(k, v)] := by
  induction d with
  | nil => simp [mapSet]
  | cons kv rest ih =>
    obtain ⟨k1, v1⟩ := kv
    rw [List.map_cons, List.nodup_cons] at hnd
    by_cases h1 : k1 = k
    · subst h1
      have : rest.filter (fun e => decide (e.1 = k1)) = [] := by
        rw [List.filter_eq_nil_iff]
        intro e he hk
        simp only [decide_eq_true_eq] at hk
        exact hnd.1 (List.mem_map.mpr ⟨e, he, hk⟩)
      simp [mapSet, this]
    · simp [mapSet, h1, ih hnd.2]

theorem mapSet_keys (d : List (Str × Str)) (k v : Str) :
    (mapSet d k v).map Prod.fst =
      if k ∈ d.map Prod.fst then d.map Prod.fst else d.map Prod.fst ++ [k] := by
  induction d with
  | nil => simp [mapSet]
  | cons kv rest ih =>
    obtain ⟨k1, v1⟩ := kv
    by_cases h1 : k1 = k
    · subst h1
      simp [mapSet]
    · have h2 : ¬k = k1 := fun h => h1 h.symm
      simp only [mapSet, h1, if_false, List.map_cons, ih, List.mem_cons, h2, false_or]
      split <;> simp

theorem mapSet_nodup (d : List (Str × Str)) (k v : Str) (hnd : (d.map Prod.fst).Nodup) :
    ((mapSet d k v).map Prod.fst).Nodup := by
  rw [mapSet_keys]
  split
  · exact hnd
  · rename_i hk
    rw [List.nodup_append]
    refine ⟨hnd, List.nodup_singleton k, ?_⟩
    intro x hx hx'
    rw [List.mem_singleton] at hx'
    exact hk (hx' ▸ hx)


/-- C26: when `a` and `b` are equal after lower-casing, `set(a, v)` followed by `set(b, w)`
leaves one entry for the name, under the key `normalizeHeaderName` gives (`Content-Type` for
`content-type`), with the value `w`; the other entries are as they were, and the keys of
the map stay distinct. -/
theorem set_last_write_wins (res : Response) (a b v w : Str)
    (hab : toLowerCase a = toLowerCase b) (hnd : (res.headers.map Prod.fst).Nodup) :
    normalizeHeaderName b = normalizeHeaderName a ∧
    ((res.set a v).set b w).headers.filter (fun e => decide (e.1 = normalizeHeaderName a)) =
      [(normalizeHeaderName a, w)] ∧
    ((res.set a v).set b w).headers.filter (fun e => decide (e.1 ≠ normalizeHeaderName a)) =
      res.headers.filter (fun e => decide (e.1 ≠ normalizeHeaderName a)) ∧
    (∀ k, k ≠ normalizeHeaderName a →
      mapFind ((res.set a v).set b w).headers k = mapFind res.headers k) ∧
    mapFind ((res.set a v).set b w).headers (normalizeHeaderName a) = some w ∧
    (((res.set a v).set b w).headers.map Prod.fst).Nodup ∧
    normalizeHeaderName "content-type".toList = "Content-Type".toList := by
  have hk : normalizeHeaderName b = normalizeHeaderName a := by
    simp only [normalizeHeaderName, hab]
  simp only [Response.set, hk]
  refine ⟨trivial, ?_, ?_, ?_, ?_, ?_, by decide⟩
  · exact mapSet_filter_eq _ _ _ (mapSet_nodup _ _ _ hnd)
  · rw [mapSet_filter_ne, mapSet_filter_ne]
  · intro k hne
    rw [mapFind_mapSet_ne _ _ _ _ (fun h => hne h.symm),
      mapFind_mapSet_ne _ _ _ _ (fun h => hne h.symm)]
  · exact mapFind_mapSet _ _ _
  · exact mapSet_nodup _ _ _ (mapSet_nodup _ _ _ hnd)

/-- Instance of C26: `set("content-type", "a")` and then `set("CONTENT-TYPE", "b")` on a
fresh response. -/
theorem set_last_write_wins_witness :
    ((Response.new.set "content-type".toList "a".toList).set "CONTENT-TYPE".toList
        "b".toList).headers =
      [("Content-Type".toList, "b".toList), ("Server".toList, "HttpApi/1.0".toList),
       ("Connection".toList, "close".toList)] ∧
    ((Response.new.set "content-type".toList "a".toList).set "CONTENT-TYPE".toList
        "b".toList).headers.filter
        (fun e => decide (e.1 = normalizeHeaderName "content-type".toList)) =
      [(normalizeHeaderName "content-type".toList, "b".toList)] :=
  ⟨by decide,
   (set_last_write_wins Response.new "content-type".toList "CONTENT-TYPE".toList "a".toList
      "b".toList (by decide) (by decide)).2.1⟩

/-- Counterexample to C22: after `send("abc")`, a further `send("hello")` stores the body
`hello` and leaves `Content-Length` at `3`. -/
theorem second_send_keeps_content_length :
    ((Response.new.send "abc".toList).send "hello".toList).body = "hello".toList ∧
    mapFind ((Response.new.send "abc".toList).send "hello".toList).headers
      "Content-Length".toList = some "3".toList := by
  decide

/-- C22 as the code has it: on a `Response` whose headers are not yet marked as sent,
`send(data)` stores `data` as the body, sets `Content-Length` to the decimal digits of the
length of `data` and marks the headers as sent. -/
theorem send_sets_content_length (res : Response) (data : Str)
    (h : res.headersSent = false) :
    (res.send data).body = data ∧
    mapFind (res.send data).headers "Content-Length".toList =
      some (Nat.toDigits 10 data.length) ∧
    (res.send data).headersSent = true := by
  have e : normalizeHeaderName "Content-Length".toList = "Content-Length".toList := by decide
  have hm := mapFind_mapSet res.headers "Content-Length".toList (Nat.toDigits 10 data.length)
  simp only [Response.send, Response.set, h, Bool.not_false, if_true, e, hm, and_self]

/-- Instance of the amended C22: `send("hello")` on a fresh response. -/
theorem send_sets_content_length_witness :
    (Response.new.send "hello".toList).body = "hello".toList ∧
    mapFind (Response.new.send "hello".toList).headers "Content-Length".toList =
      some "5".toList ∧
    (Response.new.send "hello".toList).headersSent = true :=
  send_sets_content_length Response.new "hello".toList rfl

theorem toString_eq (res : Response) :
    res.toString = ("HTTP/1.1 ".toList ++ intText res.statusCode ++ [' '] ++
      res.statusMessage ++ ['\r', '\n'] ++ headerLines res.headers ++ ['\r', '\n']) ++
      res.body := by
  cases hb : res.body with
  | nil => simp [Response.toString, hb]
  | cons c cs => simp [Response.toString, hb]

/-- Counterexample to C23: after `send("a")` on a fresh response, `send("bb")` changes the
text `toString()` returns: the body is `bb`, under the `Content-Length: 1` of the first
call. -/
theorem second_send_changes_output :
    ((Response.new.send "a".toList).send "bb".toList).toString ≠
      (Response.new.send "a".toList).toString ∧
    ((Response.new.send "a".toList).send "bb".toList).toString =
      ("HTTP/1.1 200 OK\r\nContent-Type: text/plain\r\nServer: HttpApi/1.0\r\n" ++
        "Connection: close\r\nContent-Length: 1\r\n\r\nbb").toList := by
  decide

/-- C23 as the code has it: after `send(a)`, a further `send(b)` replaces the body by `b`
and changes nothing else: the status line and the header lines of `toString()` are as
before, `Content-Length` is not set again, and the text after the blank line is `b`; the
whole text is as before exactly when `b` is `a`. -/
theorem second_send_replaces_body (res : Response) (a b : Str) :
    (res.send a).send b = { res.send a with body := b } ∧
    ((res.send a).send b).headers = (res.send a).headers ∧
    ((res.send a).send b).toString =
      ("HTTP/1.1 ".toList ++ intText (res.send a).statusCode ++ [' '] ++
        (res.send a).statusMessage ++ ['\r', '\n'] ++ headerLines (res.send a).headers ++
        ['\r', '\n']) ++ b ∧
    (((res.send a).send b).toString = (res.send a).toString ↔ b = a) := by
  have h1 : (res.send a).send b = { res.send a with body := b } := by
    cases hs : res.headersSent <;> simp [Response.send, Response.set, hs]
  have hb : (res.send a).body = a := (send_fields res a).2.2
  refine ⟨h1, by rw [h1], by rw [h1, toString_eq], ?_⟩
  rw [h1, toString_eq, toString_eq]
  simp only [hb, List.append_cancel_left_eq]

/-! ## `Utils::split`: the pieces between the delimiters -/

theorem getline_cons (d c : Char) (cs : Str) :
    ∃ item rest, getline d (c :: cs) = some (item, rest) ∧ rest.length ≤ cs.length := by
  induction cs generalizing c with
  | nil =>
    by_cases h : (c == d) = true
    · exact ⟨[], [], by simp [getline, h], le_refl _⟩
    · exact ⟨[c], [], by simp [getline, h], le_refl _⟩
  | cons x xs ih =>
    by_cases h : (c == d) = true
    · exact ⟨[], x :: xs, by simp [getline, h], le_refl _⟩
    · obtain ⟨item, rest, hg, hl⟩ := ih x
      refine ⟨c :: item, rest, ?_, ?_⟩
      · rw [getline]
        simp only [h, Bool.false_eq_true, if_false, hg]
      · simp only [List.length_cons]
        omega

theorem splitLoop_fuel (d : Char) (n m : Nat) (s : Str) (hn : s.length ≤ n)
    (hm : s.length ≤ m) : splitLoop d n s = splitLoop d m s := by
  induction n generalizing m s with
  | zero =>
    have : s = [] := List.length_eq_zero.mp (by omega)
    subst this
    cases m <;> simp [splitLoop, getline]
  | succ n ih =>
    cases s with
    | nil => cases m <;> simp [splitLoop, getline]
    | cons c cs =>
      obtain ⟨k, rfl⟩ : ∃ k, m = k + 1 := ⟨m - 1, by simp at hm; omega⟩
      obtain ⟨item, rest, hg, hl⟩ := getline_cons d c cs
      simp only [List.length_cons] at hn hm
      simp only [splitLoop, hg]
      rw [ih k rest (by omega) (by omega)]

theorem splitLoop_succ (d : Char) (n : Nat) (s : Str) :
    splitLoop d (n + 1) s =
      match getline d s with
      | some (item, rest) => item :: splitLoop d n rest
      | none => [] := rfl

theorem split_nil (d : Char) : split [] d = [] := rfl

theorem split_cons_delim (d : Char) (cs : Str) : split (d :: cs) d = [] :: split cs d := by
  simp [split, splitLoop, getline]

theorem split_cons (d c : Char) (cs : Str) (h : c ≠ d) :
    split (c :: cs) d =
      match split cs d with
      | [] => [[c]]
      | item :: rest => (c :: item) :: rest := by
  have hc : (c == d) = false := by simpa using h
  cases cs with
  | nil => simp [split, splitLoop, getline, hc]
  | cons x xs =>
    obtain ⟨item, rest, hg, hl⟩ := getline_cons d x xs
    have h1 : getline d (c :: x :: xs) = some (c :: item, rest) := by
      rw [getline]
      simp only [hc, Bool.false_eq_true, if_false, hg]
    simp only [split, List.length_cons]
    rw [splitLoop_succ, h1, splitLoop_succ d xs.length, hg]
    simp only
    rw [splitLoop_fuel d (xs.length + 1) xs.length rest (by omega) hl]

theorem split_eq_nil (d : Char) (s : Str) : split s d = [] ↔ s = [] := by
  constructor
  · intro h
    cases s with
    | nil => rfl
    | cons c cs =>
      obtain ⟨item, rest, hg, _⟩ := getline_cons d c cs
      simp [split, splitLoop, hg] at h
  · rintro rfl
    rfl

theorem split_append_delim (d : Char) (p rest : Str) (hp : d ∉ p) :
    split (p ++ d :: rest) d = p :: split rest d := by
  induction p with
  | nil => exact split_cons_delim d rest
  | cons c cs ih =>
    have hc : c ≠ d := fun h => hp (by simp [h])
    rw [List.cons_append, split_cons d c _ hc, ih (fun h => hp (List.mem_cons_of_mem _ h))]

theorem split_no_delim (d : Char) (p : Str) (hp : d ∉ p) (hne : p ≠ []) : split p d = [p] := by
  induction p with
  | nil => exact absurd rfl hne
  | cons c cs ih =>
    have hc : c ≠ d := fun h => hp (by simp [h])
    rw [split_cons d c _ hc]
    cases cs with
    | nil => rfl
    | cons x xs => rw [ih (fun h => hp (List.mem_cons_of_mem _ h)) (by simp)]

/-! ## `find`, `Utils::parseUrl` -/

theorem findChar_eq_none (c : Char) (s : Str) : findChar c s = none ↔ c ∉ s := by
  induction s with
  | nil => simp [findChar]
  | cons x xs ih =>
    by_cases h : x = c
    · subst h
      simp [findChar]
    · have h' : ¬c = x := fun e => h e.symm
      simp [findChar, h, h', ih]

theorem findChar_eq_some (c : Char) (s : Str) (i : Nat) (h : findChar c s = some i) :
    c ∉ s.take i ∧ s.take i ++ c :: s.drop (i + 1) = s := by
  induction s generalizing i with
  | nil => simp [findChar] at h
  | cons x xs ih =>
    by_cases hx : x = c
    · subst hx
      simp only [findChar, beq_self_eq_true, if_true, Option.some.injEq] at h
      subst h
      simp
    · have hb : (x == c) = false := by simpa using hx
      simp only [findChar, hb, Bool.false_eq_true, if_false, Option.map_eq_some'] at h
      obtain ⟨j, hj, rfl⟩ := h
      obtain ⟨h1, h2⟩ := ih j hj
      have h' : ¬c = x := fun e => hx e.symm
      refine ⟨?_, ?_⟩
      · simp only [List.take_succ_cons, List.mem_cons, not_or]
        exact ⟨h', h1⟩
      · simp only [List.take_succ_cons, List.drop_succ_cons, List.cons_append, h2]

theorem findChar_append (c : Char) (p q : Str) (hp : c ∉ p) :
    findChar c (p ++ c :: q) = some p.length := by
  induction p with
  | nil => simp [findChar]
  | cons x xs ih =>
    have hx : (x == c) = false := by
      have : x ≠ c := fun e => hp (by simp [e])
      simpa using this
    simp [findChar, hx, ih (fun h => hp (List.mem_cons_of_mem _ h))]

/-- C28: `parseUrl` returns the target and an empty query string when the target has no
`?`; otherwise the first part has no `?`, and the first part, a `?` and the second part
make up the target. -/
theorem parseUrl_splits_at_first_mark (url : Str) :
    ('?' ∉ url → parseUrl url = (url, [])) ∧
    ('?' ∈ url → '?' ∉ (parseUrl url).1 ∧ (parseUrl url).1 ++ '?' :: (parseUrl url).2 = url) := by
  constructor
  · intro h
    simp [parseUrl, (findChar_eq_none '?' url).mpr h]
  · intro h
    cases hf : findChar '?' url with
    | none => exact absurd h ((findChar_eq_none '?' url).mp hf)
    | some i =>
      simp only [parseUrl, hf]
      exact findChar_eq_some '?' url i hf

/-- Instance of C28: the target `/a?b?c` gives `/a` and `b?c`, the target `/a` gives `/a`
and the empty text. -/
theorem parseUrl_splits_at_first_mark_witness :
    parseUrl "/a".toList = ("/a".toList, []) ∧
    ('?' ∉ (parseUrl "/a?b?c".toList).1 ∧
      (parseUrl "/a?b?c".toList).1 ++ '?' :: (parseUrl "/a?b?c".toList).2 = "/a?b?c".toList) ∧
    parseUrl "/a?b?c".toList = ("/a".toList, "b?c".toList) :=
  ⟨(parseUrl_splits_at_first_mark "/a".toList).1 (by decide),
   (parseUrl_splits_at_first_mark "/a?b?c".toList).2 (by decide), by decide⟩

/-! ## Maps filled by a loop: the last binding of a key wins -/

theorem mapFind_foldl_mapSet (bs : List (Str × Str)) (m : List (Str × Str)) (k : Str) :
    mapFind (bs.foldl (fun m b => mapSet m b.1 b.2) m) k =
      match (bs.filter (fun b => decide (b.1 = k))).getLast? with
      | some b => some b.2
      | none => mapFind m k := by
  induction bs using List.reverseRecOn with
  | nil => rfl
  | append_singleton bs b ih =>
    rw [List.foldl_append, List.foldl_cons, List.foldl_nil, List.filter_append]
    by_cases hb : b.1 = k
    · subst hb
      simp [mapFind_mapSet]
    · rw [mapFind_mapSet_ne _ _ _ _ hb, ih]
      simp [hb]

/-! ## `Request::parseQueryString` -/

theorem joinFrom_pos (sep : Str) (i j : Nat) (hi : 0 < i) (hj : 0 < j) (ps : List Str) :
    joinFrom sep i ps = joinFrom sep j ps := by
  induction ps generalizing i j with
  | nil => rfl
  | cons p ps ih =>
    simp only [joinFrom, hi, hj, if_true]
    rw [ih (i + 1) (j + 1) (by omega) (by omega)]

theorem foldl_split_joinFrom (d : Char) {β : Type} (f : β → Str → β)
    (hf : ∀ m, f m [] = m) (ps : List Str) (p : Str) (m : β)
    (hp : d ∉ p) (hps : ∀ q ∈ ps, d ∉ q) :
    (split (p ++ joinFrom [d] 1 ps) d).foldl f m = (p :: ps).foldl f m := by
  induction ps generalizing p m with
  | nil =>
    simp only [joinFrom, List.append_nil, List.foldl_cons, List.foldl_nil]
    by_cases hn : p = []
    · subst hn
      rw [split_nil, hf]
      rfl
    · rw [split_no_delim d p hp hn]
      rfl
  | cons q qs ih =>
    have e : joinFrom [d] 1 (q :: qs) = d :: (q ++ joinFrom [d] 1 qs) := by
      simp only [joinFrom, Nat.lt_irrefl, Nat.zero_lt_one, if_true, List.singleton_append,
        List.cons_append, List.append_assoc]
      rw [joinFrom_pos [d] (1 + 1) 1 (by omega) (by omega)]
      rfl
    rw [e, split_append_delim d p _ hp, List.foldl_cons,
      ih q (f m p) (hps q (List.mem_cons_self _ _))
        (fun x hx => hps x (List.mem_cons_of_mem _ hx))]
    rfl

theorem foldl_split_join (d : Char) {β : Type} (f : β → Str → β)
    (hf : ∀ m, f m [] = m) (ps : List Str) (m : β) (hps : ∀ q ∈ ps, d ∉ q) :
    (split (join ps [d]) d).foldl f m = ps.foldl f m := by
  cases ps with
  | nil => rfl
  | cons p ps =>
    have e : join (p :: ps) [d] = p ++ joinFrom [d] 1 ps := by
      simp [join, joinFrom]
    rw [e]
    exact foldl_split_joinFrom d f hf ps p m (hps p (List.mem_cons_self _ _))
      (fun x hx => hps x (List.mem_cons_of_mem _ hx))

theorem bindPair_nil (m : List (Str × Str)) : bindPair m [] = m := rfl

theorem bindPair_pieceText (m : List (Str × Str)) (p : Str × Option Str) (hp : '=' ∉ p.1) :
    bindPair m (pieceText p) =
      match p.2 with
      | some v => mapSet m (urlDecode p.1) (urlDecode v)
      | none => m := by
  obtain ⟨n, o⟩ := p
  cases o with
  | none =>
    simp only [pieceText, bindPair, (findChar_eq_none '=' n).mpr hp]
  | some v =>
    simp only [pieceText, bindPair, findChar_append '=' n v hp]
    simp

theorem foldl_bindPair (pieces : List (Str × Option Str)) (m : List (Str × Str))
    (hp : ∀ p ∈ pieces, '=' ∉ p.1) :
    (pieces.map pieceText).foldl bindPair m =
      (queryBindings pieces).foldl (fun m b => mapSet m b.1 b.2) m := by
  induction pieces generalizing m with
  | nil => rfl
  | cons p ps ih =>
    have h1 := bindPair_pieceText m p (hp p (List.mem_cons_self _ _))
    have ih' := fun m' => ih m' (fun x hx => hp x (List.mem_cons_of_mem _ hx))
    obtain ⟨n, o⟩ := p
    cases o with
    | none =>
      simp only at h1
      simp only [List.map_cons, List.foldl_cons, h1, ih', queryBindings, List.filterMap_cons,
        Option.map_none']
    | some v =>
      simp only at h1
      simp only [List.map_cons, List.foldl_cons, h1, ih', queryBindings, List.filterMap_cons,
        Option.map_some']

theorem parseQueryString_queryParams (req : Request) :
    req.parseQueryString.queryParams =
      (split req.queryString '&').foldl bindPair req.queryParams := by
  cases hq : req.queryString with
  | nil => simp [Request.parseQueryString, hq, split_nil]
  | cons c cs => simp [Request.parseQueryString, hq]
/-- C27: when the query string is made of pieces joined by `&`, each `n=v` with no `=` in
`n` or a text without `=`, `parseQueryString` binds the decoded name of every piece `n=v`
to its decoded value, in the order of the pieces: the pieces without `=` bind nothing, the
last piece of a name gives its value, a name of no piece keeps the value it had, and the
other members of the request stay; an empty query string changes nothing. -/
theorem parseQueryString_binds_pieces (req : Request) (pieces : List (Str × Option Str))
    (hq : req.queryString = join (pieces.map pieceText) ['&'])
    (hamp : ∀ p ∈ pieces, '&' ∉ pieceText p) (heq : ∀ p ∈ pieces, '=' ∉ p.1) :
    req.parseQueryString.queryParams =
      (queryBindings pieces).foldl (fun m b => mapSet m b.1 b.2) req.queryParams ∧
    (∀ k, mapFind req.parseQueryString.queryParams k =
      match ((queryBindings pieces).filter (fun b => decide (b.1 = k))).getLast? with
      | some b => some b.2
      | none => mapFind req.queryParams k) ∧
    { req.parseQueryString with queryParams := req.queryParams } = req ∧
    (req.queryString = [] → req.parseQueryString = req) := by
  have h1 : req.parseQueryString.queryParams =
      (queryBindings pieces).foldl (fun m b => mapSet m b.1 b.2) req.queryParams := by
    rw [parseQueryString_queryParams, hq,
      foldl_split_join '&' bindPair bindPair_nil _ _ (by
        intro q hq'
        obtain ⟨p, hp, rfl⟩ := List.mem_map.mp hq'
        exact hamp p hp),
      foldl_bindPair pieces _ heq]
  refine ⟨h1, ?_, ?_, ?_⟩
  · intro k
    rw [h1]
    exact mapFind_foldl_mapSet _ _ k
  · clear h1 hq
    obtain ⟨m, u, p, qs, pr, hd, bd, pa, qp⟩ := req
    cases qs <;> simp [Request.parseQueryString]
  · intro hs
    simp [Request.parseQueryString, hs]

/-- Instance of C27: the query string `a=1&b&a=%41+x&c=`. -/
theorem parseQueryString_binds_pieces_witness :
    (Request.parseQueryString
      { Request.new with queryString := "a=1&b&a=%41+x&c=".toList }).queryParams =
      [("a".toList, "A x".toList), ("c".toList, [])] :=
  (parseQueryString_binds_pieces
    { Request.new with queryString := "a=1&b&a=%41+x&c=".toList }
    [("a".toList, some "1".toList), ("b".toList, none),
     ("a".toList, some "%41+x".toList), ("c".toList, some [])]
    (by decide) (by decide) (by decide)).1

/-! ## `Utils::trim` -/

theorem trimRight_append_cons (P S : Str) (x : Char) (hx : isTrimChar x = false) :
    trimRight (P ++ x :: S) = P ++ x :: trimRight S := by
  simp only [trimRight, List.reverse_append, List.reverse_cons, List.append_assoc,
    List.singleton_append]
  rw [List.dropWhile_append]
  split
  · rename_i h
    rw [List.isEmpty_iff] at h
    simp [h, hx]
  · simp

theorem trimRight_snoc (X : Str) (c : Char) (hc : isTrimChar c = true) :
    trimRight (X ++ [c]) = trimRight X := by
  simp [trimRight, hc]

theorem trimRight_idem (X : Str) : trimRight (trimRight X) = trimRight X := by
  simp [trimRight, List.dropWhile_idempotent]

theorem trimLeft_cons_pos (X : Str) (c : Char) (hc : isTrimChar c = true) :
    trimLeft (c :: X) = trimLeft X := by
  simp [trimLeft, hc]

theorem trimLeft_cons_neg (X : Str) (c : Char) (hc : isTrimChar c = false) :
    trimLeft (c :: X) = c :: X := by
  simp [trimLeft, hc]

theorem trimRight_of_all (X : Str) (h : ∀ c ∈ X, isTrimChar c = true) : trimRight X = [] := by
  simp only [trimRight, List.reverse_eq_nil_iff, List.dropWhile_eq_nil_iff, List.mem_reverse]
  exact h

theorem trimLeft_trimRight (X : Str) : trimLeft (trimRight X) = trimRight (trimLeft X) := by
  cases h : trimLeft X with
  | nil =>
    have hall : ∀ c ∈ X, isTrimChar c = true := by
      simpa [trimLeft, List.dropWhile_eq_nil_iff] using h
    rw [trimRight_of_all X hall]
    rfl
  | cons x Y =>
    have hx : isTrimChar x = false := by
      have := List.head?_dropWhile_not isTrimChar X
      simp only [trimLeft] at h
      rw [h] at this
      simpa using this
    have hX : X = X.takeWhile isTrimChar ++ x :: Y := by
      have := List.takeWhile_append_dropWhile isTrimChar X
      simp only [trimLeft] at h
      rw [h] at this
      exact this.symm
    have hA : ∀ a ∈ X.takeWhile isTrimChar, isTrimChar a = true :=
      fun a ha => List.mem_takeWhile_imp ha
    have e1 := trimRight_append_cons [] Y x hx
    simp only [List.nil_append] at e1
    rw [e1]
    conv_lhs => rw [hX, trimRight_append_cons _ _ _ hx]
    simp only [trimLeft]
    rw [List.dropWhile_append_of_pos hA]
    simp [hx]

theorem trim_cons_pos (X : Str) (c : Char) (hc : isTrimChar c = true) :
    trim (c :: X) = trim X := by
  simp only [trim, trimLeft_cons_pos X c hc]

theorem trim_snoc (X : Str) (c : Char) (hc : isTrimChar c = true) :
    trim (X ++ [c]) = trim X := by
  simp only [trim]
  rw [← trimLeft_trimRight, ← trimLeft_trimRight, trimRight_snoc X c hc]

theorem trim_trimRight (X : Str) : trim (trimRight X) = trim X := by
  simp only [trim]
  rw [← trimLeft_trimRight, ← trimLeft_trimRight, trimRight_idem]

/-! ## `HttpServer::handleClient`: the lines of a request -/

theorem split_lines (ls : List Str) (rest : Str) (h : ∀ l ∈ ls, '\n' ∉ l) :
    split ((ls.map (fun l => l ++ ['\n'])).flatten ++ rest) '\n' = ls ++ split rest '\n' := by
  induction ls with
  | nil => rfl
  | cons l ls ih =>
    simp only [List.map_cons, List.flatten_cons, List.append_assoc, List.singleton_append,
      List.cons_append, List.nil_append]
    rw [split_append_delim '\n' l _ (h l (List.mem_cons_self _ _)),
      ih (fun x hx => h x (List.mem_cons_of_mem _ hx))]

theorem trim_header_line (N V : Str) (hc : ':' ∉ N)
    (hh : ∀ c, N.head? = some c → isTrimChar c = false) :
    trim (N ++ ':' :: ' ' :: (V ++ ['\r'])) = N ++ ':' :: trimRight (' ' :: (V ++ ['\r'])) := by
  have hl : trimLeft (N ++ ':' :: ' ' :: (V ++ ['\r'])) = N ++ ':' :: ' ' :: (V ++ ['\r']) := by
    cases N with
    | nil => exact trimLeft_cons_neg _ _ (by decide)
    | cons c cs => exact trimLeft_cons_neg _ _ (hh c rfl)
  rw [trim, hl, trimRight_append_cons N _ ':' (by decide)]

theorem readHeaders_header_line (N V : Str) (rest : List Str) (m : List (Str × Str))
    (hc : ':' ∉ N) (hh : ∀ c, N.head? = some c → isTrimChar c = false) :
    readHeaders ((N ++ ':' :: ' ' :: (V ++ ['\r'])) :: rest) m =
      readHeaders rest (mapSet m (normalizeHeaderName N) (trim V)) := by
  have ht := trim_header_line N V hc hh
  have h1 : N ++ ':' :: ' ' :: (V ++ ['\r']) ≠ ['\r'] := by
    intro h
    have : ':' ∈ N ++ ':' :: ' ' :: (V ++ ['\r']) := by simp
    rw [h] at this
    simp at this
  have h2 : (trim (N ++ ':' :: ' ' :: (V ++ ['\r']))).isEmpty = false := by
    rw [ht]
    cases N <;> rfl
  have h3 := findChar_append ':' N (trimRight (' ' :: (V ++ ['\r']))) hc
  have h4 : trim (trimRight (' ' :: (V ++ ['\r']))) = trim V := by
    rw [trim_trimRight, trim_cons_pos _ _ (by decide), trim_snoc _ _ (by decide)]
  rw [readHeaders]
  simp only [h1, if_false, h2, Bool.false_eq_true]
  rw [ht, h3]
  simp only [List.take_left', List.drop_succ_cons, List.take_append_eq_append_take,
    List.take_length, Nat.sub_self, List.take_zero, List.append_nil]
  simp [h4]

theorem readHeaders_lines (hdrs : List (Str × Str)) (rest : List Str) (m : List (Str × Str))
    (hN : ∀ h ∈ hdrs, ':' ∉ h.1 ∧ ∀ c, h.1.head? = some c → isTrimChar c = false) :
    readHeaders (hdrs.map (fun h => h.1 ++ ':' :: ' ' :: (h.2 ++ ['\r'])) ++ ['\r'] :: rest) m =
      (hdrs.foldl (fun m h => mapSet m (normalizeHeaderName h.1) (trim h.2)) m, rest) := by
  induction hdrs generalizing m with
  | nil => simp [readHeaders]
  | cons h hs ih =>
    rw [List.map_cons, List.cons_append,
      readHeaders_header_line h.1 h.2 _ m (hN h (List.mem_cons_self _ _)).1
        (hN h (List.mem_cons_self _ _)).2,
      ih _ (fun x hx => hN x (List.mem_cons_of_mem _ hx))]
    rfl

theorem readBody_split (B : Str) :
    (B ≠ [] → B.getLast? ≠ some '\n' → readBody (split B '\n') = B ++ ['\n']) ∧
    (B.getLast? = some '\n' → readBody (split B '\n') = B) ∧
    readBody (split [] '\n') = [] := by
  refine ⟨?_, ?_, rfl⟩
  · induction B with
    | nil => intro h; exact absurd rfl h
    | cons c cs ih =>
      intro _ hl
      have hc : c ≠ '\n' ∨ cs ≠ [] := by
        by_contra hcon
        push_neg at hcon
        obtain ⟨rfl, rfl⟩ := hcon
        exact hl rfl
      by_cases hcs : cs = []
      · subst hcs
        have hc' : c ≠ '\n' := hc.resolve_right (by simp)
        rw [split_cons '\n' c [] hc']
        rfl
      · have hl' : cs.getLast? ≠ some '\n' := by
          obtain ⟨x, xs, rfl⟩ := List.exists_cons_of_ne_nil hcs
          rw [List.getLast?_cons_cons] at hl
          exact hl
        have ih' := ih hcs hl'
        by_cases hcn : c = '\n'
        · subst hcn
          rw [split_cons_delim, readBody, ih']
          rfl
        · rw [split_cons '\n' c cs hcn]
          cases hs : split cs '\n' with
          | nil => exact absurd ((split_eq_nil '\n' cs).mp hs) hcs
          | cons item rest =>
            rw [hs] at ih'
            simp only [readBody, List.cons_append, List.append_assoc] at ih' ⊢
            rw [ih']
  · induction B with
    | nil => intro h; simp at h
    | cons c cs ih =>
      intro hl
      by_cases hcs : cs = []
      · subst hcs
        simp only [List.getLast?_singleton, Option.some.injEq] at hl
        subst hl
        rfl
      · have hl' : cs.getLast? = some '\n' := by
          obtain ⟨x, xs, rfl⟩ := List.exists_cons_of_ne_nil hcs
          rw [List.getLast?_cons_cons] at hl
          exact hl
        have ih' := ih hl'
        by_cases hcn : c = '\n'
        · subst hcn
          rw [split_cons_delim, readBody, ih']
          rfl
        · rw [split_cons '\n' c cs hcn]
          cases hs : split cs '\n' with
          | nil => exact absurd ((split_eq_nil '\n' cs).mp hs) hcs
          | cons item rest =>
            rw [hs] at ih'
            simp only [readBody, List.cons_append, List.append_assoc] at ih' ⊢
            rw [ih']

theorem readRequestLine_headers (req : Request) (l : Str) :
    (readRequestLine req l).headers = req.headers := by
  simp only [readRequestLine]
  split <;> rfl

theorem parseQueryString_headers_body (req : Request) :
    req.parseQueryString.headers = req.headers ∧ req.parseQueryString.body = req.body := by
  obtain ⟨m, u, p, qs, pr, hd, bd, pa, qp⟩ := req
  cases qs <;> simp [Request.parseQueryString]

theorem decodeRequest_lines (first : Str) (ls : List Str) (B : Str)
    (h0 : '\n' ∉ first) (hl : ∀ l ∈ ls, '\n' ∉ l) :
    decodeRequest (first ++ '\n' :: ((ls.map (fun l => l ++ ['\n'])).flatten ++ B)) =
      Request.parseQueryString
        { readRequestLine Request.new first with
          headers := (readHeaders (ls ++ split B '\n') []).1,
          body := readBody (readHeaders (ls ++ split B '\n') []).2 } := by
  have hs : split (first ++ '\n' :: ((ls.map (fun l => l ++ ['\n'])).flatten ++ B)) '\n' =
      first :: (ls ++ split B '\n') := by
    rw [split_append_delim '\n' first _ h0, split_lines ls B hl]
  simp only [decodeRequest, hs, List.headD_cons, List.tail_cons, readRequestLine_headers]
  rfl

theorem decodeRequest_headers_body (reqLine : Str) (hdrs : List (Str × Str)) (B : Str)
    (h0 : '\n' ∉ reqLine)
    (hN : ∀ h ∈ hdrs, ':' ∉ h.1 ∧ ∀ c, h.1.head? = some c → isTrimChar c = false)
    (hV : ∀ h ∈ hdrs, '\n' ∉ h.1 ∧ '\n' ∉ h.2) :
    (decodeRequest (reqLine ++ '\r' :: '\n' ::
        ((hdrs.map (fun h => h.1 ++ ':' :: ' ' :: (h.2 ++ ['\r', '\n']))).flatten ++
          '\r' :: '\n' :: B))).headers =
      hdrs.foldl (fun m h => mapSet m (normalizeHeaderName h.1) (trim h.2)) [] ∧
    (decodeRequest (reqLine ++ '\r' :: '\n' ::
        ((hdrs.map (fun h => h.1 ++ ':' :: ' ' :: (h.2 ++ ['\r', '\n']))).flatten ++
          '\r' :: '\n' :: B))).body = readBody (split B '\n') := by
  have e : reqLine ++ '\r' :: '\n' ::
      ((hdrs.map (fun h => h.1 ++ ':' :: ' ' :: (h.2 ++ ['\r', '\n']))).flatten ++
        '\r' :: '\n' :: B) =
      (reqLine ++ ['\r']) ++ '\n' ::
        (((hdrs.map (fun h => h.1 ++ ':' :: ' ' :: (h.2 ++ ['\r'])) ++ [['\r']]).map
          (fun l => l ++ ['\n'])).flatten ++ B) := by
    simp [List.map_append, List.flatten_append, Function.comp_def]
  have hl : ∀ l ∈ hdrs.map (fun h => h.1 ++ ':' :: ' ' :: (h.2 ++ ['\r'])) ++ [['\r']],
      '\n' ∉ l := by
    intro l hl
    rcases List.mem_append.mp hl with hl | hl
    · obtain ⟨h, hh, rfl⟩ := List.mem_map.mp hl
      have := hV h hh
      simp only [List.mem_append, List.mem_cons, List.mem_singleton, List.not_mem_nil,
        not_or, or_false]
      exact ⟨this.1, by decide, by decide, this.2, by decide⟩
    · rw [List.mem_singleton] at hl
      subst hl
      decide
  have h0' : '\n' ∉ reqLine ++ ['\r'] := by
    simp only [List.mem_append, List.mem_singleton, not_or]
    exact ⟨h0, by decide⟩
  rw [e, decodeRequest_lines _ _ B h0' hl]
  have hr := readHeaders_lines hdrs (split B '\n') [] hN
  simp only [List.append_assoc, List.singleton_append] at hr ⊢
  have hq := parseQueryString_headers_body
    { readRequestLine Request.new (reqLine ++ ['\r']) with
      headers := (readHeaders (hdrs.map (fun h => h.1 ++ ':' :: ' ' :: (h.2 ++ ['\r'])) ++
        ['\r'] :: split B '\n') []).1,
      body := readBody (readHeaders (hdrs.map (fun h => h.1 ++ ':' :: ' ' :: (h.2 ++ ['\r'])) ++
        ['\r'] :: split B '\n') []).2 }
  rw [hq.1, hq.2]
  simp only [hr]
  exact ⟨trivial, trivial⟩

theorem head_of_trimLeft_eq (N : Str) (h : trimLeft N = N) :
    ∀ c, N.head? = some c → isTrimChar c = false := by
  intro c hc
  cases N with
  | nil => simp at hc
  | cons x xs =>
    simp only [List.head?_cons, Option.some.injEq] at hc
    subst hc
    by_contra hx
    rw [Bool.not_eq_false] at hx
    rw [trimLeft_cons_pos xs x hx] at h
    have h1 : (trimLeft xs).length ≤ xs.length := (List.dropWhile_sublist _).length_le
    rw [h] at h1
    simp at h1

/-- C30: when the request line is followed by the header lines `N: V`, the blank line and
the body, where no `N` holds a `:` or starts with white space, the header map of the
decoded request is filled in the order of the lines with `normalizeHeaderName(N)` bound to
the trimmed `V`: a `:` in `V` stays in the value, the last line of a name gives its value,
and the body, whatever its lines are, adds nothing. -/
theorem header_lines_fill_header_map (reqLine : Str) (hdrs : List (Str × Str)) (B : Str)
    (h0 : '\n' ∉ reqLine)
    (hN : ∀ h ∈ hdrs, ':' ∉ h.1 ∧ trimLeft h.1 = h.1)
    (hV : ∀ h ∈ hdrs, '\n' ∉ h.1 ∧ '\n' ∉ h.2) :
    (decodeRequest (reqLine ++ '\r' :: '\n' ::
        ((hdrs.map (fun h => h.1 ++ ':' :: ' ' :: (h.2 ++ ['\r', '\n']))).flatten ++
          '\r' :: '\n' :: B))).headers =
      hdrs.foldl (fun m h => mapSet m (normalizeHeaderName h.1) (trim h.2)) [] ∧
    ∀ k, mapFind (decodeRequest (reqLine ++ '\r' :: '\n' ::
        ((hdrs.map (fun h => h.1 ++ ':' :: ' ' :: (h.2 ++ ['\r', '\n']))).flatten ++
          '\r' :: '\n' :: B))).headers k =
      match ((hdrs.map (fun h => (normalizeHeaderName h.1, trim h.2))).filter
          (fun b => decide (b.1 = k))).getLast? with
      | some b => some b.2
      | none => none := by
  have h1 := (decodeRequest_headers_body reqLine hdrs B h0
    (fun h hh => ⟨(hN h hh).1, head_of_trimLeft_eq h.1 (hN h hh).2⟩) hV).1
  refine ⟨h1, fun k => ?_⟩
  rw [h1]
  have := mapFind_foldl_mapSet (hdrs.map (fun h => (normalizeHeaderName h.1, trim h.2))) [] k
  rw [List.foldl_map] at this
  exact this

/-- Instance of C30: a `Host` with a port, a name given twice in two spellings, and a
body that looks like a header line. -/
theorem header_lines_fill_header_map_witness :
    (decodeRequest ("GET / HTTP/1.1\r\nHost: localhost:3000\r\naccept: a\r\n" ++
        "ACCEPT:  b \r\n\r\nX: y\r\n").toList).headers =
      [("Host".toList, "localhost:3000".toList), ("Accept".toList, "b".toList)] :=
  (header_lines_fill_header_map "GET / HTTP/1.1".toList
    [("Host".toList, "localhost:3000".toList), ("accept".toList, "a".toList),
     ("ACCEPT".toList, " b ".toList)] "X: y\r\n".toList
    (by decide) (by decide) (by decide)).1

/-- C29: the body is put together again from the lines of the stream with `\n` after each
of them, so a body that does not end in `\n` gets one appended: the body `abc` is decoded
as `abc\n`. After the head `POST /x HTTP/1.1`, `Host: a` every body `B` is decoded as
`readBody (split B '\n')`, which is `B` only for an empty `B` and a `B` that ends in `\n`. -/
theorem body_gets_newline_appended :
    (decodeRequest "POST /x HTTP/1.1\r\nHost: a\r\n\r\nabc".toList).body = "abc\n".toList ∧
    (decodeRequest "POST /x HTTP/1.1\r\nHost: a\r\n\r\n\x7b\"name\":\"X\"\x7d".toList).body =
      "\x7b\"name\":\"X\"\x7d\n".toList ∧
    (∀ B : Str, (decodeRequest ("POST /x HTTP/1.1\r\nHost: a\r\n\r\n".toList ++ B)).body =
      readBody (split B '\n')) ∧
    (∀ B : Str, B ≠ [] → B.getLast? ≠ some '\n' → readBody (split B '\n') = B ++ ['\n']) ∧
    (∀ B : Str, B.getLast? = some '\n' → readBody (split B '\n') = B) := by
  refine ⟨by decide, by decide, fun B => ?_, fun B => (readBody_split B).1,
    fun B => (readBody_split B).2.1⟩
  exact (decodeRequest_headers_body "POST /x HTTP/1.1".toList [("Host".toList, "a".toList)] B
    (by decide) (by decide) (by decide)).2

/-- C21: `isValid` accepts `[1,]` and rejects `[1, ]`, accepts `{"a":1,}` and rejects
`{"a":1, }`: after a comma the loops test for the closing bracket without passing over
white space. At the other boundaries white space is passed over, as in `[ 1 , 2 ]` and
`{ "a" : 1 , "b" : [ ] }`. -/
theorem isValid_rejects_space_after_last_comma :
    isValid stodDec "[1,]".toList = true ∧ isValid stodDec "[1, ]".toList = false ∧
    isValid stodDec "\x7b\"a\":1,\x7d".toList = true ∧
    isValid stodDec "\x7b\"a\":1, \x7d".toList = false ∧
    isValid stodDec " [ 1 , 2 ] ".toList = true ∧
    isValid stodDec " \x7b \"a\" : 1 , \"b\" : [ ] \x7d ".toList = true := by
  refine ⟨?_, ?_, ?_, ?_, ?_, ?_⟩ <;> decide

/-! ## `Response::toString`: the layout of the text -/

theorem headerLines_eq (hs : List (Str × Str)) :
    headerLines hs =
      (hs.map (fun h => h.1 ++ [':', ' '] ++ h.2 ++ ['\r', '\n'])).flatten := by
  induction hs with
  | nil => rfl
  | cons h hs ih =>
    obtain ⟨n, v⟩ := h
    simp only [headerLines, ih, List.map_cons, List.flatten_cons]

/-- C31: for every `Response`, `toString()` is `HTTP/1.1 `, the status code in decimal
digits, a space, the status message and `\r\n`, then `Name: value\r\n` for every entry of
the header map, once each in the order of the iteration, then `\r\n`, then the body; the
fresh response gives the text on the last lines. -/
theorem toString_layout (res : Response) :
    res.toString =
      "HTTP/1.1 ".toList ++ intText res.statusCode ++ [' '] ++ res.statusMessage ++
        ['\r', '\n'] ++
        (res.headers.map (fun h => h.1 ++ [':', ' '] ++ h.2 ++ ['\r', '\n'])).flatten ++
        ['\r', '\n'] ++ res.body ∧
    (Response.new.status 404).toString =
      ("HTTP/1.1 404 Not Found\r\nContent-Type: text/plain\r\nServer: HttpApi/1.0\r\n" ++
        "Connection: close\r\n\r\n").toList := by
  refine ⟨?_, by decide⟩
  rw [toString_eq, headerLines_eq]

/-! ## `JsonHandler::escapeString`: the text written for every character -/

theorem escapeString_eq (s : Str) : escapeString s = (s.map escapeChar).flatten := by
  induction s with
  | nil => rfl
  | cons c cs ih => simp only [escapeString, ih, List.map_cons, List.flatten_cons]

theorem hexDigit_ge (n : Nat) (h : n < 16) : 32 ≤ (hexDigit n).toNat ∧ hexDigit n ≠ '"' := by
  interval_cases n <;> decide

theorem escapeChar_table (c : Char) :
    escapeChar c =
      if c = '"' then ['\\', '"']
      else if c = '\\' then ['\\', '\\']
      else if c = Char.ofNat 8 then ['\\', 'b']
      else if c = Char.ofNat 12 then ['\\', 'f']
      else if c = '\n' then ['\\', 'n']
      else if c = '\r' then ['\\', 'r']
      else if c = '\t' then ['\\', 't']
      else if c.toNat < 32 then
        ['\\', 'u', '0', '0', hexDigit (c.toNat / 16), hexDigit (c.toNat % 16)]
      else [c] := by
  unfold escapeChar
  by_cases h1 : c = '"'
  · subst h1; rfl
  by_cases h2 : c = '\\'
  · subst h2; rfl
  by_cases h3 : c = Char.ofNat 8
  · subst h3; rfl
  by_cases h4 : c = Char.ofNat 12
  · subst h4; rfl
  by_cases h5 : c = '\n'
  · subst h5; rfl
  by_cases h6 : c = '\r'
  · subst h6; rfl
  by_cases h7 : c = '\t'
  · subst h7; rfl
  simp only [beq_iff_eq, h1, h2, h3, h4, h5, h6, h7, if_false]
  split
  · rename_i h
    have e1 : c.toNat / 4096 % 16 = 0 := by omega
    have e2 : c.toNat / 256 % 16 = 0 := by omega
    have e3 : c.toNat / 16 % 16 = c.toNat / 16 := by omega
    simp only [hex4, e1, e2, e3]
    rfl
  · rfl

theorem escapeChar_ge (c : Char) : ∀ d ∈ escapeChar c, 32 ≤ d.toNat := by
  rw [escapeChar_table]
  split_ifs with h1 h2 h3 h4 h5 h6 h7 h8
  all_goals first
    | decide
    | skip
  · intro d hd
    simp only [List.mem_cons, List.mem_singleton, List.not_mem_nil, or_false] at hd
    rcases hd with rfl | rfl | rfl | rfl | rfl | rfl
    · decide
    · decide
    · decide
    · decide
    · exact (hexDigit_ge _ (by omega)).1
    · exact (hexDigit_ge _ (by omega)).1
  · intro d hd
    rw [List.mem_singleton] at hd
    subst hd
    omega

theorem escapeChar_quote (c : Char) (pre post : Str) (h : escapeChar c = pre ++ '"' :: post) :
    pre = ['\\'] ∧ post = [] := by
  rw [escapeChar_table] at h
  split_ifs at h with h1 h2 h3 h4 h5 h6 h7 h8
  · rcases pre with _ | ⟨a, _ | ⟨b, pre⟩⟩ <;> simp_all
    exact h.1.symm
  · rcases pre with _ | ⟨a, _ | ⟨b, pre⟩⟩ <;> simp_all
  · rcases pre with _ | ⟨a, _ | ⟨b, pre⟩⟩ <;> simp_all
  · rcases pre with _ | ⟨a, _ | ⟨b, pre⟩⟩ <;> simp_all
  · rcases pre with _ | ⟨a, _ | ⟨b, pre⟩⟩ <;> simp_all
  · rcases pre with _ | ⟨a, _ | ⟨b, pre⟩⟩ <;> simp_all
  · rcases pre with _ | ⟨a, _ | ⟨b, pre⟩⟩ <;> simp_all
  · exfalso
    have hq : '"' ∈ ['\\', 'u', '0', '0', hexDigit (c.toNat / 16), hexDigit (c.toNat % 16)] := by
      rw [h]; simp
    simp only [List.mem_cons, List.mem_singleton, List.not_mem_nil, or_false] at hq
    rcases hq with hq | hq | hq | hq | hq | hq
    · exact absurd hq (by decide)
    · exact absurd hq (by decide)
    · exact absurd hq (by decide)
    · exact absurd hq (by decide)
    · exact (hexDigit_ge _ (by omega)).2 hq.symm
    · exact (hexDigit_ge _ (by omega)).2 hq.symm
  · exfalso
    rcases pre with _ | ⟨a, pre⟩
    · simp only [List.nil_append, List.cons.injEq] at h
      exact h1 h.1
    · simp at h
theorem escapeString_quote (s : Str) (pre post : Str)
    (h : escapeString s = pre ++ '"' :: post) : pre.getLast? = some '\\' := by
  induction s generalizing pre with
  | nil =>
    simp only [escapeString] at h
    have := congrArg List.length h
    simp only [List.length_nil, List.length_append, List.length_cons] at this
    omega
  | cons c cs ih =>
    simp only [escapeString] at h
    rcases List.append_eq_append_iff.mp h with ⟨a, ha, hb⟩ | ⟨a, ha, hb⟩
    · have h1 := ih a hb
      have hne : a ≠ [] := by
        rintro rfl
        simp at h1
      rw [ha, List.getLast?_append_of_ne_nil _ hne, h1]
    · cases a with
      | nil =>
        simp only [List.nil_append] at hb
        have h1 := ih [] (by rw [← hb]; rfl)
        simp at h1
      | cons x xs =>
        simp only [List.cons_append, List.cons.injEq] at hb
        rw [← hb.1] at ha
        rw [(escapeChar_quote c pre xs ha).1]
        rfl

/-- C32: `escapeString` writes the texts of its characters one after the other: `\"` for
`"`, `\\` for `\`, `\b`, `\f`, `\n`, `\r`, `\t` for the five control characters, `\u00` and
the two hexadecimal digits of the value for any other character below 32, and the
character itself otherwise; so no character of the output is below 32 and every `"` of
the output comes right after a `\`. -/
theorem escapeString_maps_each_character :
    (∀ s : Str, escapeString s = (s.map escapeChar).flatten) ∧
    (∀ c : Char, escapeChar c =
      if c = '"' then ['\\', '"']
      else if c = '\\' then ['\\', '\\']
      else if c = Char.ofNat 8 then ['\\', 'b']
      else if c = Char.ofNat 12 then ['\\', 'f']
      else if c = '\n' then ['\\', 'n']
      else if c = '\r' then ['\\', 'r']
      else if c = '\t' then ['\\', 't']
      else if c.toNat < 32 then
        ['\\', 'u', '0', '0', hexDigit (c.toNat / 16), hexDigit (c.toNat % 16)]
      else [c]) ∧
    (∀ n : Nat, n < 16 → hexDigit n = "0123456789abcdef".toList.getD n '0') ∧
    (∀ s : Str, ∀ d ∈ escapeString s, 32 ≤ d.toNat) ∧
    (∀ s pre post : Str, escapeString s = pre ++ '"' :: post → pre.getLast? = some '\\') ∧
    escapeString ['a', '"', '\\', Char.ofNat 1, Char.ofNat 31, '\n'] =
      "a\\\"\\\\\\u0001\\u001f\\n".toList := by
  refine ⟨escapeString_eq, escapeChar_table, ?_, ?_, escapeString_quote, by decide⟩
  · intro n hn
    interval_cases n <;> rfl
  · intro s d hd
    rw [escapeString_eq, List.mem_flatten] at hd
    obtain ⟨l, hl, hdl⟩ := hd
    obtain ⟨c, _, rfl⟩ := List.mem_map.mp hl
    exact escapeChar_ge c d hdl

/-! ## `Utils::normalizeHeaderName`: a canonical form -/

theorem toLower_toLower (c : Char) : c.toLower.toLower = c.toLower := by
  by_cases h : 65 ≤ c.toNat ∧ c.toNat ≤ 90
  · have hc : c = Char.ofNat c.toNat := (Char.ofNat_toNat c).symm
    obtain ⟨h1, h2⟩ := h
    generalize c.toNat = n at hc h1 h2
    subst hc
    interval_cases n <;> decide
  · have e : c.toLower = c := by
      simp only [Char.toLower]
      rw [if_neg]
      simpa using h
    rw [e, e]

theorem toLower_toUpper_toLower (c : Char) : c.toLower.toUpper.toLower = c.toLower := by
  by_cases h : 65 ≤ c.toNat ∧ c.toNat ≤ 90
  · have hc : c = Char.ofNat c.toNat := (Char.ofNat_toNat c).symm
    obtain ⟨h1, h2⟩ := h
    generalize c.toNat = n at hc h1 h2
    subst hc
    interval_cases n <;> decide
  · have e : c.toLower = c := by
      simp only [Char.toLower]
      rw [if_neg]
      simpa using h
    rw [e]
    by_cases h' : 97 ≤ c.toNat ∧ c.toNat ≤ 122
    · have hc : c = Char.ofNat c.toNat := (Char.ofNat_toNat c).symm
      obtain ⟨h1, h2⟩ := h'
      generalize c.toNat = n at hc h1 h2
      subst hc
      interval_cases n <;> decide
    · have e' : c.toUpper = c := by
        simp only [Char.toUpper]
        rw [if_neg]
        simpa using h'
      rw [e', e]

theorem toLowerCase_normalizeLoop (b : Bool) (s : Str) :
    toLowerCase (normalizeLoop b (toLowerCase s)) = toLowerCase s := by
  induction s generalizing b with
  | nil => rfl
  | cons c cs ih =>
    simp only [toLowerCase, List.map_cons, normalizeLoop] at ih ⊢
    split
    · simp only [List.map_cons, toLower_toUpper_toLower, ih]
    · split
      · simp only [List.map_cons, toLower_toLower, ih]
      · simp only [List.map_cons, toLower_toLower, ih]

theorem toLowerCase_normalizeHeaderName (a : Str) :
    toLowerCase (normalizeHeaderName a) = toLowerCase a :=
  toLowerCase_normalizeLoop true a

/-- C39: `normalizeHeaderName` gives the same text for two names exactly when the two
names are equal after `toLowerCase`; applying it twice is applying it once; and
`Request::get` returns the same value for two names that are equal after `toLowerCase`. -/
theorem normalizeHeaderName_canonical :
    (∀ a b : Str, normalizeHeaderName a = normalizeHeaderName b ↔
      toLowerCase a = toLowerCase b) ∧
    (∀ a : Str, normalizeHeaderName (normalizeHeaderName a) = normalizeHeaderName a) ∧
    (∀ (req : Request) (a b : Str), toLowerCase a = toLowerCase b → req.get a = req.get b) ∧
    normalizeHeaderName "cOnTeNt-tyPE".toList = "Content-Type".toList := by
  refine ⟨fun a b => ⟨fun h => ?_, fun h => ?_⟩, fun a => ?_, fun req a b h => ?_, by decide⟩
  · rw [← toLowerCase_normalizeHeaderName a, ← toLowerCase_normalizeHeaderName b, h]
  · simp only [normalizeHeaderName, h]
  · have := toLowerCase_normalizeHeaderName a
    simp only [normalizeHeaderName] at this ⊢
    rw [this]
  · simp only [Request.get, normalizeHeaderName, h]

/-! ## `Utils::urlDecode` after `Utils::urlEncode` -/

theorem urlDecode_cons (c : Char) (rest : Str) :
    urlDecode (c :: rest) =
      if c == '%' then
        match rest with
        | h1 :: h2 :: rest2 => castChar (hexExtract [h1, h2]) :: urlDecode rest2
        | _ => c :: urlDecode rest
      else if c == '+' then ' ' :: urlDecode rest
      else c :: urlDecode rest := by
  rcases rest with _ | ⟨h1, _ | ⟨h2, rest2⟩⟩ <;> rfl

set_option maxRecDepth 100000 in
theorem hexExtract_hex2 : ∀ n, n < 256 → hexExtract (hex2 n) = (n : Int) := by decide

theorem castChar_byte (c : Char) (h : c.toNat < 256) : castChar (c.toNat : Int) = c := by
  unfold castChar
  have : ((c.toNat : Int) % 256).toNat = c.toNat := by omega
  rw [this, Char.ofNat_toNat]

theorem urlDecode_urlEncode_char (c : Char) (rest : Str) (h : c.toNat < 256) :
    urlDecode ((if isUnreserved c then [c] else '%' :: hex2 c.toNat) ++ rest) =
      c :: urlDecode rest := by
  split
  · rename_i hu
    have h1 : (c == '%') = false := by
      rw [Bool.eq_false_iff]
      intro hc
      rw [beq_iff_eq] at hc
      subst hc
      exact absurd hu (by decide)
    have h2 : (c == '+') = false := by
      rw [Bool.eq_false_iff]
      intro hc
      rw [beq_iff_eq] at hc
      subst hc
      exact absurd hu (by decide)
    rw [List.singleton_append, urlDecode_cons]
    simp only [h1, h2, Bool.false_eq_true, if_false]
  · have hx := hexExtract_hex2 c.toNat h
    simp only [hex2] at hx ⊢
    rw [List.cons_append, urlDecode_cons]
    simp only [beq_self_eq_true, if_true, List.cons_append, List.nil_append, hx,
      castChar_byte c h]

/-- C40: for every text of bytes, `urlDecode (urlEncode s)` is `s`. -/
theorem urlDecode_urlEncode (s : Str) (hb : ∀ c ∈ s, c.toNat < 256) :
    urlDecode (urlEncode s) = s := by
  induction s with
  | nil => rfl
  | cons c cs ih =>
    rw [urlEncode, urlDecode_urlEncode_char c _ (hb c (List.mem_cons_self _ _)),
      ih (fun d hd => hb d (List.mem_cons_of_mem _ hd))]

/-- Instance of C40: the text `a b+c%/~` followed by the bytes 0 and 255 is encoded as
`a%20b%2bc%25%2f~%00%ff` and decoded back. -/
theorem urlDecode_urlEncode_witness :
    urlEncode ("a b+c%/~".toList ++ [Char.ofNat 0, Char.ofNat 255]) =
      "a%20b%2bc%25%2f~%00%ff".toList ∧
    urlDecode (urlEncode ("a b+c%/~".toList ++ [Char.ofNat 0, Char.ofNat 255])) =
      "a b+c%/~".toList ++ [Char.ofNat 0, Char.ofNat 255] :=
  ⟨by decide, urlDecode_urlEncode _ (by decide)⟩

/-! ## `JsonHandler::stringify` for strings: `isValid` accepts what it writes -/

theorem hexDigit_ne_backslash (n : Nat) (h : n < 16) : hexDigit n ≠ '\\' := by
  interval_cases n <;> decide

theorem parseStringLoop_escapeChar (c : Char) (X s r : Str)
    (h : parseStringLoop X = .ok (s, r)) :
    ∃ k, parseStringLoop (escapeChar c ++ X) = .ok (k, r) := by
  rw [escapeChar_table]
  split_ifs with h1 h2 h3 h4 h5 h6 h7 h8
  · exact ⟨_, parseStringLoop_escape _ _ _ _ h⟩
  · exact ⟨_, parseStringLoop_escape _ _ _ _ h⟩
  · exact ⟨_, parseStringLoop_escape _ _ _ _ h⟩
  · exact ⟨_, parseStringLoop_escape _ _ _ _ h⟩
  · exact ⟨_, parseStringLoop_escape _ _ _ _ h⟩
  · exact ⟨_, parseStringLoop_escape _ _ _ _ h⟩
  · exact ⟨_, parseStringLoop_escape _ _ _ _ h⟩
  · have d2 := parseStringLoop_char (hexDigit (c.toNat % 16)) X s r
      (hexDigit_ge _ (by omega)).2 (hexDigit_ne_backslash _ (by omega)) h
    have d1 := parseStringLoop_char (hexDigit (c.toNat / 16)) _ _ r
      (hexDigit_ge _ (by omega)).2 (hexDigit_ne_backslash _ (by omega)) d2
    have z2 := parseStringLoop_char '0' _ _ r (by decide) (by decide) d1
    have z1 := parseStringLoop_char '0' _ _ r (by decide) (by decide) z2
    exact ⟨_, parseStringLoop_escape 'u' _ _ _ z1⟩
  · exact ⟨_, parseStringLoop_char c X s r h1 h2 h⟩

theorem parseStringLoop_escaped (s rest : Str) :
    ∃ k, parseStringLoop (escapeString s ++ '"' :: rest) = .ok (k, rest) := by
  induction s with
  | nil => exact ⟨[], by simp [escapeString, parseStringLoop_cons]⟩
  | cons c cs ih =>
    obtain ⟨k, hk⟩ := ih
    obtain ⟨k', hk'⟩ := parseStringLoop_escapeChar c _ k rest hk
    exact ⟨k', by simpa [escapeString] using hk'⟩

theorem parseValue_escaped {N : Type} (stod : Str → Option N) (s rest : Str) (f : Nat) :
    ∃ k, parseValue stod (f + 1) ('"' :: (escapeString s ++ '"' :: rest)) =
      .ok (.str k, rest) := by
  obtain ⟨k, hk⟩ := parseStringLoop_escaped s rest
  refine ⟨k, ?_⟩
  rw [parseValue]
  simp [skipWhitespace, isJsonSpace, parseString, hk]

theorem stringifyStringsFrom_pos (i j : Nat) (hi : 0 < i) (hj : 0 < j) (xs : List Str) :
    stringifyStringsFrom i xs = stringifyStringsFrom j xs := by
  induction xs generalizing i j with
  | nil => rfl
  | cons x xs ih =>
    simp only [stringifyStringsFrom, hi, hj, if_true]
    rw [ih (i + 1) (j + 1) (by omega) (by omega)]

theorem stringifyStringsFrom_tail (xs : List Str) :
    skipComma (skipWhitespace (stringifyStringsFrom 1 xs ++ [']'])) =
      stringifyStringsFrom 0 xs ++ [']'] := by
  cases xs with
  | nil => rfl
  | cons x xs =>
    simp only [stringifyStringsFrom, Nat.lt_irrefl, Nat.zero_lt_one, if_true, if_false,
      List.singleton_append, List.cons_append, List.nil_append,
      stringifyStringsFrom_pos (1 + 1) (0 + 1) (by omega) (by omega) xs]
    rfl

theorem stringifyStringsFrom_length (i : Nat) (xs : List Str) :
    xs.length ≤ (stringifyStringsFrom i xs).length := by
  induction xs generalizing i with
  | nil => simp [stringifyStringsFrom]
  | cons x xs ih =>
    have := ih (i + 1)
    simp only [stringifyStringsFrom, List.length_append, List.length_cons]
    omega

theorem parseArrayLoop_stringifyStrings {N : Type} (stod : Str → Option N) (F : Nat)
    (xs : List Str) (n : Nat) (hn : xs.length < n) (acc : List (Json N)) :
    ∃ m, parseArrayLoop (fun s' => parseValue stod (F + 1) s') n
      (stringifyStringsFrom 0 xs ++ [']']) acc = .ok (m, []) := by
  induction xs generalizing n acc with
  | nil =>
    obtain ⟨k, rfl⟩ : ∃ k, n = k + 1 := ⟨n - 1, by simp at hn; omega⟩
    exact ⟨acc, by rw [parseArrayLoop_succ]; simp [stringifyStringsFrom]⟩
  | cons x xs ih =>
    obtain ⟨k, rfl⟩ : ∃ k, n = k + 1 := ⟨n - 1, by omega⟩
    have htext : stringifyStringsFrom 0 (x :: xs) ++ [']'] =
        '"' :: (escapeString x ++ '"' :: (stringifyStringsFrom 1 xs ++ [']'])) := by
      simp [stringifyStringsFrom]
    obtain ⟨v, hv⟩ := parseValue_escaped stod x (stringifyStringsFrom 1 xs ++ [']']) F
    obtain ⟨m, hm⟩ := ih k (by simp only [List.length_cons] at hn; omega) (acc ++ [.str v])
    refine ⟨m, ?_⟩
    rw [htext, parseArrayLoop_succ]
    simp only [show ('"' == ']') = false by decide, Bool.false_eq_true, if_false, hv,
      stringifyStringsFrom_tail, hm]

theorem isValid_stringifyStrings_aux {N : Type} (stod : Str → Option N) (xs : List Str) :
    isValid stod (stringifyStrings xs) = true := by
  have hl := stringifyStringsFrom_length 0 xs
  have hlen : (stringifyStrings xs).length = (stringifyStringsFrom 0 xs).length + 2 := by
    simp [stringifyStrings]
  obtain ⟨m, hm⟩ := parseArrayLoop_stringifyStrings stod
    ((stringifyStringsFrom 0 xs).length + 1) xs ((stringifyStringsFrom 0 xs).length + 2)
    (by omega) []
  have hw : skipWhitespace (stringifyStringsFrom 0 xs ++ [']']) =
      stringifyStringsFrom 0 xs ++ [']'] := by
    cases xs with
    | nil => rfl
    | cons x xs => simp [stringifyStringsFrom, skipWhitespace, isJsonSpace]
  have hp : parseValue stod ((stringifyStrings xs).length + 1)
      (skipWhitespace (stringifyStrings xs)) = .ok (.arr m, []) := by
    rw [hlen, parseValue]
    have h0 : skipWhitespace (stringifyStrings xs) =
        '[' :: (stringifyStringsFrom 0 xs ++ [']']) :=
      skipWhitespace_of_not_space '[' _ (by decide)
    rw [skipWhitespace_idem, h0]
    simp only [show ('[' == '\x7b') = false by decide, Bool.false_eq_true, if_false,
      beq_self_eq_true, if_true, parseArrayWith, hw, hm]
  rw [isValid_of_parseValue stod _ _ _ hp]
  rfl

/-- C36: for every list of strings `xs`, `isValid` accepts `stringify(xs)`; the list of
`a`, of a quote, a backslash and the character 1, and of the empty string is written as
`["a","\"\\\u0001",""]`. -/
theorem isValid_stringifyStrings {N : Type} (stod : Str → Option N) :
    (∀ xs : List Str, isValid stod (stringifyStrings xs) = true) ∧
    stringifyStrings [] = "[]".toList ∧
    stringifyStrings ["a".toList, ['"', '\\', Char.ofNat 1], []] =
      "[\"a\",\"\\\"\\\\\\u0001\",\"\"]".toList :=
  ⟨isValid_stringifyStrings_aux stod, by decide, by decide⟩

/-! ## `JsonHandler`: the cursor stays in the text -/

theorem skipWhitespace_suffix (s : Str) : skipWhitespace s <:+ s := by
  induction s with
  | nil => exact List.suffix_refl _
  | cons c cs ih =>
    simp only [skipWhitespace]
    split
    · exact ih.trans (List.suffix_cons c cs)
    · exact List.suffix_refl _

theorem skipComma_suffix (s : Str) : skipComma s <:+ s := by
  cases s with
  | nil => exact List.suffix_refl _
  | cons c cs =>
    simp only [skipComma]
    split
    · exact List.suffix_cons c cs
    · exact List.suffix_refl _

theorem parseStringLoop_suffix_aux (n : Nat) (s k r : Str) (hn : s.length ≤ n)
    (h : parseStringLoop s = .ok (k, r)) : r <:+ s := by
  induction n generalizing s k r with
  | zero =>
    have : s = [] := List.length_eq_zero.mp (by omega)
    subst this
    simp [parseStringLoop] at h
  | succ n ih =>
    cases s with
    | nil => simp [parseStringLoop] at h
    | cons c cs =>
      simp only [List.length_cons] at hn
      rw [parseStringLoop_cons] at h
      split at h
      · simp only [Except.ok.injEq, Prod.mk.injEq] at h
        rw [← h.2]
        exact List.suffix_cons c cs
      · split at h
        · cases cs with
          | nil => simp at h
          | cons d ds =>
            simp only at h
            simp only [List.length_cons] at hn
            cases hr : parseStringLoop ds with
            | error e => rw [hr] at h; simp at h
            | ok p =>
              obtain ⟨k', r'⟩ := p
              rw [hr] at h
              simp only [Except.ok.injEq, Prod.mk.injEq] at h
              have := ih ds k' r' (by omega) hr
              rw [← h.2]
              exact (this.trans (List.suffix_cons d ds)).trans (List.suffix_cons c _)
        · cases hr : parseStringLoop cs with
          | error e => rw [hr] at h; simp at h
          | ok p =>
            obtain ⟨k', r'⟩ := p
            rw [hr] at h
            simp only [Except.ok.injEq, Prod.mk.injEq] at h
            have := ih cs k' r' (by omega) hr
            rw [← h.2]
            exact this.trans (List.suffix_cons c cs)

theorem parseString_suffix (s k r : Str) (h : parseString s = .ok (k, r)) : r <:+ s := by
  cases s with
  | nil => simp [parseString] at h
  | cons c cs =>
    simp only [parseString] at h
    split at h
    · exact (parseStringLoop_suffix_aux cs.length cs k r (le_refl _) h).trans
        (List.suffix_cons c cs)
    · simp at h

theorem takeDigits_suffix (s : Str) : (takeDigits s).2 <:+ s := by
  induction s with
  | nil => exact List.suffix_refl _
  | cons c cs ih =>
    simp only [takeDigits]
    split
    · exact ih.trans (List.suffix_cons c cs)
    · exact List.suffix_refl _

theorem scanSign_suffix (s : Str) : (scanSign s).2 <:+ s := by
  cases s with
  | nil => exact List.suffix_refl _
  | cons c t =>
    simp only [scanSign]
    split
    · exact List.suffix_cons c t
    · exact List.suffix_refl _

theorem scanFraction_suffix (s : Str) : (scanFraction s).2 <:+ s := by
  cases s with
  | nil => exact List.suffix_refl _
  | cons c t =>
    simp only [scanFraction]
    split
    · exact (takeDigits_suffix t).trans (List.suffix_cons c t)
    · exact List.suffix_refl _

theorem scanExponentSign_suffix (s : Str) : (scanExponentSign s).2 <:+ s := by
  cases s with
  | nil => exact List.suffix_refl _
  | cons c t =>
    simp only [scanExponentSign]
    split
    · exact List.suffix_cons c t
    · exact List.suffix_refl _

theorem scanExponent_suffix (s : Str) : (scanExponent s).2 <:+ s := by
  cases s with
  | nil => exact List.suffix_refl _
  | cons c t =>
    simp only [scanExponent]
    split
    · exact ((takeDigits_suffix _).trans (scanExponentSign_suffix t)).trans
        (List.suffix_cons c t)
    · exact List.suffix_refl _

theorem scanNumber_suffix (s : Str) : (scanNumber s).2 <:+ s := by
  simp only [scanNumber]
  exact (((scanExponent_suffix _).trans (scanFraction_suffix _)).trans
    (takeDigits_suffix _)).trans (scanSign_suffix s)

theorem parseNumber_suffix {N : Type} (stod : Str → Option N) (s : Str) (x : N) (r : Str)
    (h : parseNumber stod s = .ok (x, r)) : r <:+ s := by
  simp only [parseNumber] at h
  split at h
  · simp only [Except.ok.injEq, Prod.mk.injEq] at h
    rw [← h.2]
    exact scanNumber_suffix s
  · simp at h

theorem parseBoolean_suffix (s : Str) (b : Bool) (r : Str)
    (h : parseBoolean s = .ok (b, r)) : r <:+ s := by
  simp only [parseBoolean] at h
  split at h
  · simp only [Except.ok.injEq, Prod.mk.injEq] at h
    rw [← h.2]
    exact List.drop_suffix _ _
  · split at h
    · simp only [Except.ok.injEq, Prod.mk.injEq] at h
      rw [← h.2]
      exact List.drop_suffix _ _
    · simp at h

theorem parseNull_suffix (s : Str) (r : Str)
    (h : parseNull s = .ok ((), r)) : r <:+ s := by
  simp only [parseNull] at h
  split at h
  · simp only [Except.ok.injEq, Prod.mk.injEq] at h
    rw [← h.2]
    exact List.drop_suffix _ _
  · simp at h

theorem parseObjectLoop_suffix {N : Type} (pv : Str → Except JsonError (Json N × Str))
    (hpv : ∀ s v r, pv s = .ok (v, r) → r <:+ s)
    (n : Nat) (s : Str) (acc m : List (Str × Json N)) (r : Str)
    (h : parseObjectLoop pv n s acc = .ok (m, r)) : r <:+ s := by
  induction n generalizing s acc with
  | zero => simp [parseObjectLoop] at h
  | succ n ih =>
    rw [parseObjectLoop_succ] at h
    cases s with
    | nil => simp at h
    | cons c t =>
      simp only at h
      split at h
      · simp only [Except.ok.injEq, Prod.mk.injEq] at h
        rw [← h.2]
        exact List.suffix_cons c t
      · have hw := skipWhitespace_suffix (c :: t)
        cases hs1 : skipWhitespace (c :: t) with
        | nil => rw [hs1] at h; simp at h
        | cons q t1 =>
          rw [hs1] at h hw
          simp only at h
          split at h
          · simp at h
          · cases hps : parseString (q :: t1) with
            | error e => rw [hps] at h; simp at h
            | ok p =>
              obtain ⟨key, s2⟩ := p
              rw [hps] at h
              simp only at h
              have l2 := parseString_suffix _ _ _ hps
              have hw2 := skipWhitespace_suffix s2
              cases hs3 : skipWhitespace s2 with
              | nil => rw [hs3] at h; simp at h
              | cons d t3 =>
                rw [hs3] at h hw2
                simp only at h
                split at h
                · simp at h
                · have hw3 := skipWhitespace_suffix t3
                  cases hv : pv (skipWhitespace t3) with
                  | error e => rw [hv] at h; simp at h
                  | ok p =>
                    obtain ⟨v, s5⟩ := p
                    rw [hv] at h
                    simp only at h
                    have l5 := hpv _ _ _ hv
                    have l6 := ih _ _ h
                    have l7 := skipComma_suffix (skipWhitespace s5)
                    have l8 := skipWhitespace_suffix s5
                    exact (((((((l6.trans l7).trans l8).trans l5).trans hw3).trans
                      (List.suffix_cons d t3)).trans hw2).trans l2).trans hw

theorem parseArrayLoop_suffix {N : Type} (pv : Str → Except JsonError (Json N × Str))
    (hpv : ∀ s v r, pv s = .ok (v, r) → r <:+ s)
    (n : Nat) (s : Str) (acc m : List (Json N)) (r : Str)
    (h : parseArrayLoop pv n s acc = .ok (m, r)) : r <:+ s := by
  induction n generalizing s acc with
  | zero => simp [parseArrayLoop] at h
  | succ n ih =>
    rw [parseArrayLoop_succ] at h
    cases s with
    | nil => simp at h
    | cons c t =>
      simp only at h
      split at h
      · simp only [Except.ok.injEq, Prod.mk.injEq] at h
        rw [← h.2]
        exact List.suffix_cons c t
      · cases hv : pv (c :: t) with
        | error e => rw [hv] at h; simp at h
        | ok p =>
          obtain ⟨v, s1⟩ := p
          rw [hv] at h
          simp only at h
          have l1 := hpv _ _ _ hv
          have l2 := ih _ _ h
          have l3 := skipComma_suffix (skipWhitespace s1)
          have l4 := skipWhitespace_suffix s1
          exact ((l2.trans l3).trans l4).trans l1

theorem parseValue_suffix {N : Type} (stod : Str → Option N) (fuel : Nat) (s : Str)
    (v : Json N) (r : Str) (h : parseValue stod fuel s = .ok (v, r)) : r <:+ s := by
  induction fuel generalizing s v r with
  | zero => simp [parseValue] at h
  | succ fuel ih =>
    rw [parseValue] at h
    have hw := skipWhitespace_suffix s
    cases hs : skipWhitespace s with
    | nil => rw [hs] at h; simp at h
    | cons c t =>
      rw [hs] at h hw
      simp only at h
      split at h
      · rename_i hc
        simp only [parseObjectWith, hc, if_true] at h
        cases ho : parseObjectLoop (fun s' => parseValue stod fuel s') fuel (skipWhitespace t) []
          with
        | error e => rw [ho] at h; simp at h
        | ok p =>
          obtain ⟨m, r'⟩ := p
          rw [ho] at h
          simp only [Except.ok.injEq, Prod.mk.injEq] at h
          have l1 := parseObjectLoop_suffix _ (fun s v r hh => ih s v r hh) _ _ _ _ _ ho
          rw [← h.2]
          exact ((l1.trans (skipWhitespace_suffix t)).trans (List.suffix_cons c t)).trans hw
      · split at h
        · rename_i hc
          simp only [parseArrayWith, hc, if_true] at h
          cases ho : parseArrayLoop (fun s' => parseValue stod fuel s') fuel (skipWhitespace t) []
            with
          | error e => rw [ho] at h; simp at h
          | ok p =>
            obtain ⟨m, r'⟩ := p
            rw [ho] at h
            simp only [Except.ok.injEq, Prod.mk.injEq] at h
            have l1 := parseArrayLoop_suffix _ (fun s v r hh => ih s v r hh) _ _ _ _ _ ho
            rw [← h.2]
            exact ((l1.trans (skipWhitespace_suffix t)).trans (List.suffix_cons c t)).trans hw
        · split at h
          · cases hp : parseString (c :: t) with
            | error e => rw [hp] at h; simp at h
            | ok p =>
              obtain ⟨k, r'⟩ := p
              rw [hp] at h
              simp only [Except.ok.injEq, Prod.mk.injEq] at h
              rw [← h.2]
              exact (parseString_suffix _ _ _ hp).trans hw
          · split at h
            · cases hp : parseBoolean (c :: t) with
              | error e => rw [hp] at h; simp at h
              | ok p =>
                obtain ⟨b, r'⟩ := p
                rw [hp] at h
                simp only [Except.ok.injEq, Prod.mk.injEq] at h
                rw [← h.2]
                exact (parseBoolean_suffix _ _ _ hp).trans hw
            · split at h
              · cases hp : parseNull (c :: t) with
                | error e => rw [hp] at h; simp at h
                | ok p =>
                  obtain ⟨b, r'⟩ := p
                  rw [hp] at h
                  simp only [Except.ok.injEq, Prod.mk.injEq] at h
                  rw [← h.2]
                  exact (parseNull_suffix _ _ hp).trans hw
              · split at h
                · cases hp : parseNumber stod (c :: t) with
                  | error e => rw [hp] at h; simp at h
                  | ok p =>
                    obtain ⟨x, r'⟩ := p
                    rw [hp] at h
                    simp only [Except.ok.injEq, Prod.mk.injEq] at h
                    rw [← h.2]
                    exact (parseNumber_suffix stod _ _ _ hp).trans hw
                · simp at h
/-! ## `JsonHandler`: the result does not depend on the fuel -/

theorem parseObjectLoop_mono {N : Type} (pv pv' : Str → Except JsonError (Json N × Str))
    (hpv : ∀ s y, pv s = y → y ≠ .error .outOfFuel → pv' s = y)
    (n n' : Nat) (hn : n ≤ n') (s : Str) (acc : List (Str × Json N))
    (x : Except JsonError (List (Str × Json N) × Str))
    (h : parseObjectLoop pv n s acc = x) (hx : x ≠ .error .outOfFuel) :
    parseObjectLoop pv' n' s acc = x := by
  induction n generalizing n' s acc with
  | zero => exact absurd h.symm hx
  | succ n ih =>
    obtain ⟨k, rfl⟩ : ∃ k, n' = k + 1 := ⟨n' - 1, by omega⟩
    rw [parseObjectLoop_succ] at h ⊢
    cases s with
    | nil => exact h
    | cons c t =>
      simp only at h ⊢
      split
      · rename_i hc
        simpa only [hc, if_true] using h
      · rename_i hc
        simp only [hc, if_false] at h
        cases hs1 : skipWhitespace (c :: t) with
        | nil => rw [hs1] at h; exact h
        | cons q t1 =>
          rw [hs1] at h
          simp only at h ⊢
          split
          · rename_i hq
            simpa only [hq, if_true] using h
          · rename_i hq
            simp only [hq, if_false] at h
            cases hps : parseString (q :: t1) with
            | error e => rw [hps] at h; exact h
            | ok p =>
              obtain ⟨key, s2⟩ := p
              rw [hps] at h
              simp only at h ⊢
              cases hs3 : skipWhitespace s2 with
              | nil => rw [hs3] at h; exact h
              | cons d t3 =>
                rw [hs3] at h
                simp only at h ⊢
                split
                · rename_i hd
                  simpa only [hd, if_true] using h
                · rename_i hd
                  simp only [hd, if_false] at h
                  cases hv : pv (skipWhitespace t3) with
                  | error e =>
                    rw [hv] at h
                    simp only at h
                    have he : (Except.error e : Except JsonError (Json N × Str)) ≠
                        .error .outOfFuel := by
                      intro hh
                      simp only [Except.error.injEq] at hh
                      rw [hh] at h
                      exact hx h.symm
                    rw [hpv _ _ hv he]
                    exact h
                  | ok p =>
                    obtain ⟨v, s5⟩ := p
                    rw [hv] at h
                    simp only at h
                    rw [hpv _ _ hv (by simp)]
                    exact ih k (by omega) _ _ h

theorem parseLoop_mono {N : Type} (pv pv' : Str → Except JsonError (Json N × Str))
    (hpv : ∀ s y, pv s = y → y ≠ .error .outOfFuel → pv' s = y)
    (n n' : Nat) (hn : n ≤ n') (s : Str) (acc : List (Str × Json N))
    (x : Except JsonError (List (Str × Json N)))
    (h : parseLoop pv n s acc = x) (hx : x ≠ .error .outOfFuel) :
    parseLoop pv' n' s acc = x := by
  induction n generalizing n' s acc with
  | zero => exact absurd h.symm hx
  | succ n ih =>
    obtain ⟨k, rfl⟩ : ∃ k, n' = k + 1 := ⟨n' - 1, by omega⟩
    rw [parseLoop_succ] at h ⊢
    cases s with
    | nil => exact h
    | cons c t =>
      simp only at h ⊢
      split
      · rename_i hc
        simpa only [hc, if_true] using h
      · rename_i hc
        simp only [hc, if_false] at h
        cases hs1 : skipWhitespace (c :: t) with
        | nil => rw [hs1] at h; exact h
        | cons q t1 =>
          rw [hs1] at h
          simp only at h ⊢
          split
          · rename_i hq
            simpa only [hq, if_true] using h
          · rename_i hq
            simp only [hq, if_false] at h
            cases hps : parseString (q :: t1) with
            | error e => rw [hps] at h; exact h
            | ok p =>
              obtain ⟨key, s2⟩ := p
              rw [hps] at h
              simp only at h ⊢
              cases hs3 : skipWhitespace s2 with
              | nil => rw [hs3] at h; exact h
              | cons d t3 =>
                rw [hs3] at h
                simp only at h ⊢
                split
                · rename_i hd
                  simpa only [hd, if_true] using h
                · rename_i hd
                  simp only [hd, if_false] at h
                  cases hv : pv (skipWhitespace t3) with
                  | error e =>
                    rw [hv] at h
                    simp only at h
                    have he : (Except.error e : Except JsonError (Json N × Str)) ≠
                        .error .outOfFuel := by
                      intro hh
                      simp only [Except.error.injEq] at hh
                      rw [hh] at h
                      exact hx h.symm
                    rw [hpv _ _ hv he]
                    exact h
                  | ok p =>
                    obtain ⟨v, s5⟩ := p
                    rw [hv] at h
                    simp only at h
                    rw [hpv _ _ hv (by simp)]
                    exact ih k (by omega) _ _ h

theorem parseArrayLoop_mono {N : Type} (pv pv' : Str → Except JsonError (Json N × Str))
    (hpv : ∀ s y, pv s = y → y ≠ .error .outOfFuel → pv' s = y)
    (n n' : Nat) (hn : n ≤ n') (s : Str) (acc : List (Json N))
    (x : Except JsonError (List (Json N) × Str))
    (h : parseArrayLoop pv n s acc = x) (hx : x ≠ .error .outOfFuel) :
    parseArrayLoop pv' n' s acc = x := by
  induction n generalizing n' s acc with
  | zero => exact absurd h.symm hx
  | succ n ih =>
    obtain ⟨k, rfl⟩ : ∃ k, n' = k + 1 := ⟨n' - 1, by omega⟩
    rw [parseArrayLoop_succ] at h ⊢
    cases s with
    | nil => exact h
    | cons c t =>
      simp only at h ⊢
      split
      · rename_i hc
        simpa only [hc, if_true] using h
      · rename_i hc
        simp only [hc, if_false] at h
        cases hv : pv (c :: t) with
        | error e =>
          rw [hv] at h
          simp only at h
          have he : (Except.error e : Except JsonError (Json N × Str)) ≠
              .error .outOfFuel := by
            intro hh
            simp only [Except.error.injEq] at hh
            rw [hh] at h
            exact hx h.symm
          rw [hpv _ _ hv he]
          exact h
        | ok p =>
          obtain ⟨v, s1⟩ := p
          rw [hv] at h
          simp only at h
          rw [hpv _ _ hv (by simp)]
          exact ih k (by omega) _ _ h

/-- More fuel leaves every result of `parseValue` that is not the end of the fuel as it
is. -/
theorem parseValue_mono {N : Type} (stod : Str → Option N) (f f' : Nat) (hf : f ≤ f')
    (s : Str) (x : Except JsonError (Json N × Str))
    (h : parseValue stod f s = x) (hx : x ≠ .error .outOfFuel) :
    parseValue stod f' s = x := by
  induction f generalizing f' s x with
  | zero => exact absurd h.symm hx
  | succ f ih =>
    obtain ⟨k, rfl⟩ : ∃ k, f' = k + 1 := ⟨f' - 1, by omega⟩
    have hk : f ≤ k := by omega
    rw [parseValue] at h ⊢
    cases hs : skipWhitespace s with
    | nil => rw [hs] at h; exact h
    | cons c t =>
      rw [hs] at h
      simp only at h ⊢
      by_cases hc : c = '{'
      · subst hc
        simp only [parseObjectWith, beq_self_eq_true, if_true] at h ⊢
        cases ho : parseObjectLoop (fun s' => parseValue stod f s') f (skipWhitespace t) [] with
        | error e =>
          rw [ho] at h
          simp only at h
          have he : e ≠ .outOfFuel := by
            intro hh
            rw [hh] at h
            exact hx h.symm
          rw [parseObjectLoop_mono _ (fun s' => parseValue stod k s')
            (fun s y hy hne => ih k hk s y hy hne) f k hk _ _ _ ho (by simpa using he)]
          exact h
        | ok p =>
          rw [ho] at h
          rw [parseObjectLoop_mono _ (fun s' => parseValue stod k s')
            (fun s y hy hne => ih k hk s y hy hne) f k hk _ _ _ ho (by simp)]
          exact h
      · by_cases hc2 : c = '['
        · subst hc2
          simp only [parseArrayWith, beq_self_eq_true, if_true] at h ⊢
          have hno : (('[' : Char) == '{') = false := by decide
          simp only [hno, Bool.false_eq_true, if_false] at h ⊢
          cases ho : parseArrayLoop (fun s' => parseValue stod f s') f (skipWhitespace t) [] with
          | error e =>
            rw [ho] at h
            simp only at h
            have he : e ≠ .outOfFuel := by
              intro hh
              rw [hh] at h
              exact hx h.symm
            rw [parseArrayLoop_mono _ (fun s' => parseValue stod k s')
              (fun s y hy hne => ih k hk s y hy hne) f k hk _ _ _ ho (by simpa using he)]
            exact h
          | ok p =>
            rw [ho] at h
            rw [parseArrayLoop_mono _ (fun s' => parseValue stod k s')
              (fun s y hy hne => ih k hk s y hy hne) f k hk _ _ _ ho (by simp)]
            exact h
        · have h1 : (c == '{') = false := by simpa using hc
          have h2 : (c == '[') = false := by simpa using hc2
          simp only [h1, h2, Bool.false_eq_true, if_false] at h ⊢
          exact h

/-- With more fuel than the text is long the result of `parseValue` is one and the same:
the result of the source. -/
theorem parseValue_fuel_irrelevant {N : Type} (stod : Str → Option N) (f f' : Nat) (s : Str)
    (hf : s.length < f) (hf' : s.length < f') :
    parseValue stod f s = parseValue stod f' s := by
  rcases Nat.le_total f f' with h | h
  · exact (parseValue_mono stod f f' h s _ rfl (parseValue_fuel stod f s hf)).symm
  · exact parseValue_mono stod f' f h s _ rfl (parseValue_fuel stod f' s hf')

/-! ## `JsonHandler`: every round of a loop moves the cursor on -/

theorem parseObjectLoop_round {N : Type} (pv : Str → Except JsonError (Json N × Str))
    (c : Char) (t : Str) (acc : List (Str × Json N)) (hc : c ≠ '\x7d')
    (hpv : ∀ x v r, pv x = .ok (v, r) → r <:+ x ∧ r.length < x.length)
    (hf : ∀ x, x.length ≤ (c :: t).length → pv x ≠ .error .outOfFuel) :
    (∃ e, e ≠ JsonError.outOfFuel ∧
      ∀ n, parseObjectLoop pv (n + 1) (c :: t) acc = .error e) ∨
    (∃ s' acc', s' <:+ c :: t ∧ s'.length < (c :: t).length ∧
      ∀ n, parseObjectLoop pv (n + 1) (c :: t) acc = parseObjectLoop pv n s' acc') := by
  have hc' : (c == '\x7d') = false := by simpa using hc
  have hw := skipWhitespace_suffix (c :: t)
  cases hs1 : skipWhitespace (c :: t) with
  | nil =>
    left
    exact ⟨.expectedKeyQuote, by decide, fun n => by
      rw [parseObjectLoop_succ]; simp only [hc', Bool.false_eq_true, if_false, hs1]⟩
  | cons q t1 =>
    rw [hs1] at hw
    by_cases hq : q = '"'
    · subst hq
      cases hps : parseString ('"' :: t1) with
      | error e =>
        left
        have he : e ≠ .outOfFuel := by
          rw [parseString_error _ _ hps]
          decide
        exact ⟨e, he, fun n => by
          rw [parseObjectLoop_succ]
          simp only [hc', Bool.false_eq_true, if_false, hs1, bne_self_eq_false, hps]⟩
      | ok p =>
        obtain ⟨key, s2⟩ := p
        have l2 := parseString_suffix _ _ _ hps
        have l2' := parseString_length _ _ _ hps
        have hw2 := skipWhitespace_suffix s2
        cases hs3 : skipWhitespace s2 with
        | nil =>
          left
          exact ⟨.expectedColon, by decide, fun n => by
            rw [parseObjectLoop_succ]
            simp only [hc', Bool.false_eq_true, if_false, hs1, bne_self_eq_false, hps, hs3]⟩
        | cons d t3 =>
          rw [hs3] at hw2
          by_cases hd : d = ':'
          · subst hd
            have hw3 := skipWhitespace_suffix t3
            have hlen : (skipWhitespace t3).length < (c :: t).length := by
              have a1 := hw3.length_le
              have a2 := hw2.length_le
              have a3 := hw.length_le
              simp only [List.length_cons] at *
              omega
            cases hv : pv (skipWhitespace t3) with
            | error e =>
              left
              have he : e ≠ .outOfFuel := by
                intro hh
                rw [hh] at hv
                exact hf _ (Nat.le_of_lt hlen) hv
              exact ⟨e, he, fun n => by
                rw [parseObjectLoop_succ]
                simp only [hc', Bool.false_eq_true, if_false, hs1, bne_self_eq_false, hps, hs3,
                  hv]⟩
            | ok p =>
              obtain ⟨v, s5⟩ := p
              right
              have l5 := hpv _ _ _ hv
              have l7 := skipComma_suffix (skipWhitespace s5)
              have l8 := skipWhitespace_suffix s5
              refine ⟨skipComma (skipWhitespace s5), anySet acc key v, ?_, ?_, fun n => ?_⟩
              · exact ((((((l7.trans l8).trans l5.1).trans hw3).trans
                  (List.suffix_cons ':' t3)).trans hw2).trans l2).trans hw
              · have a1 := (l7.trans l8).length_le
                omega
              · rw [parseObjectLoop_succ]
                simp only [hc', Bool.false_eq_true, if_false, hs1, bne_self_eq_false, hps, hs3,
                  hv]
          · left
            have hd' : (d != ':') = true := by simpa using hd
            exact ⟨.expectedColon, by decide, fun n => by
              rw [parseObjectLoop_succ]
              simp only [hc', Bool.false_eq_true, if_false, hs1, bne_self_eq_false, hps, hs3,
                hd', if_true]⟩
    · left
      have hq' : (q != '"') = true := by simpa using hq
      exact ⟨.expectedKeyQuote, by decide, fun n => by
        rw [parseObjectLoop_succ]
        simp only [hc', Bool.false_eq_true, if_false, hs1, hq', if_true]⟩

theorem parseLoop_round {N : Type} (pv : Str → Except JsonError (Json N × Str))
    (c : Char) (t : Str) (acc : List (Str × Json N)) (hc : c ≠ '\x7d')
    (hpv : ∀ x v r, pv x = .ok (v, r) → r <:+ x ∧ r.length < x.length)
    (hf : ∀ x, x.length ≤ (c :: t).length → pv x ≠ .error .outOfFuel) :
    (∃ e, e ≠ JsonError.outOfFuel ∧ ∀ n, parseLoop pv (n + 1) (c :: t) acc = .error e) ∨
    (∀ n, parseLoop pv (n + 1) (c :: t) acc = .ok acc) ∨
    (∃ s' acc', s' <:+ c :: t ∧ s'.length < (c :: t).length ∧
      ∀ n, parseLoop pv (n + 1) (c :: t) acc = parseLoop pv n s' acc') := by
  have hc' : (c == '\x7d') = false := by simpa using hc
  have hw := skipWhitespace_suffix (c :: t)
  cases hs1 : skipWhitespace (c :: t) with
  | nil =>
    right; left
    exact fun n => by
      rw [parseLoop_succ]; simp only [hc', Bool.false_eq_true, if_false, hs1]
  | cons q t1 =>
    rw [hs1] at hw
    by_cases hq : q = '"'
    · subst hq
      cases hps : parseString ('"' :: t1) with
      | error e =>
        left
        have he : e ≠ .outOfFuel := by
          rw [parseString_error _ _ hps]
          decide
        exact ⟨e, he, fun n => by
          rw [parseLoop_succ]
          simp only [hc', Bool.false_eq_true, if_false, hs1, bne_self_eq_false, hps]⟩
      | ok p =>
        obtain ⟨key, s2⟩ := p
        have l2 := parseString_suffix _ _ _ hps
        have l2' := parseString_length _ _ _ hps
        have hw2 := skipWhitespace_suffix s2
        cases hs3 : skipWhitespace s2 with
        | nil =>
          right; left
          exact fun n => by
            rw [parseLoop_succ]
            simp only [hc', Bool.false_eq_true, if_false, hs1, bne_self_eq_false, hps, hs3]
        | cons d t3 =>
          rw [hs3] at hw2
          by_cases hd : d = ':'
          · subst hd
            have hw3 := skipWhitespace_suffix t3
            have hlen : (skipWhitespace t3).length < (c :: t).length := by
              have a1 := hw3.length_le
              have a2 := hw2.length_le
              have a3 := hw.length_le
              simp only [List.length_cons] at *
              omega
            cases hv : pv (skipWhitespace t3) with
            | error e =>
              left
              have he : e ≠ .outOfFuel := by
                intro hh
                rw [hh] at hv
                exact hf _ (Nat.le_of_lt hlen) hv
              exact ⟨e, he, fun n => by
                rw [parseLoop_succ]
                simp only [hc', Bool.false_eq_true, if_false, hs1, bne_self_eq_false, hps, hs3,
                  hv]⟩
            | ok p =>
              obtain ⟨v, s5⟩ := p
              right; right
              have l5 := hpv _ _ _ hv
              have l7 := skipComma_suffix (skipWhitespace s5)
              have l8 := skipWhitespace_suffix s5
              refine ⟨skipComma (skipWhitespace s5), anySet acc key v, ?_, ?_, fun n => ?_⟩
              · exact ((((((l7.trans l8).trans l5.1).trans hw3).trans
                  (List.suffix_cons ':' t3)).trans hw2).trans l2).trans hw
              · have a1 := (l7.trans l8).length_le
                omega
              · rw [parseLoop_succ]
                simp only [hc', Bool.false_eq_true, if_false, hs1, bne_self_eq_false, hps, hs3,
                  hv]
          · right; left
            have hd' : (d != ':') = true := by simpa using hd
            exact fun n => by
              rw [parseLoop_succ]
              simp only [hc', Bool.false_eq_true, if_false, hs1, bne_self_eq_false, hps, hs3,
                hd', if_true]
    · right; left
      have hq' : (q != '"') = true := by simpa using hq
      exact fun n => by
        rw [parseLoop_succ]
        simp only [hc', Bool.false_eq_true, if_false, hs1, hq', if_true]

theorem parseArrayLoop_round {N : Type} (pv : Str → Except JsonError (Json N × Str))
    (c : Char) (t : Str) (acc : List (Json N)) (hc : c ≠ ']')
    (hpv : ∀ x v r, pv x = .ok (v, r) → r <:+ x ∧ r.length < x.length)
    (hf : ∀ x, x.length ≤ (c :: t).length → pv x ≠ .error .outOfFuel) :
    (∃ e, e ≠ JsonError.outOfFuel ∧
      ∀ n, parseArrayLoop pv (n + 1) (c :: t) acc = .error e) ∨
    (∃ s' acc', s' <:+ c :: t ∧ s'.length < (c :: t).length ∧
      ∀ n, parseArrayLoop pv (n + 1) (c :: t) acc = parseArrayLoop pv n s' acc') := by
  have hc' : (c == ']') = false := by simpa using hc
  cases hv : pv (c :: t) with
  | error e =>
    left
    have he : e ≠ .outOfFuel := by
      intro hh
      rw [hh] at hv
      exact hf _ (le_refl _) hv
    exact ⟨e, he, fun n => by
      rw [parseArrayLoop_succ]
      simp only [hc', Bool.false_eq_true, if_false, hv]⟩
  | ok p =>
    obtain ⟨v, s1⟩ := p
    right
    have l5 := hpv _ _ _ hv
    have l7 := skipComma_suffix (skipWhitespace s1)
    have l8 := skipWhitespace_suffix s1
    refine ⟨skipComma (skipWhitespace s1), acc ++ [v], ?_, ?_, fun n => ?_⟩
    · exact (l7.trans l8).trans l5.1
    · have a1 := (l7.trans l8).length_le
      omega
    · rw [parseArrayLoop_succ]
      simp only [hc', Bool.false_eq_true, if_false, hv]

/-- C35: the parser always moves on. Where `parseValue` succeeds, what is left of the
text is a proper end piece of what it was given: the cursor is strictly further on and
not beyond the end. A round of the loop of `parseObject` and of `parseArray`, entered
before a character that does not close the loop, either throws or starts the next round
at a cursor strictly further on; a round of the loop of `parse` does the same or leaves
the loop with the map it has. Hence the fuel of the model is never used up: `parseValue`
gives one and the same result for every fuel above the length of the text, and `parse`
and `isValid` return on every input. -/
theorem parser_always_advances {N : Type} (stod : Str → Option N) :
    (∀ fuel s v r, parseValue stod fuel s = .ok (v, r) → r <:+ s ∧ r.length < s.length) ∧
    (∀ f c t acc, c ≠ '\x7d' → (c :: t).length < f →
      (∃ e, e ≠ JsonError.outOfFuel ∧
        ∀ n, parseObjectLoop (fun x => parseValue stod f x) (n + 1) (c :: t) acc = .error e) ∨
      (∃ s' acc', s' <:+ c :: t ∧ s'.length < (c :: t).length ∧
        ∀ n, parseObjectLoop (fun x => parseValue stod f x) (n + 1) (c :: t) acc =
          parseObjectLoop (fun x => parseValue stod f x) n s' acc')) ∧
    (∀ f c t acc, c ≠ ']' → (c :: t).length < f →
      (∃ e, e ≠ JsonError.outOfFuel ∧
        ∀ n, parseArrayLoop (fun x => parseValue stod f x) (n + 1) (c :: t) acc = .error e) ∨
      (∃ s' acc', s' <:+ c :: t ∧ s'.length < (c :: t).length ∧
        ∀ n, parseArrayLoop (fun x => parseValue stod f x) (n + 1) (c :: t) acc =
          parseArrayLoop (fun x => parseValue stod f x) n s' acc')) ∧
    (∀ f c t acc, c ≠ '\x7d' → (c :: t).length < f →
      (∃ e, e ≠ JsonError.outOfFuel ∧
        ∀ n, parseLoop (fun x => parseValue stod f x) (n + 1) (c :: t) acc = .error e) ∨
      (∀ n, parseLoop (fun x => parseValue stod f x) (n + 1) (c :: t) acc = .ok acc) ∨
      (∃ s' acc', s' <:+ c :: t ∧ s'.length < (c :: t).length ∧
        ∀ n, parseLoop (fun x => parseValue stod f x) (n + 1) (c :: t) acc =
          parseLoop (fun x => parseValue stod f x) n s' acc')) ∧
    (∀ f s, s.length < f → parseValue stod f s ≠ .error .outOfFuel ∧
      parseValue stod f s = parseValue stod (s.length + 1) s) ∧
    (∀ json, parse stod json ≠ .error .outOfFuel) ∧
    (∀ json, parseValue stod (json.length + 1) (skipWhitespace json) ≠ .error .outOfFuel ∧
      (isValid stod json = true ↔ ∃ v rest,
        parseValue stod (json.length + 1) (skipWhitespace json) = .ok (v, rest) ∧
        skipWhitespace rest = [])) := by
  have hpv : ∀ f x v r, parseValue stod f x = .ok (v, r) → r <:+ x ∧ r.length < x.length :=
    fun f x v r h => ⟨parseValue_suffix stod f x v r h, parseValue_length stod f x v r h⟩
  refine ⟨hpv, ?_, ?_, ?_, ?_, parse_fuel stod, ?_⟩
  · intro f c t acc hc hlen
    exact parseObjectLoop_round _ c t acc hc (hpv f)
      (fun x hx => parseValue_fuel stod f x (by omega))
  · intro f c t acc hc hlen
    exact parseArrayLoop_round _ c t acc hc (hpv f)
      (fun x hx => parseValue_fuel stod f x (by omega))
  · intro f c t acc hc hlen
    exact parseLoop_round _ c t acc hc (hpv f)
      (fun x hx => parseValue_fuel stod f x (by omega))
  · intro f s hf
    exact ⟨parseValue_fuel stod f s hf,
      parseValue_fuel_irrelevant stod f (s.length + 1) s hf (Nat.lt_succ_self _)⟩
  · intro json
    refine ⟨isValid_fuel stod json, ?_⟩
    simp only [isValid]
    cases h : parseValue stod (json.length + 1) (skipWhitespace json) with
    | error e => simp
    | ok p =>
      obtain ⟨v, r⟩ := p
      simp only [List.isEmpty_iff, Except.ok.injEq, Prod.mk.injEq]
      constructor
      · intro hr
        exact ⟨v, r, ⟨rfl, rfl⟩, hr⟩
      · rintro ⟨v', r', ⟨_, rfl⟩, hr⟩
        exact hr

/-! ## `JsonHandler::parse` and `parseObject` on well-formed objects -/

theorem parseLoop_of_parseObjectLoop {N : Type} (pv : Str → Except JsonError (Json N × Str))
    (n : Nat) (s : Str) (acc m : List (Str × Json N)) (r : Str)
    (h : parseObjectLoop pv n s acc = .ok (m, r)) : parseLoop pv n s acc = .ok m := by
  induction n generalizing s acc with
  | zero => simp [parseObjectLoop] at h
  | succ n ih =>
    rw [parseObjectLoop_succ] at h
    rw [parseLoop_succ]
    cases s with
    | nil => simp at h
    | cons c t =>
      simp only at h ⊢
      split at h
      · rename_i hc
        simp only [Except.ok.injEq, Prod.mk.injEq] at h
        simp only [hc, if_true, h.1]
      · rename_i hc
        simp only [hc, if_false]
        cases hs1 : skipWhitespace (c :: t) with
        | nil => rw [hs1] at h; simp at h
        | cons q t1 =>
          rw [hs1] at h
          simp only at h ⊢
          split at h
          · simp at h
          · rename_i hq
            simp only [hq, if_false]
            cases hps : parseString (q :: t1) with
            | error e => rw [hps] at h; simp at h
            | ok p =>
              obtain ⟨key, s2⟩ := p
              rw [hps] at h
              simp only at h ⊢
              cases hs3 : skipWhitespace s2 with
              | nil => rw [hs3] at h; simp at h
              | cons d t3 =>
                rw [hs3] at h
                simp only at h ⊢
                split at h
                · simp at h
                · rename_i hd
                  simp only [hd, if_false]
                  cases hv : pv (skipWhitespace t3) with
                  | error e => rw [hv] at h; simp at h
                  | ok p =>
                    obtain ⟨v, s5⟩ := p
                    rw [hv] at h
                    simp only at h ⊢
                    exact ih _ _ h

/-- C37: on a text whose first character after white space is an opening brace and
on which `parseObject`, started at that brace, succeeds (with whatever fuel), `parse`
succeeds and returns the same map: the same keys in the same places with the same
values, a later member of a key having replaced the earlier one. -/
theorem parse_agrees_with_parseObject {N : Type} (stod : Str → Option N) (json t : Str)
    (fuel : Nat) (m : List (Str × Json N)) (rest : Str)
    (hs : skipWhitespace json = '\x7b' :: t)
    (h : parseObject stod fuel ('\x7b' :: t) = .ok (m, rest)) :
    parse stod json = .ok m := by
  have hp : parse stod json = parseLoop (fun s' => parseValue stod (json.length + 1) s')
      (json.length + 1) (skipWhitespace t) [] := by
    simp only [parse, hs, bne_self_eq_false, Bool.false_eq_true, if_false]
  have hne := parse_fuel stod json
  rw [hp] at hne ⊢
  simp only [parseObject, parseObjectWith, beq_self_eq_true, if_true] at h
  have h1 := parseLoop_of_parseObjectLoop _ _ _ _ _ _ h
  have h2 := parseLoop_mono (fun s' => parseValue stod fuel s')
    (fun s' => parseValue stod (max fuel (json.length + 1)) s')
    (fun s y hy hne => parseValue_mono stod _ _ (Nat.le_max_left _ _) s y hy hne)
    fuel (max fuel (json.length + 1)) (Nat.le_max_left _ _) _ _ _ h1 (by simp)
  have h3 := parseLoop_mono (fun s' => parseValue stod (json.length + 1) s')
    (fun s' => parseValue stod (max fuel (json.length + 1)) s')
    (fun s y hy hne => parseValue_mono stod _ _ (Nat.le_max_right _ _) s y hy hne)
    (json.length + 1) (max fuel (json.length + 1)) (Nat.le_max_right _ _) _ _ _ rfl hne
  rw [← h3, h2]

/-- Instance of C37: an object after a space, with the key `a` twice and text after the
closing brace. -/
theorem parse_agrees_with_parseObject_witness :
    skipWhitespace " \x7b\"a\":1, \"b\":[true,\"x\"], \"a\":null\x7d tail".toList =
      '\x7b' :: "\"a\":1, \"b\":[true,\"x\"], \"a\":null\x7d tail".toList ∧
    parseObject stodDec 4 "\x7b\"a\":1, \"b\":[true,\"x\"], \"a\":null\x7d tail".toList =
      .ok ([("a".toList, .null), ("b".toList, .arr [.bool true, .str "x".toList])],
        " tail".toList) ∧
    parse stodDec " \x7b\"a\":1, \"b\":[true,\"x\"], \"a\":null\x7d tail".toList =
      .ok [("a".toList, .null), ("b".toList, .arr [.bool true, .str "x".toList])] :=
  ⟨by decide, by rfl, parse_agrees_with_parseObject stodDec
    " \x7b\"a\":1, \"b\":[true,\"x\"], \"a\":null\x7d tail".toList
    "\"a\":1, \"b\":[true,\"x\"], \"a\":null\x7d tail".toList 4 _ " tail".toList
    (by decide) (by rfl)⟩

/-! ## `Route::pathToRegex`: one capture group for each parameter name -/

theorem reLoop_paramGroup (st : ReParse) (hm : st.mode = .normal) (hg : st.inGroup = false) :
    reLoop paramGroup st = some {
      nodes := st.nodes ++ [Node.openGroup, Node.plus (.noneOf ['/']), Node.closeGroup],
      inGroup := false, mode := .normal } := by
  obtain ⟨nodes, g, mode⟩ := st
  simp only at hm hg
  subst hm
  subst hg
  simp [paramGroup, reLoop, reStep, ReParse.push, List.dropLast_concat]

theorem pathToRegexStep_groups (len i : Nat) (c : Char) (st : RegexBuild) (rs : ReParse)
    (h : reLoop st.regex { nodes := [], inGroup := false, mode := .normal } = some rs)
    (hm : rs.mode = .normal) (hg : rs.inGroup = false) :
    ∃ rs', reLoop (pathToRegexStep len st i c).regex
        { nodes := [], inGroup := false, mode := .normal } = some rs' ∧
      rs'.mode = .normal ∧ rs'.inGroup = false ∧
      (((pathToRegexStep len st i c).paramNames = st.paramNames ∧
          (rs'.nodes = rs.nodes ∨ rs'.nodes = rs.nodes ++ [Node.one (.lit c)])) ∨
        (∃ name, (pathToRegexStep len st i c).paramNames = st.paramNames ++ [name] ∧
          (pathToRegexStep len st i c).regex = st.regex ++ paramGroup ∧
          rs'.nodes = rs.nodes ++
            [Node.openGroup, Node.plus (.noneOf ['/']), Node.closeGroup])) := by
  unfold pathToRegexStep
  split
  · exact ⟨rs, h, hm, hg, Or.inl ⟨rfl, Or.inl rfl⟩⟩
  · split
    · refine ⟨ReParse.mk
        (rs.nodes ++ [Node.openGroup, Node.plus (.noneOf ['/']), Node.closeGroup])
        false .normal, ?_, rfl, rfl, Or.inr ⟨_, rfl, rfl, rfl⟩⟩
      simp only [reLoop_append, h, Option.some_bind]
      exact reLoop_paramGroup rs hm hg
    · split
      · exact ⟨rs, h, hm, hg, Or.inl ⟨rfl, Or.inl rfl⟩⟩
      · refine ⟨rs.push (.one (.lit c)), ?_, rfl, hg, Or.inl ⟨rfl, Or.inr rfl⟩⟩
        simp only [reLoop_append, h, Option.some_bind]
        exact reStep_escaped rs c hm

theorem pathToRegexLoop_groups (len : Nat) (cs : Str) (i : Nat) (st : RegexBuild)
    (rs : ReParse) (n0 new : List Str)
    (h : reLoop st.regex { nodes := [], inGroup := false, mode := .normal } = some rs)
    (hm : rs.mode = .normal) (hg : rs.inGroup = false)
    (hn : st.paramNames = n0 ++ new)
    (ho : rs.nodes.count Node.openGroup = new.length)
    (hc : rs.nodes.count Node.closeGroup = new.length) :
    ∃ rs' new', reLoop (pathToRegexLoop len i cs st).regex
        { nodes := [], inGroup := false, mode := .normal } = some rs' ∧
      rs'.mode = .normal ∧ rs'.inGroup = false ∧
      (pathToRegexLoop len i cs st).paramNames = n0 ++ new' ∧
      rs'.nodes.count Node.openGroup = new'.length ∧
      rs'.nodes.count Node.closeGroup = new'.length := by
  induction cs generalizing i st rs new with
  | nil => exact ⟨rs, new, h, hm, hg, hn, ho, hc⟩
  | cons c cs ih =>
    rw [pathToRegexLoop]
    obtain ⟨rs', h', hm', hg', hcase⟩ := pathToRegexStep_groups len i c st rs h hm hg
    rcases hcase with ⟨hsame, hnodes⟩ | ⟨name, hnames, _, hnodes⟩
    · refine ih (i + 1) _ rs' new h' hm' hg' (hsame.trans hn) ?_ ?_
      · rcases hnodes with e | e
        · rw [e]; exact ho
        · rw [e, List.count_append, ho]; rfl
      · rcases hnodes with e | e
        · rw [e]; exact hc
        · rw [e, List.count_append, hc]; rfl
    · refine ih (i + 1) _ rs' (new ++ [name]) h' hm' hg' ?_ ?_ ?_
      · rw [hnames, hn, List.append_assoc]
      · rw [hnodes, List.count_append, ho, List.length_append]; rfl
      · rw [hnodes, List.count_append, hc, List.length_append]; rfl

theorem pathToRegex_groups (path : Str) (n0 : List Str) :
    ∃ nodes new, regexCompile (pathToRegex path n0).1 = some nodes ∧
      (pathToRegex path n0).2 = n0 ++ new ∧
      nodes.count Node.openGroup = new.length ∧
      nodes.count Node.closeGroup = new.length := by
  have h0 : reLoop ['^'] { nodes := [], inGroup := false, mode := .normal }
      = some { nodes := [Node.bol], inGroup := false, mode := .normal } := by decide
  obtain ⟨rs, new, h, hm, hg, hn, ho, hc⟩ := pathToRegexLoop_groups path.length path 0
    { regex := ['^'], currentParam := [], inParam := false, paramNames := n0 }
    _ n0 [] h0 rfl rfl (List.append_nil n0).symm rfl rfl
  have heol : ∀ st : ReParse, st.mode = .normal → reLoop ['$'] st = some (st.push .eol) := by
    intro st hst
    obtain ⟨nodes, g, mode⟩ := st
    simp only at hst
    subst hst
    simp [reLoop, reStep, ReParse.push]
  simp only [pathToRegex]
  generalize pathToRegexLoop path.length 0 path
    { regex := ['^'], currentParam := [], inParam := false, paramNames := n0 } = st at h hn ⊢
  split
  · refine ⟨rs.nodes ++ [Node.openGroup, Node.plus (.noneOf ['/']), Node.closeGroup] ++
      [Node.eol], new ++ [st.currentParam], ?_, ?_, ?_, ?_⟩
    · simp only [regexCompile, reLoop_append, h, Option.some_bind,
        reLoop_paramGroup rs hm hg]
      rw [heol _ rfl]
      simp [ReParse.push]
    · simp only [hn, List.append_assoc]
    · rw [List.count_append, List.count_append, ho, List.length_append]; rfl
    · rw [List.count_append, List.count_append, hc, List.length_append]; rfl
  · refine ⟨rs.nodes ++ [Node.eol], new, ?_, hn, ?_, ?_⟩
    · simp only [regexCompile, reLoop_append, h, Option.some_bind]
      rw [heol _ hm]
      simp [ReParse.push, hm, hg]
    · rw [List.count_append, ho]; rfl
    · rw [List.count_append, hc]; rfl

theorem plusLoop_caps (p : Char → Bool) (k : MatchState → Option MatchState) (n : Nat)
    (hk : ∀ st r, k st = some r → r.caps.length = st.caps.length + n)
    (rest : Str) (st r : MatchState) (h : plusLoop p k rest st = some r) :
    r.caps.length = st.caps.length + n := by
  induction rest generalizing st with
  | nil => simp [plusLoop] at h
  | cons c cs ih =>
    rw [plusLoop] at h
    split at h
    · cases hp : plusLoop p k cs (st.eat c cs) with
      | some r' =>
        rw [hp] at h
        simp only [Option.some.injEq] at h
        subst h
        exact ih (st.eat c cs) hp
      | none =>
        rw [hp] at h
        exact hk (st.eat c cs) r h
    · simp at h

theorem matchNodes_caps (ns : List Node) (st r : MatchState)
    (h : matchNodes ns st = some r) :
    r.caps.length = st.caps.length + ns.count Node.closeGroup := by
  induction ns generalizing st r with
  | nil =>
    rw [matchNodes] at h
    split at h
    · simp only [Option.some.injEq] at h
      subst h
      rfl
    · simp at h
  | cons n ns ih =>
    cases n with
    | bol =>
      rw [matchNodes] at h
      split at h
      · rw [ih _ _ h, List.count_cons]; rfl
      · simp at h
    | eol =>
      rw [matchNodes] at h
      split at h
      · rw [ih _ _ h, List.count_cons]; rfl
      · simp at h
    | one k =>
      rw [matchNodes] at h
      split at h
      · split at h
        · rw [ih _ _ h, List.count_cons]; rfl
        · simp at h
      · simp at h
    | plus k =>
      rw [matchNodes] at h
      rw [plusLoop_caps _ _ (ns.count Node.closeGroup) (fun st' r' hh => ih st' r' hh) _ _ _ h,
        List.count_cons]
      rfl
    | openGroup =>
      rw [matchNodes] at h
      rw [ih _ _ h, List.count_cons]; rfl
    | closeGroup =>
      rw [matchNodes] at h
      rw [ih _ _ h, List.count_cons]
      simp only [List.length_append, List.length_singleton, beq_self_eq_true, if_true]
      omega

theorem regexMatch_length (re : List Node) (s : Str) (subs : List Str)
    (h : regexMatch re s = some subs) : subs.length = re.count Node.closeGroup := by
  unfold regexMatch at h
  cases hm : matchNodes re { rest := s, consumed := 0, cur := none, caps := [] } with
  | none => rw [hm] at h; simp at h
  | some r =>
    rw [hm] at h
    simp only [Option.map_some', Option.some.injEq] at h
    rw [← h, matchNodes_caps _ _ _ hm]
    simp

/-- C33: for every path pattern `Route::pathToRegex` writes a pattern that compiles,
and the names it adds to `paramNames` are exactly as many as the pattern has capture
groups. Name and group belong together by position: every round of the loop either
leaves the names as they are and adds at most one literal to the pattern, or adds one name
and, in the same round, the group `([^/]+)` and nothing else. So a route has as many
names as groups, a match has as many sub-matches as the route has names, and
`extractParams` binds the k-th name to the k-th sub-match. Shown on a segment with two
colons, an empty name and a trailing slash. -/
theorem paramNames_match_capture_groups :
    (∀ path n0, ∃ nodes new, regexCompile (pathToRegex path n0).1 = some nodes ∧
      (pathToRegex path n0).2 = n0 ++ new ∧
      nodes.count Node.openGroup = new.length ∧
      nodes.count Node.closeGroup = new.length) ∧
    (∀ len i c st rs,
      reLoop st.regex { nodes := [], inGroup := false, mode := .normal } = some rs →
      rs.mode = .normal → rs.inGroup = false →
      ∃ rs', reLoop (pathToRegexStep len st i c).regex
          { nodes := [], inGroup := false, mode := .normal } = some rs' ∧
        rs'.mode = .normal ∧ rs'.inGroup = false ∧
        (((pathToRegexStep len st i c).paramNames = st.paramNames ∧
            (rs'.nodes = rs.nodes ∨ rs'.nodes = rs.nodes ++ [Node.one (.lit c)])) ∨
          (∃ name, (pathToRegexStep len st i c).paramNames = st.paramNames ++ [name] ∧
            (pathToRegexStep len st i c).regex = st.regex ++ paramGroup ∧
            rs'.nodes = rs.nodes ++
              [Node.openGroup, Node.plus (.noneOf ['/']), Node.closeGroup]))) ∧
    (∀ method path handler, ∃ r, Route.create method path handler = some r ∧
      r.paramNames = (pathToRegex path []).2 ∧
      r.regex.count Node.openGroup = r.paramNames.length ∧
      ∀ requestPath subs, regexMatch r.regex requestPath = some subs →
        subs.length = r.paramNames.length ∧
        ∀ req, r.extractParams requestPath req = bindParams r.paramNames subs req) ∧
    pathToRegex "/:a:b".toList [] = ("^/([^/]+)$".toList, ["b".toList]) ∧
    pathToRegex "/a/:/b".toList [] = ("^/a/([^/]+)b$".toList, [[]]) ∧
    pathToRegex "/a/:id/".toList [] = ("^/a/([^/]+)$".toList, ["id".toList]) ∧
    pathToRegex "/:x/:y".toList [] = ("^/([^/]+)([^/]+)$".toList, ["x".toList, "y".toList]) ∧
    regexCompile "^/([^/]+)([^/]+)$".toList = some [.bol, .one (.lit '/'), .openGroup,
      .plus (.noneOf ['/']), .closeGroup, .openGroup, .plus (.noneOf ['/']), .closeGroup,
      .eol] := by
  refine ⟨pathToRegex_groups, pathToRegexStep_groups, ?_, by decide, by decide, by decide,
    by decide, by decide⟩
  intro method path handler
  obtain ⟨nodes, new, hre, hn, ho, hc⟩ := pathToRegex_groups path []
  refine ⟨Route.mk method path (pathToRegex path []).1 nodes (pathToRegex path []).2 handler,
    ?_, rfl, ?_, ?_⟩
  · simp only [Route.create, hre]
  · simp only [hn, List.nil_append]
    exact ho
  · intro requestPath subs hsubs
    refine ⟨?_, fun req => ?_⟩
    · simp only at hsubs
      rw [regexMatch_length _ _ _ hsubs, hn, List.nil_append]
      exact hc
    · simp only [Route.extractParams]
      simp only at hsubs
      rw [hsubs]

/-! ## The chain of `HttpServer::processRequest` and the class `Middleware` -/

theorem handleRequestFrom_conn (routes : List Route) (k : Nat) (w v : World)
    (h : w.conn = v.conn) :
    (handleRequestFrom routes k w).1 = (handleRequestFrom routes k v).1 ∧
    (handleRequestFrom routes k w).2.conn = (handleRequestFrom routes k v).2.conn := by
  induction routes generalizing k with
  | nil => exact ⟨rfl, h⟩
  | cons r rest ih =>
    simp only [handleRequestFrom, h]
    split
    · exact ⟨rfl, rfl⟩
    · exact ih _

theorem routeOrNotFound_conn (srv : HttpServer) (w v : World) (h : w.conn = v.conn) :
    (routeOrNotFound srv w).conn = (routeOrNotFound srv v).conn := by
  have hh := handleRequestFrom_conn srv.routes 0 { w with log := w.log ++ [.final] }
    { v with log := v.log ++ [.final] } h
  simp only [routeOrNotFound, handleRequest, hh.1]
  split
  · simp only [hh.2]
  · exact hh.2

theorem routeOrNotFound_filter (srv : HttpServer) (w : World) :
    (routeOrNotFound srv w).log.filter (fun ev => !ev.isRoute) =
      w.log.filter (fun ev => !ev.isRoute) ++ [.final] := by
  obtain ⟨tail, ht, hr⟩ := routeOrNotFound_log srv w
  rw [ht, List.filter_append, List.filter_append]
  have h1 : tail.filter (fun ev => !ev.isRoute) = [] := by
    rw [List.filter_eq_nil_iff]
    intro ev hev
    obtain ⟨j, rfl⟩ := hr ev hev
    simp [Event.isRoute]
  rw [h1, List.append_nil]
  rfl

theorem foldl_use (handlers : List MiddlewareFunction) (chain : List MiddlewareEntry) :
    handlers.foldl Middleware.use chain =
      chain ++ handlers.map (fun f => { path := [], function := f }) := by
  induction handlers generalizing chain with
  | nil => simp
  | cons f fs ih => simp [List.foldl_cons, ih, Middleware.use]

theorem executeNext_serverNext (srv : HttpServer)
    (h : ∀ m ∈ srv.globalMiddleware, ∀ c, (m c).AtMostOnce)
    (fuel i : Nat) (w1 w2 : World)
    (hi : w2.middlewareIndex = i) (hc : w1.conn = w2.conn)
    (hlog : w1.log = w2.log.filter (fun ev => !ev.isRoute))
    (hle : i ≤ srv.globalMiddleware.length)
    (hfuel : srv.globalMiddleware.length - i < fuel) :
    ∃ w1' w2',
      executeNext (srv.globalMiddleware.map (fun f => { path := [], function := f }))
        (routingStep srv) fuel i w1 = .ok w1' ∧
      serverNext srv fuel w2 = .ok w2' ∧ w1'.conn = w2'.conn ∧
      w1'.log = w2'.log.filter (fun ev => !ev.isRoute) := by
  induction fuel generalizing i w1 w2 with
  | zero => omega
  | succ fuel ih =>
    subst hi
    by_cases hlt : w2.middlewareIndex < srv.globalMiddleware.length
    · have hget : srv.globalMiddleware[w2.middlewareIndex]? =
          some srv.globalMiddleware[w2.middlewareIndex] := List.getElem?_eq_getElem hlt
      have hget1 : (srv.globalMiddleware.map
          (fun f => ({ path := [], function := f } : MiddlewareEntry)))[w2.middlewareIndex]? =
          some { path := [], function := srv.globalMiddleware[w2.middlewareIndex] } := by
        rw [List.getElem?_map, hget]
        rfl
      have hne : w2.middlewareIndex ≠ (srv.globalMiddleware.map
          (fun f => ({ path := [], function := f } : MiddlewareEntry))).length := by
        rw [List.length_map]; omega
      have hpm : ∀ p, pathMatches [] p = true := fun p => rfl
      have hm := h _ (List.getElem_mem hlt) w2.conn
      have e1 : executeNext (srv.globalMiddleware.map
          (fun f => ({ path := [], function := f } : MiddlewareEntry))) (routingStep srv)
          (fuel + 1) w2.middlewareIndex w1 =
          runHandler (fun calls w' => executeNext (srv.globalMiddleware.map
            (fun f => ({ path := [], function := f } : MiddlewareEntry))) (routingStep srv)
            fuel (w2.middlewareIndex + calls + 1) w') 0
            (srv.globalMiddleware[w2.middlewareIndex] w2.conn)
            { w1 with log := w1.log ++ [.invoke w2.middlewareIndex] } := by
        simp only [executeNext, hne, if_false, hget1, hpm, if_true, hc]
      have e2 : serverNext srv (fuel + 1) w2 =
          runHandler (fun _ w' => serverNext srv fuel w') 0
            (srv.globalMiddleware[w2.middlewareIndex] w2.conn)
            { w2 with middlewareIndex := w2.middlewareIndex + 1,
                      log := w2.log ++ [.invoke w2.middlewareIndex] } := by
        simp only [serverNext, hget]
      rw [e1, e2]
      have hl2 : w1.log ++ [Event.invoke w2.middlewareIndex] =
          (w2.log ++ [Event.invoke w2.middlewareIndex]).filter (fun ev => !ev.isRoute) := by
        simp [List.filter_append, hlog, Event.isRoute]
      cases hmc : srv.globalMiddleware[w2.middlewareIndex] w2.conn with
      | ret c' =>
        exact ⟨{ w1 with conn := c', log := w1.log ++ [.invoke w2.middlewareIndex] },
          { w2 with conn := c', middlewareIndex := w2.middlewareIndex + 1,
                    log := w2.log ++ [.invoke w2.middlewareIndex] }, rfl, rfl, rfl, hl2⟩
      | callNext c' k =>
        rw [hmc] at hm
        obtain ⟨w1', w2', e1', e2', hc', hlog'⟩ := ih (w2.middlewareIndex + 1)
          { w1 with conn := c', log := w1.log ++ [.invoke w2.middlewareIndex] }
          { w2 with conn := c', middlewareIndex := w2.middlewareIndex + 1,
                    log := w2.log ++ [.invoke w2.middlewareIndex] }
          rfl rfl hl2 (by omega) (by omega)
        have hk := hm w2'.conn
        simp only [runHandler, Nat.add_zero, e1', e2', hc']
        cases hkc : k w2'.conn with
        | ret c'' =>
          exact ⟨{ w1' with conn := c'' }, { w2' with conn := c'' }, rfl, rfl, rfl, hlog'⟩
        | callNext c'' k' => rw [hkc] at hk; exact absurd hk (by simp [Mw.Returns])
    · have hlen : w2.middlewareIndex = srv.globalMiddleware.length := by omega
      have hnone : srv.globalMiddleware[w2.middlewareIndex]? = none :=
        List.getElem?_eq_none (by omega)
      have he : w2.middlewareIndex = (srv.globalMiddleware.map
          (fun f => ({ path := [], function := f } : MiddlewareEntry))).length := by
        rw [List.length_map]; exact hlen
      refine ⟨{ w1 with conn := routingStep srv w1.conn, log := w1.log ++ [.final] },
        routeOrNotFound srv w2, by simp only [executeNext, he, if_true],
        by simp only [serverNext, hnone], ?_, ?_⟩
      · exact routeOrNotFound_conn srv _ _ hc
      · rw [routeOrNotFound_filter, hlog]

/-- C38: for global middleware functions that each call `next()` at most once, and
every request, the class `Middleware` and the chain of `HttpServer::processRequest` do the
same. `Middleware::execute`, on the functions registered without a path and with the
routing step as final continuation, and the chain of `processRequest` both return, with
the same request and response, and their logs are equal once the entries of the router
are left out: the same functions are called in the same order, and the final continuation
is called in the one run if and only if it is called in the other. Where no static
path serves the request, `processRequest` is this chain on the response with the default
headers. -/
theorem execute_agrees_with_processRequest (srv : HttpServer) (c : Conn)
    (h : ∀ m ∈ srv.globalMiddleware, ∀ c, (m c).AtMostOnce) :
    (∃ w1 w2,
      execute (srv.globalMiddleware.foldl Middleware.use []) (routingStep srv)
        { conn := c, middlewareIndex := 0, log := [] } = .ok w1 ∧
      dispatch srv c = .ok w2 ∧ w1.conn = w2.conn ∧
      w1.log = w2.log.filter (fun ev => !ev.isRoute) ∧
      (Event.final ∈ w1.log ↔ Event.final ∈ w2.log) ∧
      (∀ i, Event.invoke i ∈ w1.log ↔ Event.invoke i ∈ w2.log)) ∧
    (staticLoop srv.serveFile { c with res := c.res.setDefaultHeaders } srv.staticPaths = none →
      processRequest srv c = dispatch srv { c with res := c.res.setDefaultHeaders }) := by
  constructor
  · have key : ∃ w1 w2 : World,
        execute (srv.globalMiddleware.foldl Middleware.use []) (routingStep srv)
          { conn := c, middlewareIndex := 0, log := [] } = .ok w1 ∧
        dispatch srv c = .ok w2 ∧ w1.conn = w2.conn ∧
        w1.log = w2.log.filter (fun ev => !ev.isRoute) := by
      rw [foldl_use, List.nil_append]
      by_cases he : srv.globalMiddleware = []
      · refine ⟨{ conn := routingStep srv c, middlewareIndex := 0, log := [] ++ [.final] },
          routeOrNotFound srv { conn := c, middlewareIndex := 0, log := [] },
          by simp only [execute, he, List.map_nil, List.isEmpty_nil, if_true],
          by simp only [dispatch, he, List.isEmpty_nil, Bool.not_true, Bool.false_eq_true,
            if_false], rfl, ?_⟩
        rw [routeOrNotFound_filter]
        rfl
      · have hne : srv.globalMiddleware.isEmpty = false := by
          cases hg : srv.globalMiddleware with
          | nil => exact absurd hg he
          | cons a b => rfl
        have hne2 : (srv.globalMiddleware.map
            (fun f => ({ path := [], function := f } : MiddlewareEntry))).isEmpty = false := by
          cases hg : srv.globalMiddleware with
          | nil => exact absurd hg he
          | cons a b => rfl
        obtain ⟨w1, w2, e1, e2, hc, hl⟩ := executeNext_serverNext srv h
          (srv.globalMiddleware.length + 1) 0
          { conn := c, middlewareIndex := 0, log := [] }
          { conn := c, middlewareIndex := 0, log := [] } rfl rfl rfl (Nat.zero_le _) (by omega)
        refine ⟨w1, w2, ?_, ?_, hc, hl⟩
        · simp only [execute, hne2, Bool.false_eq_true, if_false, List.length_map]
          exact e1
        · simp only [dispatch, hne, Bool.not_false, if_true]
          exact e2
    obtain ⟨w1, w2, e1, e2, hc, hl⟩ := key
    refine ⟨w1, w2, e1, e2, hc, hl, ?_, ?_⟩
    · rw [hl, List.mem_filter]
      simp [Event.isRoute]
    · intro i
      rw [hl, List.mem_filter]
      simp [Event.isRoute]
  · intro hs
    simp only [processRequest, hs]

/-- Instance of C38: the server with the global middleware `mwContinue`, then `mwHeader`,
on a request for `/public`. -/
theorem execute_agrees_with_processRequest_witness :
    (∀ m ∈ twoStepServer.globalMiddleware, ∀ c, (m c).AtMostOnce) ∧
    ((∃ w1 w2,
      execute (twoStepServer.globalMiddleware.foldl Middleware.use []) (routingStep twoStepServer)
        { conn := demoConn "/public".toList, middlewareIndex := 0, log := [] } = .ok w1 ∧
      dispatch twoStepServer (demoConn "/public".toList) = .ok w2 ∧ w1.conn = w2.conn ∧
      w1.log = w2.log.filter (fun ev => !ev.isRoute) ∧
      (Event.final ∈ w1.log ↔ Event.final ∈ w2.log) ∧
      (∀ i, Event.invoke i ∈ w1.log ↔ Event.invoke i ∈ w2.log)) ∧
    (staticLoop twoStepServer.serveFile
        { demoConn "/public".toList with
          res := (demoConn "/public".toList).res.setDefaultHeaders }
        twoStepServer.staticPaths = none →
      processRequest twoStepServer (demoConn "/public".toList) =
        dispatch twoStepServer { demoConn "/public".toList with
          res := (demoConn "/public".toList).res.setDefaultHeaders })) :=
  have hyp : ∀ m ∈ twoStepServer.globalMiddleware, ∀ c, (m c).AtMostOnce := by
    intro m hm c'
    simp only [twoStepServer, emptyServer, HttpServer.use, List.nil_append,
      List.cons_append, List.mem_cons, List.mem_singleton, List.not_mem_nil, or_false] at hm
    rcases hm with rfl | rfl <;> simp [mwContinue, mwHeader, Mw.AtMostOnce, Mw.Returns]
  ⟨hyp, execute_agrees_with_processRequest twoStepServer (demoConn "/public".toList) hyp⟩

/-! ## The handler of `POST /api/users` -/

theorem needsNoEscape_cons (c : Char) (cs : Str) (h : needsNoEscape (c :: cs) = true) :
    (32 ≤ c.toNat ∧ c ≠ '"' ∧ c ≠ '\\') ∧ needsNoEscape cs = true := by
  simp only [needsNoEscape, List.all_cons, Bool.and_eq_true, decide_eq_true_eq, bne_iff_ne,
    ne_eq] at h ⊢
  exact ⟨⟨h.1.1.1, h.1.1.2, h.1.2⟩, h.2⟩

theorem escapeChar_of_needsNoEscape (c : Char) (h1 : 32 ≤ c.toNat) (h2 : c ≠ '"')
    (h3 : c ≠ '\\') : escapeChar c = [c] := by
  have e8 : c ≠ Char.ofNat 8 := by
    intro h; rw [h] at h1; exact absurd h1 (by decide)
  have e12 : c ≠ Char.ofNat 12 := by
    intro h; rw [h] at h1; exact absurd h1 (by decide)
  have en : c ≠ '\n' := by
    intro h; rw [h] at h1; exact absurd h1 (by decide)
  have er : c ≠ '\r' := by
    intro h; rw [h] at h1; exact absurd h1 (by decide)
  have et : c ≠ '\t' := by
    intro h; rw [h] at h1; exact absurd h1 (by decide)
  have hlt : ¬ c.toNat < 32 := by omega
  simp [escapeChar, h2, h3, e8, e12, en, er, et, hlt]

theorem escapeString_of_needsNoEscape (s : Str) (h : needsNoEscape s = true) :
    escapeString s = s ∧ plainText s := by
  induction s with
  | nil => exact ⟨rfl, fun c hc => absurd hc (List.not_mem_nil c)⟩
  | cons c cs ih =>
    obtain ⟨⟨h1, h2, h3⟩, hcs⟩ := needsNoEscape_cons c cs h
    obtain ⟨ih1, ih2⟩ := ih hcs
    refine ⟨?_, ?_⟩
    · rw [escapeString, escapeChar_of_needsNoEscape c h1 h2 h3, ih1]
      rfl
    · intro d hd
      rcases List.mem_cons.mp hd with rfl | hd
      · exact Or.inl h1
      · exact ih2 d hd

theorem stringifyLoop_member {N : Type} (showDouble : N → Str) (k v : Str)
    (data : List (Str × Json N)) (h : (k, Json.str v) ∈ data) (first : Bool) :
    ('"' :: (escapeString k ++ ['"', ':'])) ++ ('"' :: (escapeString v ++ ['"'])) <:+:
      stringifyLoop showDouble first data := by
  induction data generalizing first with
  | nil => exact absurd h (List.not_mem_nil _)
  | cons p rest ih =>
    rcases List.mem_cons.mp h with rfl | h
    · simp only [stringifyLoop, stringifyValue]
      exact ⟨if first then [] else [','], stringifyLoop showDouble false rest, by
        simp only [List.append_assoc]⟩
    · obtain ⟨a, b, hab⟩ := ih h false
      simp only [stringifyLoop]
      refine ⟨(if first then [] else [',']) ++
        ('"' :: (escapeString p.1 ++ ['"', ':'])) ++ stringifyValue showDouble p.2 ++ a, b, ?_⟩
      rw [← hab]
      simp only [List.append_assoc]

theorem stringify_member {N : Type} (showDouble : N → Str) (k v : Str)
    (data : List (Str × Json N)) (h : (k, Json.str v) ∈ data) :
    ('"' :: (escapeString k ++ ['"', ':'])) ++ ('"' :: (escapeString v ++ ['"'])) <:+:
      stringify showDouble data := by
  obtain ⟨a, b, hab⟩ := stringifyLoop_member showDouble k v data h true
  refine ⟨'\x7b' :: a, b ++ ['\x7d'], ?_⟩
  simp only [stringify, ← hab, List.append_assoc, List.cons_append]

theorem json_response (res : Response) (data : Str) :
    (res.json data).statusCode = res.statusCode ∧ (res.json data).body = data ∧
    mapFind (res.json data).headers "Content-Type".toList = some "application/json".toList := by
  have e1 : normalizeHeaderName "Content-Type".toList = "Content-Type".toList := by decide
  have e2 : normalizeHeaderName "Content-Length".toList = "Content-Length".toList := by decide
  have hne : "Content-Length".toList ≠ "Content-Type".toList := by decide
  simp only [Response.json, Response.send, Response.set, e1, e2]
  split
  · refine ⟨rfl, rfl, ?_⟩
    simp only
    rw [mapFind_mapSet_ne _ _ _ _ hne, mapFind_mapSet]
  · refine ⟨rfl, rfl, ?_⟩
    simp only
    rw [mapFind_mapSet]

theorem postUsers_created {N : Type} (stod : Str → Option N) (showDouble : N → Str)
    (iter : List (Str × Json N) → List (Str × Json N)) (nm em : Str)
    (hN : needsNoEscape nm = true) (hiter : ∀ m, (iter m).Perm m)
    (c : Conn) (m : List (Str × Json N)) (hp : parse stod c.req.body = .ok m)
    (h1 : anyFind m "name".toList = some (.str nm))
    (h2 : anyFind m "email".toList = some (.str em)) :
    ∃ c', postUsers stod showDouble iter c = .ok c' ∧ c'.req = c.req ∧
      c'.res.statusCode = 201 ∧
      mapFind c'.res.headers "Content-Type".toList = some "application/json".toList ∧
      "\"name\":\"".toList ++ nm ++ ['"'] <:+: c'.res.body := by
  obtain ⟨hs, hb, hct⟩ := json_response (c.res.status 201) (stringify showDouble (iter
    [("id".toList, .int 4), ("name".toList, .str nm), ("email".toList, .str em),
      ("created_at".toList, .cstr "2024-01-01".toList)]))
  refine ⟨{ c with res := (c.res.status 201).json (stringify showDouble (iter
    [("id".toList, .int 4), ("name".toList, .str nm), ("email".toList, .str em),
      ("created_at".toList, .cstr "2024-01-01".toList)])) }, by
    simp only [postUsers, hp, h1, h2, anyCastString, Option.isNone_some, Bool.or_self,
      Bool.false_eq_true, if_false], rfl, hs, hct, ?_⟩
  simp only [hb]
  have hmem : ("name".toList, Json.str nm) ∈ iter
      [("id".toList, .int 4), ("name".toList, .str nm), ("email".toList, .str em),
        ("created_at".toList, .cstr "2024-01-01".toList)] := by
    rw [(hiter _).mem_iff]
    simp
  have := stringify_member showDouble "name".toList nm _ hmem
  rw [(escapeString_of_needsNoEscape nm hN).1] at this
  exact this

theorem parseValue_plain_string {N : Type} (stod : Str → Option N) (s rest : Str) (f : Nat)
    (h : needsNoEscape s = true) :
    parseValue stod (f + 1) ('"' :: (s ++ '"' :: rest)) = .ok (.str s, rest) := by
  obtain ⟨he, hpl⟩ := escapeString_of_needsNoEscape s h
  have hk := parseStringLoop_escapeString s rest hpl
  rw [he] at hk
  rw [parseValue]
  simp [skipWhitespace, isJsonSpace, parseString, hk]

theorem parseLoop_plain_member {N : Type} (pv : Str → Except JsonError (Json N × Str))
    (n : Nat) (k vtext : Str) (acc : List (Str × Json N)) (hk : needsNoEscape k = true) :
    parseLoop pv (n + 1) ('"' :: (k ++ '"' :: ':' :: vtext)) acc =
      match pv (skipWhitespace vtext) with
      | .error e => .error e
      | .ok (v, s5) => parseLoop pv n (skipComma (skipWhitespace s5)) (anySet acc k v) := by
  obtain ⟨he, hpl⟩ := escapeString_of_needsNoEscape k hk
  have hs := parseStringLoop_escapeString k (':' :: vtext) hpl
  rw [he] at hs
  rw [parseLoop_succ]
  simp [skipWhitespace, isJsonSpace, parseString, hs]

theorem parse_name_email {N : Type} (stod : Str → Option N) (nm em tail : Str)
    (hN : needsNoEscape nm = true) (hE : needsNoEscape em = true) :
    parse stod ("\x7b\"name\":\"".toList ++ nm ++ "\",\"email\":\"".toList ++ em ++
      "\"\x7d".toList ++ tail) =
      .ok [("name".toList, .str nm), ("email".toList, .str em)] := by
  have e : "\x7b\"name\":\"".toList ++ nm ++ "\",\"email\":\"".toList ++ em ++
      "\"\x7d".toList ++ tail =
      '\x7b' :: '"' :: ("name".toList ++ '"' :: ':' :: '"' :: (nm ++ '"' :: ',' :: '"' ::
        ("email".toList ++ '"' :: ':' :: '"' :: (em ++ '"' :: '\x7d' :: tail)))) := by
    simp [List.append_assoc]
  rw [e]
  generalize hF : ('\x7b' :: '"' :: ("name".toList ++ '"' :: ':' :: '"' :: (nm ++ '"' :: ',' ::
    '"' :: ("email".toList ++ '"' :: ':' :: '"' :: (em ++ '"' :: '\x7d' :: tail))))).length = F
  obtain ⟨k, rfl⟩ : ∃ k, F = k + 2 := ⟨F - 2, by
    rw [← hF]
    simp only [List.length_cons, List.length_append]
    omega⟩
  have hkn : needsNoEscape "name".toList = true := by decide
  have hke : needsNoEscape "email".toList = true := by decide
  have hv1 := parseValue_plain_string stod nm (',' :: '"' ::
    ("email".toList ++ '"' :: ':' :: '"' :: (em ++ '"' :: '\x7d' :: tail))) (k + 2) hN
  have hv2 := parseValue_plain_string stod em ('\x7d' :: tail) (k + 2) hE
  have h0 : ∀ x : Str, skipWhitespace ('"' :: x) = '"' :: x := fun x => rfl
  have hp : ∀ t : Str, parse stod ('\x7b' :: t) =
      parseLoop (fun s' => parseValue stod (('\x7b' :: t).length + 1) s')
        (('\x7b' :: t).length + 1) (skipWhitespace t) [] := fun t => rfl
  rw [hp, hF, h0]
  rw [parseLoop_plain_member _ _ _ _ _ hkn, h0, hv1]
  simp only
  have h1 : skipComma (skipWhitespace (',' :: '"' ::
      ("email".toList ++ '"' :: ':' :: '"' :: (em ++ '"' :: '\x7d' :: tail)))) =
      '"' :: ("email".toList ++ '"' :: ':' :: '"' :: (em ++ '"' :: '\x7d' :: tail)) := rfl
  rw [h1, parseLoop_plain_member _ _ _ _ _ hke, h0, hv2]
  simp only
  have h2 : skipComma (skipWhitespace ('\x7d' :: tail)) = '\x7d' :: tail := rfl
  rw [h2, parseLoop_succ]
  rfl

/-- C34: the handler of `POST /api/users` of the example application, for texts `nm`
and `em` free of characters that need escaping and whatever order the map `newUser` is
iterated in. On every request whose body `parse` reads as a map with the `std::string`
`nm` under `name` and the `std::string` `em` under `email`, and so on every body
`{"name":"nm","email":"em"}` with any text after it, the handler returns with status 201,
`Content-Type: application/json` and a body that contains `"name":"nm"`; the request is
left as it was. -/
theorem post_users_answers_created {N : Type} (stod : Str → Option N) (showDouble : N → Str)
    (iter : List (Str × Json N) → List (Str × Json N)) (nm em : Str)
    (hN : needsNoEscape nm = true) (hE : needsNoEscape em = true)
    (hiter : ∀ m, (iter m).Perm m) :
    (∀ (c : Conn) (m : List (Str × Json N)), parse stod c.req.body = .ok m →
      anyFind m "name".toList = some (.str nm) → anyFind m "email".toList = some (.str em) →
      ∃ c', postUsers stod showDouble iter c = .ok c' ∧ c'.req = c.req ∧
        c'.res.statusCode = 201 ∧
        mapFind c'.res.headers "Content-Type".toList = some "application/json".toList ∧
        "\"name\":\"".toList ++ nm ++ ['"'] <:+: c'.res.body) ∧
    (∀ (c : Conn) (tail : Str),
      c.req.body = "\x7b\"name\":\"".toList ++ nm ++ "\",\"email\":\"".toList ++ em ++
        "\"\x7d".toList ++ tail →
      ∃ c', postUsers stod showDouble iter c = .ok c' ∧ c'.req = c.req ∧
        c'.res.statusCode = 201 ∧
        mapFind c'.res.headers "Content-Type".toList = some "application/json".toList ∧
        "\"name\":\"".toList ++ nm ++ ['"'] <:+: c'.res.body) := by
  refine ⟨fun c m hp h1 h2 => postUsers_created stod showDouble iter nm em hN hiter c m hp h1 h2,
    fun c tail hb => ?_⟩
  refine postUsers_created stod showDouble iter nm em hN hiter c
    [("name".toList, .str nm), ("email".toList, .str em)] ?_ rfl rfl
  rw [hb]
  exact parse_name_email stod nm em tail hN hE

/-- Instance of C34: the request `POST /api/users` with the body
`{"name":"X","email":"y@z.com"}` as `decodeRequest` hands it on, the map `newUser`
iterated from its last member to its first. -/
theorem post_users_answers_created_witness :
    needsNoEscape "X".toList = true ∧ needsNoEscape "y@z.com".toList = true ∧
    (∀ m : List (Str × Json Dec), (List.reverse m).Perm m) ∧
    (decodeRequest ("POST /api/users HTTP/1.1\r\nContent-Type: application/json\r\n\r\n" ++
      "\x7b\"name\":\"X\",\"email\":\"y@z.com\"\x7d").toList).body =
      "\x7b\"name\":\"".toList ++ "X".toList ++ "\",\"email\":\"".toList ++ "y@z.com".toList ++
        "\"\x7d".toList ++ "\n".toList ∧
    ∃ c', postUsers stodDec showDec List.reverse
        { req := decodeRequest
            ("POST /api/users HTTP/1.1\r\nContent-Type: application/json\r\n\r\n" ++
              "\x7b\"name\":\"X\",\"email\":\"y@z.com\"\x7d").toList,
          res := Response.new.setDefaultHeaders } = .ok c' ∧
      c'.req = decodeRequest
        ("POST /api/users HTTP/1.1\r\nContent-Type: application/json\r\n\r\n" ++
          "\x7b\"name\":\"X\",\"email\":\"y@z.com\"\x7d").toList ∧
      c'.res.statusCode = 201 ∧
      mapFind c'.res.headers "Content-Type".toList = some "application/json".toList ∧
      "\"name\":\"".toList ++ "X".toList ++ ['"'] <:+: c'.res.body :=
  ⟨by decide, by decide, fun m => List.reverse_perm m, by decide,
    (post_users_answers_created stodDec showDec List.reverse "X".toList "y@z.com".toList
      (by decide) (by decide) (fun m => List.reverse_perm m)).2
      { req := decodeRequest
          ("POST /api/users HTTP/1.1\r\nContent-Type: application/json\r\n\r\n" ++
            "\x7b\"name\":\"X\",\"email\":\"y@z.com\"\x7d").toList,
        res := Response.new.setDefaultHeaders } "\n".toList (by decide)⟩

end HttpApi
